import Mathlib

/-!
# Verification of the fibvec compressed integer vector

Shallow embedding of the `fibvec` package: a vector storing unsigned integers
as Fibonacci codewords in a bit buffer, with sampled rank (`ranks`) and select
(`indices`) auxiliary arrays, a table-driven byte-at-a-time Fibonacci decoder,
and `select11` locating the i-th `11` codeword-start pair.

Sources embedded:
- `vec.go`: `Vector`, `init`/`NewVector`, `Add`, `Get`, `GetValues`,
  `select11`, `popcount11_64`, `select11_64`.
- the Fibonacci coder file (single-word variant): `fib`, `vf1`, `fibTable1`,
  `fibTable2`, `MaxValue`, `fencode`, `fibencode`, `fibdecode`,
  `decodeBuffer`, `fibshift`, `createRecord`, `fdecode`, `lfibshift1`.

The external `bit` package (`bit.Array`, `bit.PopCount`, `bit.Select`) is not
part of the repository; it is modelled from the spec's interface description
(bit-packed append, insert at a bit index, 64-bit word view, popcount,
select).  Machine integers are embedded as `Nat`; `uint8`/`uint64` overflow
points carry explicit `% 256` / masks exactly where the Go code wraps.
-/

set_option maxRecDepth 8000

namespace Fibvec

/-! ## Bit-stream basics

A bit buffer is embedded as a natural number together with its bit length:
bit `i` of the stream is `Nat.testBit` at `i` (bit `i % 64` of word `i / 64`,
LSB first, matching the little-endian word/byte aliasing described in the
spec). -/

/-! ## Fibonacci number table

`fib[0]=1, fib[1]=1, fib[i]=fib[i-1]+fib[i-2]` from the source's `init`,
computed iteratively (the source fills a 64-entry table; uses stay below 64).
-/

/-- Iterative pair `(fib n, fib (n+1))`. -/
def fibPair : Nat → Nat × Nat
  | 0 => (1, 1)
  | n + 1 => ((fibPair n).2, (fibPair n).1 + (fibPair n).2)

/-- The source's Fibonacci table: `fib 0 = 1`, `fib 1 = 1`, `fib (n+2) = fib (n+1) + fib n`. -/
def fib (n : Nat) : Nat := (fibPair n).1

/-- `MaxValue` from the single-word coder source: the largest storable value. -/
def MaxValue : Nat := 10610209857720

/-! ## Encoder (`fencode`, `fibencode`) -/

/-- First loop of `fencode`: starting from `p`, advance while `fib p ≤ n`.
The Go loop is bounded by its 64-entry table; fuel 64 covers the encodable
range (the loop exits at `p ≤ 63` for `n < fib 63`). -/
def fencodeSearch (n : Nat) : Nat → Nat → Nat
  | 0, p => p
  | fuel + 1, p => if fib p ≤ n then fencodeSearch n fuel (p + 1) else p

/-- Second loop of `fencode`: iterates indices `j, j-1, …, 0`; each step
shifts `fn` right once and, when `fib j ≤ n`, subtracts `fib j` and ORs in the
top mask `m`.  Returns the final `fn`. -/
def fencodeLoop (m : Nat) : Nat → Nat → Nat → Nat
  | 0, n, fn => if fib 0 ≤ n then (fn / 2) ||| m else fn / 2
  | j + 1, n, fn =>
      if fib (j + 1) ≤ n then fencodeLoop m j (n - fib (j + 1)) ((fn / 2) ||| m)
      else fencodeLoop m j n (fn / 2)

/-- `fencode` returns the (reversed, terminator-first) Fibonacci codeword of
`n ≥ 2` packed LSB-first in one word, together with its bit length. -/
def fencode (n : Nat) : Nat × Nat :=
  let p := fencodeSearch n 64 1
  let m := 2 ^ p
  (fencodeLoop m (p - 1) n m, p)

/-- `fibencode n = fencode (n + 2)`: the `+2` offset makes the minimum
codeword `011`, so the stream never holds more than 3 consecutive ones. -/
def fibencode (n : Nat) : Nat × Nat := fencode (n + 2)

/-! ## External bit package (modelled)

Modelled from the spec: the external `bit.Array` is a bit-packed append
buffer ("Append and random-access packed bits in a flat 64-bit word array",
insert-at-bit-index, word view); `bit.PopCount`/`bit.Select` are ordinary
64-bit popcount and select primitives. -/

/-- Modelled from the spec: the external `bit.Array`, as its logical bit
stream: `len` stored bits, bit `i` of the stream being `bits.testBit i`
(all bits at or above `len` are zero). -/
structure BitArray where
  len : Nat
  bits : Nat
  deriving DecidableEq

/-- Modelled from the spec: `bit.Array.Add(v, n)` appends the low `n` bits of
`v`, LSB first. -/
def BitArray.add (a : BitArray) (v n : Nat) : BitArray :=
  ⟨a.len + n, a.bits + (v % 2 ^ n) * 2 ^ a.len⟩

/-- Modelled from the spec: `bit.Array.Insert(idx, v, n)` writes the low `n`
bits of `v` at bit index `idx`, extending the length to `idx + n` when the
write reaches past the end.  (`Add` always calls it with `idx + n ≥ len`,
overwriting the old 3-bit terminator; step 10 of the spec's `Add` then
"rewrites the trailing terminator at the new end", so exactly one terminator
remains.) -/
def BitArray.insert (a : BitArray) (idx v n : Nat) : BitArray :=
  ⟨max a.len (idx + n),
   a.bits % 2 ^ idx + (v % 2 ^ n) * 2 ^ idx + (a.bits >>> (idx + n)) <<< (idx + n)⟩

/-- Modelled from the spec: the word view `bit.Array.Bits()`: `⌈len/64⌉`
64-bit words, word `a` holding stream bits `64a .. 64a+63`, unwritten bits
zero. -/
def wordsOf (a : BitArray) : List Nat :=
  (List.range ((a.len + 63) / 64)).map fun i => (a.bits >>> (64 * i)) % 2 ^ 64

/-- Modelled from the spec: `bit.PopCount`, ordinary 64-bit popcount. -/
def popCount (v : Nat) : Nat := ((List.range 64).filter v.testBit).length

/-- Modelled from the spec: `bit.Select(v, i)`, the bit index of the `i`-th
(1-indexed) set bit of the 64-bit word `v`. -/
def bitSelect (v i : Nat) : Nat := ((List.range 64).filter v.testBit).getD (i - 1) 0

/-! ## `popcount11_64` and `select11_64` (vec.go) -/

/-- The two reductions shared by `popcount11_64` and `select11_64`:
`v &= v >> 1` then `v &= ^(v >> 1)` (Go `^` on `uint64` is XOR with all
ones). -/
def pairReduce (v : Nat) : Nat :=
  let v1 := v &&& (v >>> 1)
  v1 &&& ((v1 >>> 1) ^^^ (2 ^ 64 - 1))

/-- `popcount11_64` from vec.go: counts `11` pairs in a word (assuming no more
than 3 consecutive ones). -/
def popcount11_64 (v : Nat) : Nat := popCount (pairReduce v)

/-- `select11_64` from vec.go: index of the `i`-th `11` pair of a word. -/
def select11_64 (v i : Nat) : Nat := bitSelect (pairReduce v) i

/-! ## The vector (vec.go) -/

/-- Rank sampling block size in bits (vec.go `sr`). -/
def sr : Nat := 512

/-- Select sampling block size in `11` pairs (vec.go `ss`). -/
def ss : Nat := 640

/-- The vector: bit buffer, rank samples, select samples, pair count, length.
(vec.go `Vector`). -/
structure Vector where
  bits : BitArray
  ranks : List Nat
  indices : List Nat
  popcount : Nat
  length : Nat
  initialized : Bool
  deriving DecidableEq

/-- `NewVector`/`init` from vec.go: empty buffer plus the terminating bits
`0x3` (3 bits, stream `1,1,0`), one zero rank sample, one zero select
sample. -/
def newVector : Vector :=
  { bits := BitArray.add ⟨0, 0⟩ 0x3 3
    ranks := [0]
    indices := [0]
    popcount := 0
    length := 0
    initialized := true }

/-- `Add` from vec.go, for an in-range value (`Add` panics outside
`[MinValue, MaxValue]`; `buildVec` below only ever adds in-range values, and
a vector built by `NewVector` is already initialized).  The sign-magnitude
remap `toSignMagnitude` is in the repository's missing coder file; modelled
from the spec ("sign bit in the MSB, magnitude in the remaining bits") it is
the identity on the nonnegative range embedded here, and `fibencode` is the
in-source single-word encoder, whose codewords are at most 63 bits, so the
`lfc > 64` multi-word branch of `Add` is dead and is omitted. -/
def vecAdd (v : Vector) (n : Nat) : Vector :=
  let nn := n
  let length := v.length + 1
  let idx := v.bits.len - 3
  let enc := fibencode nn
  let fc := enc.1
  let lfc := enc.2
  let size := lfc
  let b1 := v.bits.insert idx fc lfc
  let b2 := if (b1.len - 1) % 64 = 62 then b1.add 0x3 2 else b1
  let popcount := v.popcount + 1
  let vlen := b2.len
  let lenranks := v.ranks.length
  let ranks :=
    if lenranks * sr < vlen then
      v.ranks ++ [if size ≤ vlen - lenranks * sr then popcount - 1 else popcount]
    else v.ranks
  let lenidx := v.indices.length
  let indices :=
    if lenidx * ss < popcount then v.indices ++ [idx ^^^ 0x3F] else v.indices
  { bits := b2.add 0x3 3
    ranks := ranks
    indices := indices
    popcount := popcount
    length := length
    initialized := true }

/-- Building a vector by `Add`-ing each element of `vals` in order to a new
vector. -/
def buildVec (vals : List Nat) : Vector := vals.foldl vecAdd newVector

/-! ## `select11` (vec.go)

The Go function indexes `v.indices[j]`, `rq[k]` (where `k` can become `-1`),
and `vbits[ii+1]`; any such access can in principle be out of range, which in
Go is a panic.  The embedding distinguishes the three possible outcomes:
`oob` (a panicking access), `fell` (the word scan ran off the end of the
slice without reaching `rank ≥ i`; Go then returns the initial `idx = 0`),
and `found idx` (the loop hit `rank ≥ i` and selected a bit index). -/

/-- Result of the embedded `select11`. -/
inductive ScanRes where
  | oob : ScanRes
  | fell : ScanRes
  | found : Nat → ScanRes
  deriving DecidableEq

/-- The mask `m = 0xC000000000000000` (bits 62 and 63) from `select11`. -/
def m64 : Nat := 0xC000000000000000

/-- The word scan of `select11`: accumulate `popcount11_64` per word, with
the correction that a trailing `11` continued by a `1` in the next word is
not a codeword start; stop when `rank ≥ i` and select within the word.
`pos` is the absolute index of the current word. -/
def scanWords (i : Nat) : List Nat → Nat → Nat → ScanRes
  | [], _rank, _pos => ScanRes.fell
  | b :: rest, rank, pos =>
    if b &&& m64 = m64 then
      match rest with
      | [] => ScanRes.oob
      | nxt :: rest2 =>
        let corr := nxt &&& 1 = 1
        let rank2 := rank + popcount11_64 b - (if corr then 1 else 0)
        if i ≤ rank2 then
          let overflow := rank2 - i
          let popcnt := popcount11_64 b - (if corr then 1 else 0)
          ScanRes.found (pos * 64 + select11_64 b (popcnt - overflow))
        else scanWords i (nxt :: rest2) rank2 (pos + 1)
    else
      let rank2 := rank + popcount11_64 b
      if i ≤ rank2 then
        let overflow := rank2 - i
        ScanRes.found (pos * 64 + select11_64 b (popcount11_64 b - overflow))
      else scanWords i rest rank2 (pos + 1)

/-- `select11` from vec.go: locate the `i`-th `11` pair (1-indexed).  The
`for k, r = range rq` loop leaves `k` at the predecessor of the first index
with `rq[k] ≥ i` (`-1`, a panic, if that is index 0), or at `len(rq)-1` if no
entry reaches `i` (a panic if `rq` is empty). -/
def select11E (v : Vector) (i : Nat) : ScanRes :=
  let j := (i - 1) / ss
  match v.indices.get? j with
  | none => ScanRes.oob
  | some ij =>
    let q := ij / sr
    let rq := v.ranks.drop q
    let k? : Option Nat :=
      match rq.findIdx? (fun r => decide (i ≤ r)) with
      | some 0 => none
      | some (k0 + 1) => some k0
      | none =>
        match rq.length with
        | 0 => none
        | l + 1 => some l
    match k? with
    | none => ScanRes.oob
    | some k =>
      match rq.get? k with
      | none => ScanRes.oob
      | some rank0 =>
        let aidx := ((q + k) * sr) >>> 6
        let wsAll := wordsOf v.bits
        if aidx > wsAll.length then ScanRes.oob
        else scanWords i (wsAll.drop aidx) rank0 aidx

/-! ## Decoder tables (the coder source's `fibRecord`, `fdecode`,
`lfibshift1`, `createRecord`, `fibTable1`, `fibTable2`, `vf1`) -/

/-- `fibRecord` from the coder source: how one input byte advances the
decoder.  `numbers` are the codeword fragments beginning inside the byte,
`incomplete` the tail fragment continuing into the next byte, `shift` its bit
length. -/
structure fibRecord where
  shift : Nat
  numbers : List Nat
  incomplete : Nat
  deriving DecidableEq

/-- Loop of `fdecode`.  The Go loop runs `while bits != 0` on a `uint8`;
each iteration shifts `bits` left once (mod 256), so fuel 8 is exact: when
the fuel runs out `bits` is already 0 and the loop exit value is returned. -/
def fdecodeAux : Nat → Nat → Nat → Nat → Nat → Nat × Nat × Bool
  | fuel, bits, n, pbit, shift =>
    if bits = 0 then (n, shift, false)
    else match fuel with
    | 0 => (n, shift, false)
    | fuel + 1 =>
      let shift := shift + 1
      let bit := bits &&& 0x80
      if bit &&& pbit ≠ 0 then (n, shift, true)
      else
        fdecodeAux fuel ((bits <<< 1) % 256) (if bit ≠ 0 then n + fib shift else n)
          bit shift

/-- `fdecode` from the coder source: decode the first Fibonacci code of a
byte starting at the most significant bit; returns the value, its size, and
whether the code is complete (a `11` was found). -/
def fdecode (bits : Nat) : Nat × Nat × Bool := fdecodeAux 8 bits 0 0 0

/-- Loop of `lfibshift1`, with the same fuel-8 embedding as `fdecodeAux`. -/
def lfibshift1Aux : Nat → Nat → Nat → Nat → Nat → Nat
  | fuel, bits, n, pbit, shift =>
    if bits = 0 then n
    else match fuel with
    | 0 => n
    | fuel + 1 =>
      let bit := bits &&& 0x80
      if bit &&& pbit ≠ 0 then n
      else
        lfibshift1Aux fuel ((bits <<< 1) % 256) (if bit ≠ 0 then n + fib shift else n)
          bit (shift + 1)

/-- `lfibshift1` from the coder source: `V(F(n) >>f 1)` of a byte's bit
pattern. -/
def lfibshift1 (bits : Nat) : Nat := lfibshift1Aux 8 bits 0 0 0

/-- `vf1` from the coder source's `init`: `vf1[n] = V(F(n) >>f 1)`, computed
by encoding `n`, left-aligning the codeword in a 64-bit word and applying
`lfibshift1` to its top byte.  The Go table has entries `1..54` (entry 0
stays zero); the function extends past 54 but is only used below 55. -/
def vf1 (i : Nat) : Nat :=
  if i = 0 then 0
  else
    let enc := fencode i
    lfibshift1 ((enc.1 <<< (64 - enc.2)) >>> 56)

/-- Loop of `createRecord`: repeatedly `fdecode` the byte and shift out the
decoded bits.  Each round shifts by at least one, so fuel 8 is exact.
Returns (numbers so far, last `shift`, processed bits, last `complete`). -/
def createRecordLoop : Nat → Nat → Nat → List Nat → Nat → Bool →
    List Nat × Nat × Nat × Bool
  | fuel, bits, processed, numbers, lastShift, complete =>
    if bits = 0 then (numbers, lastShift, processed, complete)
    else match fuel with
    | 0 => (numbers, lastShift, processed, complete)
    | fuel + 1 =>
      let r := fdecode bits
      createRecordLoop fuel ((bits <<< r.2.1) % 256) (processed + r.2.1)
        (numbers ++ [r.1]) r.2.1 r.2.2

/-- `createRecord` from the coder source: build the transition record of an
input byte `bits` of effective length `length`. -/
def createRecord (bits length : Nat) : fibRecord :=
  let r := createRecordLoop 8 bits 0 [] 0 false
  let numbers := r.1
  let lastShift := r.2.1
  let processed := r.2.2.1
  let complete := r.2.2.2
  let s2n2 : Nat × List Nat :=
    if processed < length then
      if complete then (length - processed, numbers ++ [0])
      else (lastShift + (length - processed), numbers)
    else if complete then (0, numbers)
    else (lastShift, numbers)
  let numbersR := s2n2.2.reverse
  if s2n2.1 > 0 then
    match numbersR with
    | [] => { shift := s2n2.1, numbers := [], incomplete := 0 }
    | x :: xs => { shift := s2n2.1, numbers := xs, incomplete := x }
  else { shift := 0, numbers := numbersR, incomplete := 0 }

/-- `fibTable1` from the coder source's `init`: the 8-bit transition table. -/
def fibTable1 (b : Nat) : fibRecord := createRecord b 8

/-- `fibTable2` from the coder source's `init`: for bytes with MSB set, the
record of `b << 1` (mod 256) with effective length 7; otherwise
`fibTable1`. -/
def fibTable2 (b : Nat) : fibRecord :=
  if b &&& 0x80 ≠ 0 then createRecord ((b <<< 1) % 256) 7 else fibTable1 b

/-! ## Decoder (`fibshift`, `decodeBuffer`, `fibdecode`) -/

/-- `fibshift` from the coder source: the Fibonacci left shift
`V(F(n) <<f k) = fib[k]·vn + fib[k-1]·vf1[vn]`. -/
def fibshift (vn shift : Nat) : Nat := fib shift * vn + fib (shift - 1) * vf1 vn

/-- Down-loop of `decodeBuffer` over the fragments before the last one
(passed here already reversed). -/
def decodeBufferAux : List Nat → Nat → Nat → Nat
  | [], _shift, sum => sum
  | fb :: rest, shift, sum => decodeBufferAux rest (shift + 8) (sum + fibshift fb shift)

/-- `decodeBuffer` from the coder source: reassemble the fragments of one
codeword accumulated in `fbuffer` into its value, the last fragment raw and
each earlier one Fibonacci-left-shifted.  (The Go function also empties the
global `fbuffer`; the embedding's callers thread the emptied buffer
explicitly.) -/
def decodeBuffer (fbuffer : List Nat) (shift : Nat) : Nat :=
  match fbuffer.reverse with
  | [] => 0
  | last :: rest => decodeBufferAux rest shift last

/-- Inner loop of `fibdecode` over `prevRec.numbers`: flush the pending
codeword, yield it (minus 2) when its value exceeds 1, stop at `count`
values, and start the next pending codeword with the fragment.  `Sum.inl` is
the early `return result`, `Sum.inr` the fall-through with the updated
`(fbuffer, result)`. -/
def fibdecNums (count : Nat) : List Nat → Nat → List Nat → List Nat →
    List Nat ⊕ (List Nat × List Nat)
  | [], _shift, fbuffer, result => Sum.inr (fbuffer, result)
  | num :: rest, shift, fbuffer, result =>
    let dec := decodeBuffer fbuffer (if shift = 0 then 8 else shift)
    if dec > 1 then
      let result2 := result ++ [dec - 2]
      if result2.length = count then Sum.inl result2
      else fibdecNums count rest 0 [num] result2
    else fibdecNums count rest 0 [num] result

/-- Outer loop of `fibdecode` over `input[1:]`, carrying
`(prevIn, prevRec, fbuffer, result)`. -/
def fibdecodeLoop (count : Nat) : List Nat → Nat → fibRecord → List Nat →
    List Nat → List Nat
  | [], _prevIn, _prevRec, _fbuffer, result => result
  | inB :: rest, prevIn, prevRec0, fbuffer, result =>
    let endWithOne := prevIn &&& 0x80 ≠ 0
    let rec1 := fibTable1 inB
    let startWithOne := inB &&& 1 = 1 ∧ rec1.shift > 0
    let prevRec := if inB &&& 1 = 1 ∧ rec1.shift > 0 then fibTable2 prevIn else prevRec0
    let shift := prevRec.shift
    let fbuffer1 := if shift > 0 then fbuffer ++ [prevRec.incomplete] else fbuffer
    match fibdecNums count prevRec.numbers shift fbuffer1 result with
    | Sum.inl res => res
    | Sum.inr fr =>
      if startWithOne ∧ endWithOne then
        let dec := decodeBuffer fr.1 7
        if dec > 1 then
          let result2 := fr.2 ++ [dec - 2]
          if result2.length = count then result2
          else fibdecodeLoop count rest inB rec1 [] result2
        else fibdecodeLoop count rest inB rec1 [] fr.2
      else fibdecodeLoop count rest inB rec1 fr.1 fr.2

/-- `fibdecode` from the coder source: decode up to `count` values from the
byte stream `input`.  (Go reads `input[0]` unconditionally and would panic on
an empty slice; callers always pass at least one byte.) -/
def fibdecode (input : List Nat) (count : Nat) : List Nat :=
  match input with
  | [] => []
  | b0 :: rest => fibdecodeLoop count rest b0 (fibTable1 b0) [] []

/-! ## `Get` and `GetValues` (vec.go) -/

/-- The byte view of the bit buffer: `byteSliceFromUint64Slice` on the word
view, little-endian, so byte `j` holds stream bits `8j .. 8j+7`.  There are
8 bytes per stored word. -/
def byteView (a : BitArray) : List Nat :=
  (List.range (8 * ((a.len + 63) / 64))).map fun j => (a.bits >>> (8 * j)) % 2 ^ 8

/-- Body of `Get`/`GetValues` after the bounds checks, for a located bit
index `idx`: zero the bits of word `idx >> 6` below bit `idx` (Go saves,
clears and later restores that word; the embedding is pure so no restore is
needed), reinterpret as bytes from `idx >> 3`, append two zero bytes when
fewer than 16 bytes remain, and decode `count` values. -/
def vecDecodeFrom (v : Vector) (idx count : Nat) : List Nat :=
  let aidx := idx >>> 6
  let cleared : BitArray :=
    ⟨v.bits.len, v.bits.bits % 2 ^ (64 * aidx) + (v.bits.bits >>> idx) <<< idx⟩
  let bs := (byteView cleared).drop (idx >>> 3)
  let bs2 := if bs.length < 16 then bs ++ [0, 0] else bs
  fibdecode bs2 count

/-- `Get` from vec.go for an index already known to be in bounds, as an
`Option`: `none` when `select11` hits an out-of-range access (a Go panic) or
the decoder yields nothing. -/
def vecGetN (v : Vector) (i : Nat) : Option Nat :=
  match select11E v (i + 1) with
  | ScanRes.found idx => (vecDecodeFrom v idx 1).head?
  | _ => none

/-- `Get` from vec.go with its bounds checks, `i` a Go `int`: panics (`none`)
iff `i ≥ length` or `i < 0`. -/
def vecGet (v : Vector) (i : Int) : Option Nat :=
  if (v.length : Int) ≤ i then none
  else if i < 0 then none
  else vecGetN v i.toNat

/-- Body of `GetValues` from vec.go after the bounds checks: locate value
`s` and decode `cnt` values. -/
def vecGetValuesN (v : Vector) (s cnt : Nat) : Option (List Nat) :=
  match select11E v (s + 1) with
  | ScanRes.found idx => some (vecDecodeFrom v idx cnt)
  | _ => none

/-- `GetValues` from vec.go with its bounds checks: panics (`none`) iff
`end - start ≤ 0`, `start < 0`, `end < 0`, or `end > length`. -/
def vecGetValues (v : Vector) (s e : Int) : Option (List Nat) :=
  if e - s ≤ 0 then none
  else if s < 0 ∨ e < 0 then none
  else if (v.length : Int) < e then none
  else vecGetValuesN v s.toNat (e - s).toNat

/-- The bounds check of `Get` (vec.go lines 135-139), as the condition under
which the call panics: `i ≥ v.length` or `i < 0`. -/
def vecGetPanics (v : Vector) (i : Int) : Prop :=
  (v.length : Int) ≤ i ∨ i < 0

/-- The bounds check of `GetValues` (vec.go lines 169-175), as the condition
under which the call panics: `end-start ≤ 0`, or `start < 0` or `end < 0`,
or `end > v.length`. -/
def vecGetValuesPanics (v : Vector) (s e : Int) : Prop :=
  e - s ≤ 0 ∨ (s < 0 ∨ e < 0) ∨ (v.length : Int) < e


/-! ## Evidence for the `indices` anchor (claim C4)

`Add` stores `idx ^ 0x3F` into `indices` (flipping the low six bits of the
insertion index), while both the spec and the comment on the `indices` field
("points to the beginning of the uint64 that contains the pair") call for the
64-bit-aligned anchor `idx &^ 0x3F`.  The two differ whenever `idx % 64 ≠ 63`.
The evidence below reaches a crossing of the `ss = 640` boundary by adding the
value 0 six hundred forty one times; the kernel evaluates the build in chunks
through explicit intermediate states. -/

/-- `vals` lies in the encodable range of the embedded (unsigned,
single-word) variant. -/
def Storable (vals : List Nat) : Prop := ∀ x ∈ vals, x ≤ MaxValue

/-- Adding the value 0 `k` times. -/
def addZeros (k : Nat) (v : Vector) : Vector := (List.replicate k 0).foldl vecAdd v

theorem addZeros_chain (a b : Nat) (u v w : Vector) (h1 : addZeros a u = v)
    (h2 : addZeros b v = w) : addZeros (a + b) u = w := by
  unfold addZeros at *
  rw [List.replicate_add, List.foldl_append, h1, h2]

def V64 : Vector :=
  ⟨⟨199, 349724239542972213985136839292998557468575614829345102477019⟩,
   [0], [0], 64, 64, true⟩

def V128 : Vector :=
  ⟨⟨393, 8645925931094560010010488788005159466442407092810277627808033222666568696817711537645112218836630141770321370299610843⟩,
   [0], [0], 128, 128, true⟩

def V192 : Vector :=
  ⟨⟨589, 868553704144550808039324710243566746491943312091190746058405905831206702227996070492114872903042673606516468549624300754480708138838506441439995376058389804480248878509725693659⟩,
   [0, 168], [0], 192, 192, true⟩

def V256 : Vector :=
  ⟨⟨783, 21802676935075555880126540658123485690832802594524071450537895123245198959457044233121784545380173729050399391926133785232155457104721536053043824912712068285015266448550458451521762878584261239733999689397783605886467382198134576625371⟩,
   [0, 168], [0], 256, 256, true⟩

def V320 : Vector :=
  ⟨⟨979, 2189730292730102364787917793773892491218270158476983285662070179409890601327831366945785721178056644253076940887967447991065569151064414742429907610803501207244484178882390634344184960756553331330082912461572485094516176018985786487119168495944868929868269390110713149628744989678796284980213467⟩,
   [0, 168], [0], 320, 320, true⟩

def V384 : Vector :=
  ⟨⟨1173, 54980429548405378901747865079430042041365913816393662812227583925433848671433760739186755671524404476891435607741547720920779102374226552795602213731805436647827397627513890006656013448388667512946823917669467401894716296927659311859963461469676218955203003960269369457584421889076219638454279992150063368099415056451167385116343763717274521460804531931⟩,
   [0, 168, 336], [0], 384, 384, true⟩

def V448 : Vector :=
  ⟨⟨1369, 5521884324819542772094402327788584851108307773157255499028829278652552134189859760776788544288263682878084121955822133073551240272677587304093159309814106624699111961880673048512729420352397337436663479862139741526620751725268675720329916078447944613214676620323761780154138834713305732036892839638001736630623634088652645282588135472466674111748988197831210893572086141742539122069711296500505087835968528824027⟩,
   [0, 168, 336], [0], 448, 448, true⟩

def V512 : Vector :=
  ⟨⟨1563, 138645710447788726908506570184650580372452501582952045981320578552636468530994885479330762266149032190724283975274621801347066909331093540873504844821271295661267468823540678364629014565539864935537788250696254617903397168352890626710754453965288053282884508820579346745394799453971102569465959710931775118192195967479392253762765736259375661346935392632054557586876560923008269311822158524321831558697883509452808020621999952792204585023281199655309653897769599212828379⟩,
   [0, 168, 336, 504], [0], 512, 512, true⟩

def V576 : Vector :=
  ⟨⟨1759, 13924691687460121681963718441171286429059280937035755159230722477261619586384342978674401080775781482414270065945754850015497035242365541737532319861681936764149474243290655150304956419047393524287189977482889868329359768116886003201449725356599049717659891039212031638223179778711697008971999018839886967162198472093978712491052516732554725581887541527643448461302022257019165959345466603390438526465131550323339922879770697226060074579970061631499667986210695049233232873688820027187376405088881532359448608205188014766006580955⟩,
   [0, 168, 336, 504], [0], 576, 576, true⟩

def V640 : Vector :=
  ⟨⟨1953, 349626825098706316978639320079330313129475409168376700560138434544552218973667747046253744687085999700856402394012694445791099492721625783933671164304231981882825714340891916910293684492763991291390789319446260683895603036844144530520552178073413622924728885088666425276160592507164372358041437809875722559839007699432020398874264054171838293493207479806227736083064972645440412180498854877324973701458670450012514560018117317736650981782888799313920516434604984409848252012385577861675619226716426826883591990652451230894043787877507370743366047076666693129514204193191457367278203287259⟩,
   [0, 168, 336, 504], [0], 640, 640, true⟩

theorem addZeros_64_0 : addZeros 64 newVector = V64 := by decide

theorem addZeros_64_1 : addZeros 64 V64 = V128 := by decide

theorem addZeros_64_2 : addZeros 64 V128 = V192 := by decide

theorem addZeros_64_3 : addZeros 64 V192 = V256 := by decide

theorem addZeros_64_4 : addZeros 64 V256 = V320 := by decide

theorem addZeros_64_5 : addZeros 64 V320 = V384 := by decide

theorem addZeros_64_6 : addZeros 64 V384 = V448 := by decide

theorem addZeros_64_7 : addZeros 64 V448 = V512 := by decide

theorem addZeros_64_8 : addZeros 64 V512 = V576 := by decide

theorem addZeros_64_9 : addZeros 64 V576 = V640 := by decide

/-- Building a vector from six hundred forty zeros, evaluated in chunks. -/
theorem buildZeros640 : buildVec (List.replicate 640 0) = V640 := by
  have h2 := addZeros_chain _ _ _ _ _ addZeros_64_0 addZeros_64_1
  have h3 := addZeros_chain _ _ _ _ _ h2 addZeros_64_2
  have h4 := addZeros_chain _ _ _ _ _ h3 addZeros_64_3
  have h5 := addZeros_chain _ _ _ _ _ h4 addZeros_64_4
  have h6 := addZeros_chain _ _ _ _ _ h5 addZeros_64_5
  have h7 := addZeros_chain _ _ _ _ _ h6 addZeros_64_6
  have h8 := addZeros_chain _ _ _ _ _ h7 addZeros_64_7
  have h9 := addZeros_chain _ _ _ _ _ h8 addZeros_64_8
  have h10 := addZeros_chain _ _ _ _ _ h9 addZeros_64_9
  have e : (64 + 64 + 64 + 64 + 64 + 64 + 64 + 64 + 64 + 64 : Nat) = 640 := by norm_num
  rw [e] at h10
  exact h10


/-- **C4** (counterexample).  The claim states that whenever `Add` crosses a
new select-sampling boundary (`popcount > len(indices)·ss`), the newly
appended `indices` entry equals `idx & ~63`, the 64-bit-aligned bit index of
the word containing the new codeword's first bit.  It is false: after six
hundred forty `Add`s of 0 the next `Add` inserts at `idx = 1950` and appends
`idx ^ 0x3F = 1953`, not `idx & ~63 = 1920`. -/
theorem c4_counterexample :
    ¬ (∀ (vals : List Nat) (n : Nat), Storable vals → n ≤ MaxValue →
        (buildVec vals).indices.length * ss < (vecAdd (buildVec vals) n).popcount →
        (vecAdd (buildVec vals) n).indices =
          (buildVec vals).indices ++ [((buildVec vals).bits.len - 3) / 64 * 64]) := by
  intro h
  have hs : Storable (List.replicate 640 0) := by
    intro x hx
    rw [List.eq_of_mem_replicate hx]
    exact Nat.zero_le _
  have h2 := h (List.replicate 640 0) 0 hs (Nat.zero_le _)
  rw [buildZeros640] at h2
  have h3 : V640.indices.length * ss < (vecAdd V640 0).popcount := by decide
  have h4 := h2 h3
  have h5 : ¬((vecAdd V640 0).indices =
      V640.indices ++ [(V640.bits.len - 3) / 64 * 64]) := by decide
  exact h5 h4

/-- **C4** (evaluation at the failing input).  At the six hundred
forty-first `Add` of 0 the code stores `idx ^ 0x3F = 1953` where `idx = 1950`
is the insertion index, while the spec and the comment on the `indices` field
require the word-aligned `idx & ~63 = 1920`. -/
theorem c4_code_behavior :
    (buildVec (List.replicate 640 0)).bits.len - 3 = 1950 ∧
    (vecAdd (buildVec (List.replicate 640 0)) 0).indices = [0, 1950 ^^^ 0x3F] ∧
    (1950 ^^^ 0x3F : Nat) = 1953 ∧ (1950 / 64 * 64 : Nat) = 1920 := by
  rw [buildZeros640]
  refine ⟨by decide, by decide, by decide, by decide⟩

/-- **C7**.  `Get(i)` panics exactly when `i < 0` or `i ≥ length`;
`GetValues(start, end)` panics exactly when `start ≥ end`, `start < 0`,
`end < 0`, or `end > length`.  In the embedding a panic is `none`; the pure
embedding returns without touching the vector, matching "no state mutated";
when the check passes, the call proceeds to the respective body. -/
theorem c7_bounds_errors (v : Vector) (i s e : Int) :
    (vecGetPanics v i ↔ i < 0 ∨ (v.length : Int) ≤ i) ∧
    (vecGetValuesPanics v s e ↔ e ≤ s ∨ s < 0 ∨ e < 0 ∨ (v.length : Int) < e) ∧
    (vecGetPanics v i → vecGet v i = none) ∧
    (¬ vecGetPanics v i → vecGet v i = vecGetN v i.toNat) ∧
    (vecGetValuesPanics v s e → vecGetValues v s e = none) ∧
    (¬ vecGetValuesPanics v s e →
      vecGetValues v s e = vecGetValuesN v s.toNat (e - s).toNat) := by
  refine ⟨by unfold vecGetPanics; omega, by unfold vecGetValuesPanics; omega, ?_, ?_, ?_, ?_⟩
  · intro hp
    unfold vecGetPanics at hp
    unfold vecGet
    rcases hp with hp | hp
    · rw [if_pos hp]
    · by_cases h2 : (v.length : Int) ≤ i
      · rw [if_pos h2]
      · rw [if_neg h2, if_pos hp]
  · intro hp
    unfold vecGetPanics at hp
    push_neg at hp
    unfold vecGet
    rw [if_neg (by omega), if_neg (by omega)]
  · intro hp
    unfold vecGetValuesPanics at hp
    unfold vecGetValues
    rcases hp with hp | hp | hp
    · rw [if_pos hp]
    · by_cases h2 : e - s ≤ 0
      · rw [if_pos h2]
      · rw [if_neg h2, if_pos hp]
    · by_cases h2 : e - s ≤ 0
      · rw [if_pos h2]
      · rw [if_neg h2]
        by_cases h3 : s < 0 ∨ e < 0
        · rw [if_pos h3]
        · rw [if_neg h3, if_pos hp]
  · intro hp
    unfold vecGetValuesPanics at hp
    push_neg at hp
    unfold vecGetValues
    rw [if_neg (by omega), if_neg (by omega), if_neg (by omega)]

/-- **C5** (counterexample).  The claim states that every decoded fragment
whose value after the `-2` step is at most 1 is discarded, so every value the
decoder returns would exceed 1.  It is false: the byte stream `[27, 0, 0]`
(codeword `11011`, i.e. the encoding of 0, then zero padding) decodes to
`[0]`, and `0 ≤ 1`.  The code discards a fragment iff its decoded value is at
most 1 *before* the `-2` subtraction. -/
theorem c5_counterexample :
    ¬ (∀ (input : List Nat) (count : Nat), ∀ x ∈ fibdecode input count, 1 < x) := by
  intro h
  have h0 : fibdecode [27, 0, 0] 1 = [0] := by decide
  have h1 := h [27, 0, 0] 1 0 (by rw [h0]; exact List.mem_singleton.mpr rfl)
  omega


/-! ## Bit-level characterization of `popcount11_64` and `select11_64`

A `11` pair in the run-aware sense sits at position `p` when bits `p` and
`p+1` are set and bit `p+2` is not: in a run of two ones that is the first
bit of the run, in a run of three the second.  On the vector's streams (runs
of at most three ones) this is exactly the position of a codeword-terminator
pair. -/

/-- Bit `p` heads a `11` pair of `w`. -/
def pairHead (w p : Nat) : Bool :=
  w.testBit p && w.testBit (p + 1) && !w.testBit (p + 2)

/-- The number of `11` pairs of a 64-bit word, counted from the least
significant bit: positions `p` with bits `p` and `p+1` set (the spec's "11
pairs"; under the no-triple assumption every such position also has bit
`p+2` clear). -/
def pairsIn (w : Nat) : Nat :=
  (List.range 64).countP fun p => w.testBit p && w.testBit (p + 1)

/-- `w` contains no run of three or more consecutive ones (bounded below 64:
for a 64-bit word all higher bits are zero). -/
def noTripleOnes (w : Nat) : Prop :=
  ∀ p < 64, ¬(w.testBit p = true ∧ w.testBit (p + 1) = true ∧ w.testBit (p + 2) = true)

instance (w : Nat) : Decidable (noTripleOnes w) := by
  unfold noTripleOnes
  infer_instance

theorem testBit_pairReduce (w : Nat) (hw : w < 2 ^ 64) (p : Nat) :
    (pairReduce w).testBit p = pairHead w p := by
  unfold pairReduce pairHead
  by_cases hp : p < 64
  · simp only [Nat.testBit_and, Nat.testBit_xor, Nat.testBit_shiftRight,
      Nat.testBit_two_pow_sub_one]
    have h1 : 1 + p = p + 1 := by omega
    have h2 : 1 + (p + 1) = p + 2 := by omega
    rw [h1, h2, decide_eq_true hp]
    cases hb : w.testBit p <;> cases hb1 : w.testBit (p + 1) <;>
      cases hb2 : w.testBit (p + 2) <;> rfl
  · have hge : 64 ≤ p := by omega
    have hwp : w.testBit p = false :=
      Nat.testBit_lt_two_pow (lt_of_lt_of_le hw (Nat.pow_le_pow_right (by norm_num) hge))
    simp [Nat.testBit_and, Nat.testBit_shiftRight, hwp]

theorem pairReduce_lt (w : Nat) : pairReduce w < 2 ^ 64 ∨ pairReduce w ≤ w := by
  right
  exact le_trans (Nat.and_le_left) (Nat.and_le_left)

/-- `popcount11_64` counts exactly the pair-head positions of the word. -/
theorem popcount11_64_spec (w : Nat) (hw : w < 2 ^ 64) :
    popcount11_64 w = (List.range 64).countP (pairHead w) := by
  unfold popcount11_64 popCount
  rw [← List.countP_eq_length_filter]
  exact List.countP_congr fun p _ => by rw [testBit_pairReduce w hw]

/-- `select11_64` selects among exactly the pair-head positions of the word. -/
theorem select11_64_spec (w i : Nat) (hw : w < 2 ^ 64) :
    select11_64 w i = ((List.range 64).filter (pairHead w)).getD (i - 1) 0 := by
  unfold select11_64 bitSelect
  congr 1
  exact List.filter_congr fun p _ => by rw [testBit_pairReduce w hw]

/-- **C8**.  For every 64-bit word with no run of three or more consecutive
ones, `popcount11_64` returns the number of `11` pairs in the word. -/
theorem c8_popcount11_correct (w : Nat) (hw : w < 2 ^ 64) (h3 : noTripleOnes w) :
    popcount11_64 w = pairsIn w := by
  rw [popcount11_64_spec w hw]
  unfold pairsIn
  refine List.countP_congr fun p hp => ?_
  have hp64 : p < 64 := List.mem_range.mp hp
  unfold pairHead
  constructor
  · intro h
    simp only [Bool.and_eq_true] at h ⊢
    exact h.1
  · intro h
    simp only [Bool.and_eq_true] at h ⊢
    refine ⟨h, ?_⟩
    have := h3 p hp64
    cases hb2 : w.testBit (p + 2)
    · rfl
    · exact absurd ⟨h.1, h.2, hb2⟩ this

/-- **C8** (witness): the word `0b ... 011011` = 27 has no triple run and its
two `11` pairs are counted. -/
theorem c8_popcount11_correct_witness :
    (27 : Nat) < 2 ^ 64 ∧ noTripleOnes 27 ∧ popcount11_64 27 = pairsIn 27 :=
  ⟨by norm_num, by decide, c8_popcount11_correct 27 (by norm_num) (by decide)⟩


/-! ## The decoder's discard rule (claim C5, amended)

`fibdecodeAll` runs the same byte state machine as `fibdecode` but records
*every* flushed codeword value `dec`, with no `dec > 1` guard and no `count`
cutoff.  The relation below then states the decoder's discard rule exactly:
the returned values are the flushed values greater than 1, each yielded as
`dec - 2`, truncated at `count`. -/

/-- Instrumented inner loop: like `fibdecNums` but recording every flushed
`dec`.  Returns the final `fbuffer` and the flushed values in order. -/
def fibdecAllNums : List Nat → Nat → List Nat → List Nat × List Nat
  | [], _shift, fbuffer => (fbuffer, [])
  | num :: rest, shift, fbuffer =>
    let dec := decodeBuffer fbuffer (if shift = 0 then 8 else shift)
    let r := fibdecAllNums rest 0 [num]
    (r.1, dec :: r.2)

/-- Instrumented outer loop: like `fibdecodeLoop` but recording every flushed
`dec`. -/
def fibdecodeAllLoop : List Nat → Nat → fibRecord → List Nat → List Nat
  | [], _prevIn, _prevRec, _fbuffer => []
  | inB :: rest, prevIn, prevRec0, fbuffer =>
    let rec1 := fibTable1 inB
    let prevRec := if inB &&& 1 = 1 ∧ rec1.shift > 0 then fibTable2 prevIn else prevRec0
    let shift := prevRec.shift
    let fbuffer1 := if shift > 0 then fbuffer ++ [prevRec.incomplete] else fbuffer
    let r := fibdecAllNums prevRec.numbers shift fbuffer1
    if (inB &&& 1 = 1 ∧ rec1.shift > 0) ∧ prevIn &&& 0x80 ≠ 0 then
      r.2 ++ [decodeBuffer r.1 7] ++ fibdecodeAllLoop rest inB rec1 []
    else
      r.2 ++ fibdecodeAllLoop rest inB rec1 r.1

/-- All codeword values flushed by the decoder on `input`, in order. -/
def fibdecodeAll (input : List Nat) : List Nat :=
  match input with
  | [] => []
  | b0 :: rest => fibdecodeAllLoop rest b0 (fibTable1 b0) []

/-- The post-processing the decoder applies to the flushed values: keep those
exceeding 1, subtract 2. -/
def yieldOf (decs : List Nat) : List Nat :=
  (decs.filter fun d => decide (1 < d)).map fun d => d - 2

theorem yieldOf_append (a b : List Nat) : yieldOf (a ++ b) = yieldOf a ++ yieldOf b := by
  unfold yieldOf
  rw [List.filter_append, List.map_append]

theorem fibdecNums_rel (count : Nat) (nums : List Nat) :
    ∀ (shift : Nat) (fb res : List Nat), res.length < count →
    (count ≤ (res ++ yieldOf (fibdecAllNums nums shift fb).2).length →
      fibdecNums count nums shift fb res =
        Sum.inl ((res ++ yieldOf (fibdecAllNums nums shift fb).2).take count)) ∧
    ((res ++ yieldOf (fibdecAllNums nums shift fb).2).length < count →
      fibdecNums count nums shift fb res =
        Sum.inr ((fibdecAllNums nums shift fb).1,
          res ++ yieldOf (fibdecAllNums nums shift fb).2)) := by
  induction nums with
  | nil =>
    intro shift fb res hres
    refine ⟨fun h => ?_, fun _ => ?_⟩
    · exfalso
      simp only [fibdecAllNums, yieldOf, List.filter_nil, List.map_nil,
        List.append_nil] at h
      omega
    · simp [fibdecNums, fibdecAllNums, yieldOf]
  | cons num rest ih =>
    intro shift fb res hres
    by_cases hdec : 1 < decodeBuffer fb (if shift = 0 then 8 else shift)
    · -- the flushed value is yielded
      have hyield : yieldOf (fibdecAllNums (num :: rest) shift fb).2 =
          (decodeBuffer fb (if shift = 0 then 8 else shift) - 2) ::
            yieldOf (fibdecAllNums rest 0 [num]).2 := by
        simp only [fibdecAllNums, yieldOf, List.filter_cons, decide_eq_true hdec,
          ite_true, List.map_cons]
      by_cases hfull : res.length + 1 = count
      · -- early return
        refine ⟨fun _ => ?_, fun h => ?_⟩
        · have hstep : fibdecNums count (num :: rest) shift fb res =
              Sum.inl (res ++ [decodeBuffer fb (if shift = 0 then 8 else shift) - 2]) := by
            simp only [fibdecNums]
            rw [if_pos hdec, if_pos (by simpa using hfull)]
          rw [hstep, hyield]
          rw [show (decodeBuffer fb (if shift = 0 then 8 else shift) - 2) ::
              yieldOf (fibdecAllNums rest 0 [num]).2 =
              [decodeBuffer fb (if shift = 0 then 8 else shift) - 2] ++
              yieldOf (fibdecAllNums rest 0 [num]).2 from rfl,
            ← List.append_assoc]
          rw [List.take_append_of_le_length (by simp; omega),
            List.take_of_length_le (by simp; omega)]
        · exfalso
          rw [hyield] at h
          simp only [List.length_append, List.length_cons] at h
          omega
      · -- keep going with the value appended
        have hres2 : (res ++ [decodeBuffer fb (if shift = 0 then 8 else shift) - 2]).length
            < count := by
          simp only [List.length_append, List.length_singleton]
          omega
        have ihs := ih 0 [num] (res ++ [decodeBuffer fb (if shift = 0 then 8 else shift) - 2]) hres2
        have hli : fibdecNums count (num :: rest) shift fb res =
            fibdecNums count rest 0 [num]
              (res ++ [decodeBuffer fb (if shift = 0 then 8 else shift) - 2]) := by
          simp only [fibdecNums, hdec, ite_true]
          rw [if_neg (by simp; omega)]
        have hassoc : res ++ yieldOf (fibdecAllNums (num :: rest) shift fb).2 =
            (res ++ [decodeBuffer fb (if shift = 0 then 8 else shift) - 2]) ++
              yieldOf (fibdecAllNums rest 0 [num]).2 := by
          rw [hyield, List.append_assoc]
          rfl
        have hfst : (fibdecAllNums (num :: rest) shift fb).1 =
            (fibdecAllNums rest 0 [num]).1 := rfl
        refine ⟨fun h => ?_, fun h => ?_⟩
        · rw [hli, hassoc] at *
          exact ihs.1 (by rw [hassoc] at h; exact h)
        · rw [hli, hfst, hassoc]
          exact ihs.2 (by rw [hassoc] at h; exact h)
    · -- the flushed value is discarded
      have hyield : yieldOf (fibdecAllNums (num :: rest) shift fb).2 =
          yieldOf (fibdecAllNums rest 0 [num]).2 := by
        simp only [fibdecAllNums, yieldOf, List.filter_cons]
        rw [decide_eq_false hdec]
        simp
      have hli : fibdecNums count (num :: rest) shift fb res =
          fibdecNums count rest 0 [num] res := by
        simp only [fibdecNums]
        rw [if_neg hdec]
      have hfst : (fibdecAllNums (num :: rest) shift fb).1 =
          (fibdecAllNums rest 0 [num]).1 := rfl
      have ihs := ih 0 [num] res hres
      refine ⟨fun h => ?_, fun h => ?_⟩
      · rw [hli, hyield]
        exact ihs.1 (by rw [hyield] at h; exact h)
      · rw [hli, hfst, hyield]
        exact ihs.2 (by rw [hyield] at h; exact h)


theorem fibdecodeLoop_rel (count : Nat) (bytes : List Nat) :
    ∀ (prevIn : Nat) (pr0 : fibRecord) (fb res : List Nat), res.length < count →
    fibdecodeLoop count bytes prevIn pr0 fb res =
      (res ++ yieldOf (fibdecodeAllLoop bytes prevIn pr0 fb)).take count := by
  induction bytes with
  | nil =>
    intro pI pr0 fb res hres
    simp only [fibdecodeLoop, fibdecodeAllLoop, yieldOf, List.filter_nil, List.map_nil,
      List.append_nil]
    exact (List.take_of_length_le (le_of_lt hres)).symm
  | cons inB rest ih =>
    intro pI pr0 fb res hres
    simp only [fibdecodeLoop, fibdecodeAllLoop]
    have hrel := fibdecNums_rel count
      (if inB &&& 1 = 1 ∧ (fibTable1 inB).shift > 0 then fibTable2 pI else pr0).numbers
      (if inB &&& 1 = 1 ∧ (fibTable1 inB).shift > 0 then fibTable2 pI else pr0).shift
      (if (if inB &&& 1 = 1 ∧ (fibTable1 inB).shift > 0 then fibTable2 pI
            else pr0).shift > 0
       then fb ++ [(if inB &&& 1 = 1 ∧ (fibTable1 inB).shift > 0 then fibTable2 pI
            else pr0).incomplete]
       else fb)
      res hres
    set prevRec := if inB &&& 1 = 1 ∧ (fibTable1 inB).shift > 0 then fibTable2 pI else pr0
      with hprevRec
    set fb1 := if prevRec.shift > 0 then fb ++ [prevRec.incomplete] else fb with hfb1
    set A := fibdecAllNums prevRec.numbers prevRec.shift fb1 with hA
    by_cases hfull : count ≤ (res ++ yieldOf A.2).length
    · -- the inner loop already returns early
      have hfull2 : count ≤ res.length + (yieldOf A.2).length := by
        simpa using hfull
      simp only [hrel.1 hfull]
      by_cases hcross : (inB &&& 1 = 1 ∧ (fibTable1 inB).shift > 0) ∧ pI &&& 0x80 ≠ 0
      · rw [if_pos hcross, yieldOf_append, yieldOf_append]
        rw [← List.append_assoc, ← List.append_assoc]
        exact ((List.take_append_of_le_length
            (by simp only [List.length_append]; omega)).trans
          (List.take_append_of_le_length hfull)).symm
      · rw [if_neg hcross, yieldOf_append, ← List.append_assoc]
        exact (List.take_append_of_le_length hfull).symm
    · -- the inner loop falls through
      push_neg at hfull
      have hfull2 : res.length + (yieldOf A.2).length < count := by
        simpa using hfull
      simp only [hrel.2 hfull]
      by_cases hcross : (inB &&& 1 = 1 ∧ (fibTable1 inB).shift > 0) ∧ pI &&& 0x80 ≠ 0
      · rw [if_pos hcross, if_pos hcross]
        by_cases hdec : 1 < decodeBuffer A.1 7
        · have hy7 : yieldOf [decodeBuffer A.1 7] = [decodeBuffer A.1 7 - 2] := by
            unfold yieldOf
            rw [List.filter_singleton, decide_eq_true hdec]
            rfl
          rw [if_pos hdec]
          by_cases hstop : (res ++ yieldOf A.2 ++ [decodeBuffer A.1 7 - 2]).length = count
          · rw [if_pos hstop, yieldOf_append, yieldOf_append, hy7,
              ← List.append_assoc, ← List.append_assoc]
            exact ((List.take_append_of_le_length (by omega)).trans
              (List.take_of_length_le (by omega))).symm
          · rw [if_neg hstop]
            have hlen2 : (res ++ yieldOf A.2 ++ [decodeBuffer A.1 7 - 2]).length < count := by
              simp only [List.length_append, List.length_singleton] at hstop ⊢
              omega
            rw [ih inB (fibTable1 inB) [] _ hlen2, yieldOf_append, yieldOf_append, hy7,
              ← List.append_assoc, ← List.append_assoc]
        · have hy7 : yieldOf [decodeBuffer A.1 7] = [] := by
            unfold yieldOf
            rw [List.filter_singleton, decide_eq_false hdec]
            rfl
          rw [if_neg hdec, ih inB (fibTable1 inB) [] _ hfull, yieldOf_append, yieldOf_append,
            hy7, List.append_nil, ← List.append_assoc]
      · rw [if_neg hcross, if_neg hcross, ih inB (fibTable1 inB) A.1 _ hfull,
          yieldOf_append, ← List.append_assoc]

/-- **C5** (amended).  The decoder discards a flushed codeword value `dec`
exactly when `dec ≤ 1` *before* the `-2` adjustment (the zero pads and the
`11`-pad sentinels decode to 0 and 1); every flushed value with `dec > 1` is
yielded as `dec - 2`, in order, truncated at `count` (for `count ≥ 1`; with
`count = 0` the cutoff `len(result) == count` never fires). -/
theorem c5_decoder_discard_rule (input : List Nat) (count : Nat) (h : 1 ≤ count) :
    fibdecode input count = (yieldOf (fibdecodeAll input)).take count := by
  cases input with
  | nil => simp [fibdecode, fibdecodeAll, yieldOf]
  | cons b0 rest =>
    have hr := fibdecodeLoop_rel count rest b0 (fibTable1 b0) [] []
      (by simpa using h)
    simpa [fibdecode, fibdecodeAll] using hr

/-- **C5** (witness for the amended claim): on the stream `[27, 0, 0]` the
decoder flushes the values 2 (the codeword of 0) and 0, 0 (padding); only
the first passes the `dec > 1` guard and is yielded as `2 - 2 = 0`. -/
theorem c5_decoder_discard_rule_witness :
    1 ≤ 1 ∧ fibdecode [27, 0, 0] 1 = (yieldOf (fibdecodeAll [27, 0, 0])).take 1 :=
  ⟨le_refl 1, c5_decoder_discard_rule [27, 0, 0] 1 (le_refl 1)⟩


/-! ## Shape of the encoder's codewords

`fencode m` (for `2 ≤ m < fib 63`) produces the reversed Fibonacci codeword:
bit 0 is the terminator `1`, bit `i` (for `1 ≤ i < L`) is the greedy
Zeckendorf digit of `fib (L - i)`, so the low bits read `1,1,0,…` and no two
digit bits are adjacent.  `zeckRev c j n` is the digit part of the greedy
loop: digits for Fibonacci indices `j, j-1, …, 0` placed at bit positions
`c, c+1, …, c+j`. -/

theorem fib_add_two (n : Nat) : fib (n + 2) = fib n + fib (n + 1) := rfl

theorem fib_pos (n : Nat) : 1 ≤ fib n := by
  have h : ∀ k, 1 ≤ (fibPair k).1 ∧ 1 ≤ (fibPair k).2 := by
    intro k
    induction k with
    | zero => exact ⟨le_refl 1, le_refl 1⟩
    | succ j ih =>
      refine ⟨ih.2, ?_⟩
      show 1 ≤ (fibPair j).1 + (fibPair j).2
      omega
  exact (h n).1

theorem fib_le_succ (n : Nat) : fib n ≤ fib (n + 1) := by
  cases n with
  | zero => exact le_refl 1
  | succ k =>
    rw [fib_add_two]
    have := fib_pos k
    omega

theorem fib_mono {a b : Nat} (h : a ≤ b) : fib a ≤ fib b := by
  induction b with
  | zero => simpa [Nat.le_zero.mp h]
  | succ k ih =>
    rcases Nat.lt_or_ge a (k + 1) with h2 | h2
    · exact le_trans (ih (by omega)) (fib_le_succ k)
    · have : a = k + 1 := by omega
      rw [this]

theorem fencodeSearch_spec (n : Nat) : ∀ (fuel p : Nat), n < fib (p + fuel) →
    n < fib (fencodeSearch n fuel p) ∧ p ≤ fencodeSearch n fuel p ∧
    ∀ q, p ≤ q → q < fencodeSearch n fuel p → fib q ≤ n := by
  intro fuel
  induction fuel with
  | zero =>
    intro p h
    refine ⟨by simpa using h, le_refl p, fun q h1 h2 => ?_⟩
    simp only [fencodeSearch] at h2
    omega
  | succ f ih =>
    intro p h
    simp only [fencodeSearch]
    by_cases hc : fib p ≤ n
    · rw [if_pos hc]
      have hh := ih (p + 1) (by rw [show p + 1 + f = p + (f + 1) by omega]; exact h)
      refine ⟨hh.1, le_trans (by omega) hh.2.1, fun q h1 h2 => ?_⟩
      rcases Nat.lt_or_ge q (p + 1) with h3 | h3
      · have : q = p := by omega
        rw [this]
        exact hc
      · exact hh.2.2 q h3 h2
    · rw [if_neg hc]
      exact ⟨by omega, le_refl p, fun q h1 h2 => by omega⟩

/-- The digit part of the greedy loop: digits for Fibonacci indices
`j, j-1, …, 0`, placed at bit positions `c, c+1, …, c+j`. -/
def zeckRev (c : Nat) : Nat → Nat → Nat
  | 0, n => if fib 0 ≤ n then 2 ^ c else 0
  | j + 1, n =>
      if fib (j + 1) ≤ n then 2 ^ c + zeckRev (c + 1) j (n - fib (j + 1))
      else zeckRev (c + 1) j n

theorem fencodeLoop_eq_zeckRev (P : Nat) : ∀ (j c n fn : Nat), c + j = P →
    fn < 2 ^ (P + 1) →
    fencodeLoop (2 ^ P) j n fn = fn >>> (j + 1) + zeckRev c j n := by
  intro j
  induction j with
  | zero =>
    intro c n fn hc hfn
    have hcP : c = P := by omega
    subst hcP
    simp only [fencodeLoop, zeckRev]
    have hdiv : fn / 2 < 2 ^ c := by
      have : 2 ^ (c + 1) = 2 ^ c * 2 := by ring
      omega
    by_cases h0 : fib 0 ≤ n
    · rw [if_pos h0, if_pos h0]
      have := Nat.mul_add_lt_is_or hdiv 1
      simp only [Nat.mul_one] at this
      rw [Nat.shiftRight_eq_div_pow, pow_one, Nat.lor_comm, ← this]
      omega
    · rw [if_neg h0, if_neg h0, Nat.shiftRight_eq_div_pow, pow_one]
      omega
  | succ j ih =>
    intro c n fn hc hfn
    have hdiv : fn / 2 < 2 ^ P := by
      have : 2 ^ (P + 1) = 2 ^ P * 2 := by ring
      omega
    have hor : fn / 2 ||| 2 ^ P = fn / 2 + 2 ^ P := by
      have := Nat.mul_add_lt_is_or hdiv 1
      simp only [Nat.mul_one] at this
      rw [Nat.lor_comm, ← this]
      omega
    simp only [fencodeLoop, zeckRev]
    by_cases hle : fib (j + 1) ≤ n
    · rw [if_pos hle, if_pos hle, hor]
      rw [ih (c + 1) (n - fib (j + 1)) (fn / 2 + 2 ^ P) (by omega) (by omega)]
      have hsplit : (fn / 2 + 2 ^ P) >>> (j + 1) = fn >>> (j + 2) + 2 ^ c := by
        have hP : 2 ^ P = 2 ^ c * 2 ^ (j + 1) := by
          rw [← pow_add]
          congr 1
          omega
        rw [Nat.shiftRight_eq_div_pow, Nat.shiftRight_eq_div_pow, hP,
          Nat.add_mul_div_right _ _ (Nat.pos_pow_of_pos (j + 1) (by norm_num)),
          Nat.div_div_eq_div_mul]
        congr 1
        ring
      rw [hsplit]
      ring
    · rw [if_neg hle, if_neg hle]
      rw [ih (c + 1) n (fn / 2) (by omega) (by omega)]
      have hsplit : (fn / 2) >>> (j + 1) = fn >>> (j + 2) := by
        rw [Nat.shiftRight_eq_div_pow, Nat.shiftRight_eq_div_pow,
          Nat.div_div_eq_div_mul]
        congr 1
        ring
      rw [hsplit]

theorem testBit_of_dvd_pow {c z : Nat} (h : 2 ^ (c + 1) ∣ z) {i : Nat} (hi : i ≤ c) :
    z.testBit i = false := by
  obtain ⟨t, ht⟩ := h
  rw [ht, Nat.testBit_mul_pow_two]
  simp only [Bool.and_eq_false_iff]
  left
  simp only [decide_eq_false_iff_not]
  omega

theorem zeckRev_spec : ∀ (j c n : Nat), n < fib (j + 1) →
    (zeckRev c j n < 2 ^ (c + j)) ∧
    (2 ^ c ∣ zeckRev c j n) ∧
    (n < fib j → 2 ^ (c + 1) ∣ zeckRev c j n) ∧
    ((zeckRev c j n).testBit c = decide (fib j ≤ n)) ∧
    (∀ i, ¬((zeckRev c j n).testBit i = true ∧ (zeckRev c j n).testBit (i + 1) = true)) := by
  intro j
  induction j with
  | zero =>
    intro c n hn
    have hn0 : n = 0 := by
      have : fib (0 + 1) = 1 := rfl
      omega
    subst hn0
    have hz : zeckRev c 0 0 = 0 := by
      simp only [zeckRev]
      rw [if_neg (by show ¬(fib 0 ≤ 0); have : fib 0 = 1 := rfl; omega)]
    rw [hz]
    refine ⟨Nat.pos_pow_of_pos _ (by norm_num), Dvd.intro 0 rfl,
      fun _ => Dvd.intro 0 rfl, ?_, fun i => by simp⟩
    simp only [Nat.zero_testBit]
    symm
    simp only [decide_eq_false_iff_not]
    have : fib 0 = 1 := rfl
    omega
  | succ j ih =>
    intro c n hn
    by_cases hle : fib (j + 1) ≤ n
    · have hz : zeckRev c (j + 1) n = 2 ^ c + zeckRev (c + 1) j (n - fib (j + 1)) := by
        simp only [zeckRev]
        rw [if_pos hle]
      have hlt1 : n - fib (j + 1) < fib j := by
        have he : fib (j + 1 + 1) = fib j + fib (j + 1) := fib_add_two j
        omega
      have hlt2 : n - fib (j + 1) < fib (j + 1) := lt_of_lt_of_le hlt1 (fib_le_succ j)
      have IH := ih (c + 1) (n - fib (j + 1)) hlt2
      obtain ⟨t, ht⟩ := IH.2.2.1 hlt1
      have h8 : zeckRev c (j + 1) n = 2 ^ (c + 2) * t + 2 ^ c := by
        rw [hz, ht]
        ring
      have hbc : 2 ^ c < 2 ^ (c + 2) := by
        have : (2:Nat) ^ (c + 2) = 2 ^ c * 4 := by ring
        have := Nat.pos_pow_of_pos c (show 0 < 2 by norm_num)
        omega
      have hbit : ∀ i, (zeckRev c (j + 1) n).testBit i =
          if i < c + 2 then (2 ^ c : Nat).testBit i else t.testBit (i - (c + 2)) := by
        intro i
        rw [h8, Nat.testBit_mul_pow_two_add _ hbc]
      have htb : ∀ i, i ≥ c + 2 →
          (zeckRev (c + 1) j (n - fib (j + 1))).testBit i = t.testBit (i - (c + 2)) := by
        intro i hi
        rw [ht, Nat.testBit_mul_pow_two]
        rw [decide_eq_true (by omega : i ≥ c + 2), Bool.true_and]
      refine ⟨?_, ?_, ?_, ?_, ?_⟩
      · -- bound
        rw [hz]
        rcases Nat.eq_zero_or_pos (zeckRev (c + 1) j (n - fib (j + 1))) with hz0 | hzpos
        · rw [hz0]
          have : (2:Nat) ^ c < 2 ^ (c + (j + 1)) :=
            Nat.pow_lt_pow_right (by norm_num) (by omega)
          omega
        · have hZ2 : zeckRev (c + 1) j (n - fib (j + 1)) < 2 ^ (c + 1 + j) := IH.1
          obtain ⟨u, hu⟩ := IH.2.1
          have hub : u < 2 ^ j := by
            by_contra hcon
            push_neg at hcon
            have h1 : 2 ^ (c + 1) * 2 ^ j ≤ 2 ^ (c + 1) * u :=
              Nat.mul_le_mul_left _ hcon
            rw [← pow_add] at h1
            omega
          have h2 : 2 ^ (c + 1) * u ≤ 2 ^ (c + 1) * (2 ^ j - 1) :=
            Nat.mul_le_mul_left _ (by omega)
          have hx : 2 ^ (c + 1) * (2 ^ j - 1) = 2 ^ (c + 1 + j) - 2 ^ (c + 1) := by
            rw [Nat.mul_sub_one, ← pow_add]
          have hcc : (2:Nat) ^ (c + 1) = 2 ^ c * 2 := by ring
          have hdd : (2:Nat) ^ (c + (j + 1)) = 2 ^ (c + 1 + j) := by
            congr 1
            omega
          have h4 := Nat.pos_pow_of_pos c (show 0 < 2 by norm_num)
          have h6 := Nat.pos_pow_of_pos (c + 1 + j) (show 0 < 2 by norm_num)
          omega
      · rw [h8]
        refine Dvd.dvd.add ?_ (dvd_refl _)
        exact Dvd.dvd.mul_right (pow_dvd_pow 2 (by omega)) t
      · intro hlt
        exfalso
        have := fib_le_succ j
        omega
      · rw [hbit c, if_pos (by omega), Nat.testBit_two_pow_self,
          decide_eq_true hle]
      · intro i
        rw [hbit i, hbit (i + 1)]
        by_cases h1 : i + 1 < c + 2
        · rw [if_pos (by omega), if_pos h1]
          intro hcon
          rw [Nat.testBit_two_pow, Nat.testBit_two_pow] at hcon
          have e1 := of_decide_eq_true hcon.1
          have e2 := of_decide_eq_true hcon.2
          omega
        · by_cases h2 : i < c + 2
          · rw [if_pos h2, if_neg h1]
            intro hcon
            rw [Nat.testBit_two_pow] at hcon
            have e1 := of_decide_eq_true hcon.1
            omega
          · rw [if_neg h2, if_neg h1]
            intro hcon
            refine IH.2.2.2.2 (i) ⟨?_, ?_⟩
            · rw [htb i (by omega)]
              exact hcon.1
            · rw [htb (i + 1) (by omega)]
              exact hcon.2
    · have hz : zeckRev c (j + 1) n = zeckRev (c + 1) j n := by
        simp only [zeckRev]
        rw [if_neg hle]
      have hn2 : n < fib (j + 1) := by omega
      have IH := ih (c + 1) n hn2
      refine ⟨?_, ?_, ?_, ?_, ?_⟩
      · rw [hz]
        have := IH.1
        have he : c + 1 + j = c + (j + 1) := by omega
        rw [he] at this
        exact this
      · rw [hz]
        exact dvd_trans (pow_dvd_pow 2 (by omega)) IH.2.1
      · intro _
        rw [hz]
        exact IH.2.1
      · rw [hz, testBit_of_dvd_pow IH.2.1 (le_refl c)]
        symm
        simp only [decide_eq_false_iff_not]
        omega
      · rw [hz]
        exact IH.2.2.2.2


/-- The shape of a stored codeword `(w, L)`: at least three bits, single
64-bit word, low bits `1,1,0`, and no two adjacent ones after the
terminator bit. -/
structure CwShape (w L : Nat) : Prop where
  len3 : 3 ≤ L
  len63 : L ≤ 63
  lt : w < 2 ^ L
  bit0 : w.testBit 0 = true
  bit1 : w.testBit 1 = true
  bit2 : w.testBit 2 = false
  noAdj : ∀ i, 1 ≤ i → ¬(w.testBit i = true ∧ w.testBit (i + 1) = true)

theorem fencode_unfold (m : Nat) (hm : m < fib 63) :
    ∃ P, fencode m = (1 + zeckRev 1 (P - 1) m, P) ∧ 1 ≤ P ∧ P ≤ 63 ∧
      m < fib P ∧ ∀ q, 1 ≤ q → q < P → fib q ≤ m := by
  have hs := fencodeSearch_spec m 64 1 (lt_of_lt_of_le hm (fib_mono (by norm_num)))
  refine ⟨fencodeSearch m 64 1, ?_, hs.2.1, ?_, hs.1, fun q h1 h2 => hs.2.2 q h1 h2⟩
  · have hP1 : 1 ≤ fencodeSearch m 64 1 := hs.2.1
    show (fencodeLoop (2 ^ fencodeSearch m 64 1) (fencodeSearch m 64 1 - 1) m
      (2 ^ fencodeSearch m 64 1), fencodeSearch m 64 1) = _
    rw [fencodeLoop_eq_zeckRev (fencodeSearch m 64 1) (fencodeSearch m 64 1 - 1) 1 m
      (2 ^ fencodeSearch m 64 1) (by omega)
      (Nat.pow_lt_pow_right (by norm_num) (by omega))]
    have : (2 ^ fencodeSearch m 64 1) >>> (fencodeSearch m 64 1 - 1 + 1) = 1 := by
      rw [Nat.shiftRight_eq_div_pow, show fencodeSearch m 64 1 - 1 + 1 =
        fencodeSearch m 64 1 by omega]
      exact Nat.div_self (Nat.pos_pow_of_pos _ (by norm_num))
    rw [this, Nat.add_comm]
  · by_contra hcon
    push_neg at hcon
    have := hs.2.2 63 (by norm_num) hcon
    omega

theorem fencode_shape (m : Nat) (h2 : 2 ≤ m) (hm : m < fib 63) :
    CwShape (fencode m).1 (fencode m).2 := by
  obtain ⟨P, hfe, hP1, hP63, hmP, hq⟩ := fencode_unfold m hm
  have hP3 : 3 ≤ P := by
    by_contra hcon
    push_neg at hcon
    have hf2 : fib 2 = 2 := rfl
    have : fib P ≤ fib 2 := fib_mono (by omega)
    omega
  have hinv : m < fib ((P - 1) + 1) := by
    rw [show P - 1 + 1 = P by omega]
    exact hmP
  have hZ := zeckRev_spec (P - 1) 1 m hinv
  set Z := zeckRev 1 (P - 1) m with hZdef
  have heven : 2 ∣ Z := by
    have := hZ.2.1
    simpa using this
  obtain ⟨z2, hz2⟩ := heven
  have hw : (fencode m).1 = 1 + Z := by rw [hfe]
  have hL : (fencode m).2 = P := by rw [hfe]
  have hwbit : ∀ i, (fencode m).1.testBit (i + 1) = Z.testBit (i + 1) := by
    intro i
    rw [hw, Nat.add_comm 1 Z, Nat.testBit_add_one, Nat.testBit_add_one]
    congr 1
    omega
  refine ⟨by omega, by omega, ?_, ?_, ?_, ?_, ?_⟩
  · -- w < 2^L
    rw [hw, hL]
    have hb : Z < 2 ^ (1 + (P - 1)) := hZ.1
    rw [show 1 + (P - 1) = P by omega] at hb
    have hPeven : (2:Nat) ^ P = 2 ^ (P - 1) * 2 := by
      rw [← pow_succ]
      congr 1
      omega
    omega
  · rw [hw]
    simp only [Nat.testBit_zero]
    have h1 : (1 + Z) % 2 = 1 := by omega
    rw [h1]
    rfl
  · -- bit 1 is the top greedy digit, which is set
    rw [hwbit 0]
    rw [hZdef, show P - 1 = (P - 2) + 1 by omega]
    have hfle : fib ((P - 2) + 1) ≤ m := by
      refine hq ((P - 2) + 1) (by omega) (by omega)
    simp only [zeckRev]
    rw [if_pos hfle]
    have hZ2 := zeckRev_spec (P - 2) 2 (m - fib ((P - 2) + 1)) (by
      have he : fib ((P - 2) + 1 + 1) = fib (P - 2) + fib ((P - 2) + 1) :=
        fib_add_two (P - 2)
      have he2 : fib ((P - 2) + 1 + 1) = fib P := by
        congr 1
        omega
      have := fib_le_succ (P - 2)
      omega)
    obtain ⟨t, ht⟩ := hZ2.2.1
    rw [ht, show (2:Nat) ^ 1 = 2 by norm_num, Nat.add_comm 2 (2 ^ 2 * t),
      Nat.testBit_mul_pow_two_add _ (show (2:Nat) < 2 ^ 2 by norm_num),
      if_pos (by norm_num)]
    rfl
  · -- bit 2 is clear
    rw [hwbit 1]
    rw [hZdef, show P - 1 = (P - 2) + 1 by omega]
    have hfle : fib ((P - 2) + 1) ≤ m := by
      refine hq ((P - 2) + 1) (by omega) (by omega)
    simp only [zeckRev]
    rw [if_pos hfle]
    have hrem : m - fib ((P - 2) + 1) < fib (P - 2) := by
      have he : fib ((P - 2) + 1 + 1) = fib (P - 2) + fib ((P - 2) + 1) :=
        fib_add_two (P - 2)
      have he2 : fib ((P - 2) + 1 + 1) = fib P := by
        congr 1
        omega
      omega
    have hZ2 := zeckRev_spec (P - 2) 2 (m - fib ((P - 2) + 1))
      (lt_of_lt_of_le hrem (fib_le_succ (P - 2)))
    obtain ⟨t, ht⟩ := hZ2.2.2.1 hrem
    rw [ht, show (2:Nat) ^ 1 = 2 by norm_num, Nat.add_comm 2 (2 ^ (2 + 1) * t),
      Nat.testBit_mul_pow_two_add _ (show (2:Nat) < 2 ^ (2 + 1) by norm_num),
      if_pos (by norm_num)]
    rfl
  · -- no adjacent ones above bit 0
    intro i hi
    obtain ⟨k, hk⟩ : ∃ k, i = k + 1 := ⟨i - 1, by omega⟩
    subst hk
    rw [hwbit k, hwbit (k + 1)]
    exact hZ.2.2.2.2 (k + 1)


/-! ## The stream of items in the bit buffer

After any completed `Add` the buffer is a concatenation of items — codewords
and the occasional 2-bit `11` pad — followed by the permanent 3-bit `011`
terminator.  `pairAt` is the run-aware `11`-pair position predicate on the
whole buffer; the central lemma `pairs_of_stream` identifies the pair
positions with the codeword start offsets plus the terminator offset. -/

inductive StreamItem where
  | pad : StreamItem
  | cw : Nat → StreamItem
  deriving DecidableEq

/-- The packed bits and bit length of one item. -/
def itemBits : StreamItem → Nat × Nat
  | StreamItem.pad => (3, 2)
  | StreamItem.cw n => fibencode n

/-- Concatenation of `(bits, length)` chunks, low chunk first. -/
def catBits (a b : Nat × Nat) : Nat × Nat := (a.1 + b.1 * 2 ^ a.2, a.2 + b.2)

/-- The packed bits and length of a list of items. -/
def streamBits : List StreamItem → Nat × Nat
  | [] => (0, 0)
  | it :: rest => catBits (itemBits it) (streamBits rest)

/-- The full buffer: the items followed by the terminator `011`
(stream bits `1,1,0`). -/
def bufferBits (items : List StreamItem) : Nat × Nat :=
  catBits (streamBits items) (3, 3)

/-- Start offsets of the codeword items, from base offset `o`. -/
def itemStarts : List StreamItem → Nat → List Nat
  | [], _ => []
  | StreamItem.pad :: rest, o => itemStarts rest (o + 2)
  | StreamItem.cw n :: rest, o => o :: itemStarts rest (o + (fibencode n).2)

/-- The stored values of the codeword items, in order. -/
def storedVals : List StreamItem → List Nat
  | [] => []
  | StreamItem.pad :: rest => storedVals rest
  | StreamItem.cw n :: rest => n :: storedVals rest

/-- Every codeword item stores an encodable value. -/
def ItemsOK (items : List StreamItem) : Prop :=
  ∀ n ∈ storedVals items, n ≤ MaxValue

/-- The run-aware `11`-pair position predicate on a buffer. -/
def pairAt (B j : Nat) : Prop :=
  B.testBit j = true ∧ B.testBit (j + 1) = true ∧ B.testBit (j + 2) = false

instance (B j : Nat) : Decidable (pairAt B j) := by
  unfold pairAt
  infer_instance

theorem MaxValue_add_two_lt : MaxValue + 2 < fib 63 := by decide

theorem itemsOK_cons {it : StreamItem} {rest : List StreamItem}
    (h : ItemsOK (it :: rest)) : ItemsOK rest := by
  intro n hn
  refine h n ?_
  cases it with
  | pad => exact hn
  | cw v =>
    show n ∈ v :: storedVals rest
    exact List.mem_cons_of_mem v hn

theorem cwShape_of_le {n : Nat} (hn : n ≤ MaxValue) :
    CwShape (fibencode n).1 (fibencode n).2 := by
  have := MaxValue_add_two_lt
  exact fencode_shape (n + 2) (by omega) (by omega)

/-- Bits and length of each item. -/
theorem itemBits_lt (it : StreamItem)
    (h : ∀ n, it = StreamItem.cw n → n ≤ MaxValue) :
    (itemBits it).1 < 2 ^ (itemBits it).2 ∧ 2 ≤ (itemBits it).2 := by
  cases it with
  | pad => exact ⟨by decide, by decide⟩
  | cw n =>
    have hs := cwShape_of_le (h n rfl)
    refine ⟨hs.lt, ?_⟩
    show 2 ≤ (fibencode n).2
    have := hs.len3
    omega

theorem streamBits_lt (items : List StreamItem) (hok : ItemsOK items) :
    (streamBits items).1 < 2 ^ (streamBits items).2 := by
  induction items with
  | nil => norm_num [streamBits]
  | cons it rest ih =>
    have hit := itemBits_lt it (by
      intro n hn
      refine hok n ?_
      rw [hn]
      exact List.mem_cons_self n _)
    have hr := ih (itemsOK_cons hok)
    show (itemBits it).1 + (streamBits rest).1 * 2 ^ (itemBits it).2 <
      2 ^ ((itemBits it).2 + (streamBits rest).2)
    have h1 : ((streamBits rest).1 + 1) * 2 ^ (itemBits it).2 ≤
        2 ^ (streamBits rest).2 * 2 ^ (itemBits it).2 :=
      Nat.mul_le_mul_right _ (by omega)
    have h2 : 2 ^ (streamBits rest).2 * 2 ^ (itemBits it).2 =
        2 ^ ((itemBits it).2 + (streamBits rest).2) := by
      rw [← pow_add, Nat.add_comm]
    have h3 : ((streamBits rest).1 + 1) * 2 ^ (itemBits it).2 =
        (streamBits rest).1 * 2 ^ (itemBits it).2 + 2 ^ (itemBits it).2 := by
      ring
    omega

theorem bufferBits_lt (items : List StreamItem) (hok : ItemsOK items) :
    (bufferBits items).1 < 2 ^ (bufferBits items).2 := by
  have hs := streamBits_lt items hok
  show (streamBits items).1 + 3 * 2 ^ (streamBits items).2 <
    2 ^ ((streamBits items).2 + 3)
  have h1 : (2:Nat) ^ ((streamBits items).2 + 3) = 2 ^ (streamBits items).2 * 8 := by
    rw [pow_add]
    norm_num
  omega

theorem testBit_catBits {v1 l1 : Nat} (h : v1 < 2 ^ l1) (b : Nat × Nat) (i : Nat) :
    (catBits (v1, l1) b).1.testBit i =
      if i < l1 then v1.testBit i else b.1.testBit (i - l1) := by
  show (v1 + b.1 * 2 ^ l1).testBit i = _
  rw [Nat.add_comm, Nat.mul_comm, Nat.testBit_mul_pow_two_add _ h]

theorem itemStarts_shift (items : List StreamItem) (a : Nat) : ∀ (o : Nat),
    itemStarts items (a + o) = (itemStarts items o).map (· + a) := by
  induction items with
  | nil => intro o; rfl
  | cons it rest ih =>
    intro o
    cases it with
    | pad =>
      show itemStarts rest (a + o + 2) = (itemStarts rest (o + 2)).map (· + a)
      rw [show a + o + 2 = a + (o + 2) by omega]
      exact ih (o + 2)
    | cw n =>
      show (a + o) :: itemStarts rest (a + o + (fibencode n).2) =
        (o :: itemStarts rest (o + (fibencode n).2)).map (· + a)
      rw [List.map_cons]
      congr 1
      · omega
      · rw [show a + o + (fibencode n).2 = a + (o + (fibencode n).2) by omega]
        exact ih (o + (fibencode n).2)

theorem itemStarts_ge (items : List StreamItem) : ∀ (o : Nat),
    ∀ s ∈ itemStarts items o, o ≤ s := by
  induction items with
  | nil => intro o s hs; exact absurd hs (List.not_mem_nil s)
  | cons it rest ih =>
    intro o s hs
    cases it with
    | pad => exact le_trans (by omega) (ih (o + 2) s hs)
    | cw n =>
      rcases List.mem_cons.mp hs with h | h
      · omega
      · exact le_trans (by omega) (ih (o + (fibencode n).2) s h)

/-- Every full buffer begins with two `1` bits (its first item is a pad `11`,
a codeword `110…`, or the bare terminator `110`). -/
theorem buffer_bit01 (items : List StreamItem) (hok : ItemsOK items) :
    (bufferBits items).1.testBit 0 = true ∧ (bufferBits items).1.testBit 1 = true := by
  cases items with
  | nil => exact ⟨rfl, rfl⟩
  | cons it rest =>
    have hok2 := itemsOK_cons hok
    have hit := itemBits_lt it (by
      intro n hn
      refine hok n ?_
      rw [hn]
      exact List.mem_cons_self n _)
    have hsl : (streamBits (it :: rest)).1 < 2 ^ (streamBits (it :: rest)).2 :=
      streamBits_lt _ hok
    have hlen : 2 ≤ (streamBits (it :: rest)).2 := by
      show 2 ≤ (itemBits it).2 + (streamBits rest).2
      omega
    have hb : ∀ i, i < 2 → (bufferBits (it :: rest)).1.testBit i =
        (streamBits (it :: rest)).1.testBit i := by
      intro i hi
      show (catBits ((streamBits (it :: rest)).1, (streamBits (it :: rest)).2)
        (3, 3)).1.testBit i = _
      rw [testBit_catBits hsl (3, 3) i, if_pos (by omega)]
    have hs : ∀ i, i < 2 → (streamBits (it :: rest)).1.testBit i =
        (itemBits it).1.testBit i := by
      intro i hi
      show (catBits ((itemBits it).1, (itemBits it).2) (streamBits rest)).1.testBit i = _
      rw [testBit_catBits hit.1 (streamBits rest) i, if_pos (by omega)]
    rw [hb 0 (by norm_num), hb 1 (by norm_num), hs 0 (by norm_num), hs 1 (by norm_num)]
    cases it with
    | pad => exact ⟨rfl, rfl⟩
    | cw n =>
      have hsh := cwShape_of_le (hok n (List.mem_cons_self n _))
      exact ⟨hsh.bit0, hsh.bit1⟩


theorem catBits_assoc (a b c : Nat × Nat) :
    catBits (catBits a b) c = catBits a (catBits b c) := by
  unfold catBits
  dsimp only
  congr 1
  · rw [pow_add]
    ring
  · omega

/-- **Pair positions of a buffer.**  The `11` pairs of the full buffer sit
exactly at the codeword start offsets and at the terminator offset. -/
theorem pairs_of_stream : ∀ (items : List StreamItem), ItemsOK items → ∀ (j : Nat),
    pairAt (bufferBits items).1 j ↔
      (j ∈ itemStarts items 0 ∨ j = (streamBits items).2) := by
  intro items
  induction items with
  | nil =>
    intro _ j
    have hB : (bufferBits ([] : List StreamItem)).1 = 3 := rfl
    rw [hB]
    show pairAt 3 j ↔ j ∈ ([] : List Nat) ∨ j = 0
    by_cases hj0 : j = 0
    · subst hj0
      exact iff_of_true (by decide) (Or.inr rfl)
    · refine iff_of_false ?_ ?_
      · intro hp
        match j, hj0 with
        | 1, _ => exact absurd hp.2.1 (by decide)
        | (k + 2), _ =>
          have h32 : Nat.testBit 3 (k + 2) = false := by
            apply Nat.testBit_lt_two_pow
            calc (3 : Nat) < 2 ^ 2 := by norm_num
              _ ≤ 2 ^ (k + 2) := Nat.pow_le_pow_right (by norm_num) (by omega)
          exact absurd hp.1 (by rw [h32]; exact Bool.false_ne_true)
      · rintro (h | h)
        · exact absurd h (List.not_mem_nil j)
        · exact hj0 h
  | cons it rest ih =>
    intro hok j
    have hok2 := itemsOK_cons hok
    have hT01 := buffer_bit01 rest hok2
    cases it with
    | cw n =>
      have hsh := cwShape_of_le (hok n (List.mem_cons_self n _))
      have hl3 : 3 ≤ (fibencode n).2 := hsh.len3
      have hB : bufferBits (StreamItem.cw n :: rest) =
          catBits (itemBits (StreamItem.cw n)) (bufferBits rest) := by
        show catBits (catBits (itemBits (StreamItem.cw n)) (streamBits rest)) (3, 3) = _
        rw [catBits_assoc]
        rfl
      have hbit : ∀ i, (bufferBits (StreamItem.cw n :: rest)).1.testBit i =
          if i < (fibencode n).2 then (fibencode n).1.testBit i
          else (bufferBits rest).1.testBit (i - (fibencode n).2) := by
        intro i
        rw [hB]
        show (catBits ((fibencode n).1, (fibencode n).2) (bufferBits rest)).1.testBit i = _
        exact testBit_catBits hsh.lt _ i
      have hstart : itemStarts (StreamItem.cw n :: rest) 0 =
          0 :: (itemStarts rest 0).map (· + (fibencode n).2) := by
        show 0 :: itemStarts rest (0 + (fibencode n).2) = _
        congr 1
        have hs := itemStarts_shift rest (fibencode n).2 0
        rw [Nat.add_zero] at hs
        rw [Nat.zero_add]
        exact hs
      have hslen : (streamBits (StreamItem.cw n :: rest)).2 =
          (fibencode n).2 + (streamBits rest).2 := rfl
      by_cases hjl : j < (fibencode n).2
      · by_cases hj0 : j = 0
        · subst hj0
          refine iff_of_true ⟨?_, ?_, ?_⟩ (Or.inl (by rw [hstart]; exact List.mem_cons_self 0 _))
          · rw [hbit 0, if_pos (by omega)]
            exact hsh.bit0
          · rw [hbit 1, if_pos (by omega)]
            exact hsh.bit1
          · rw [hbit 2, if_pos (by omega)]
            exact hsh.bit2
        · refine iff_of_false ?_ ?_
          · intro hp
            obtain ⟨hp1, hp2, hp3⟩ := hp
            by_cases ha : j + 2 < (fibencode n).2
            · rw [hbit j, if_pos (by omega)] at hp1
              rw [hbit (j + 1), if_pos (by omega)] at hp2
              exact hsh.noAdj j (by omega) ⟨hp1, hp2⟩
            · by_cases hb2 : j + 1 < (fibencode n).2
              · rw [hbit (j + 2), if_neg (by omega),
                  show j + 2 - (fibencode n).2 = 0 by omega] at hp3
                rw [hT01.1] at hp3
                exact absurd hp3 (by decide)
              · rw [hbit (j + 2), if_neg (by omega),
                  show j + 2 - (fibencode n).2 = 1 by omega] at hp3
                rw [hT01.2] at hp3
                exact absurd hp3 (by decide)
          · rintro (h | h)
            · rw [hstart] at h
              rcases List.mem_cons.mp h with h | h
              · exact hj0 h
              · obtain ⟨s, _, hs2⟩ := List.mem_map.mp h
                omega
            · rw [hslen] at h
              omega
      · have e1 : pairAt (bufferBits (StreamItem.cw n :: rest)).1 j ↔
            pairAt (bufferBits rest).1 (j - (fibencode n).2) := by
          unfold pairAt
          rw [hbit j, if_neg (by omega), hbit (j + 1), if_neg (by omega),
            hbit (j + 2), if_neg (by omega),
            show j + 1 - (fibencode n).2 = (j - (fibencode n).2) + 1 by omega,
            show j + 2 - (fibencode n).2 = (j - (fibencode n).2) + 2 by omega]
        rw [e1, ih hok2 (j - (fibencode n).2), hstart, hslen]
        constructor
        · rintro (h | h)
          · refine Or.inl (List.mem_cons_of_mem 0 ?_)
            refine List.mem_map.mpr ⟨j - (fibencode n).2, h, by omega⟩
          · exact Or.inr (by omega)
        · rintro (h | h)
          · rcases List.mem_cons.mp h with h | h
            · omega
            · obtain ⟨s, hs1, hs2⟩ := List.mem_map.mp h
              refine Or.inl ?_
              rw [show j - (fibencode n).2 = s by omega]
              exact hs1
          · exact Or.inr (by omega)
    | pad =>
      have hB : bufferBits (StreamItem.pad :: rest) =
          catBits (itemBits StreamItem.pad) (bufferBits rest) := by
        show catBits (catBits (itemBits StreamItem.pad) (streamBits rest)) (3, 3) = _
        rw [catBits_assoc]
        rfl
      have hbit : ∀ i, (bufferBits (StreamItem.pad :: rest)).1.testBit i =
          if i < 2 then (3 : Nat).testBit i
          else (bufferBits rest).1.testBit (i - 2) := by
        intro i
        rw [hB]
        show (catBits ((3 : Nat), 2) (bufferBits rest)).1.testBit i = _
        exact testBit_catBits (by norm_num) _ i
      have hstart : itemStarts (StreamItem.pad :: rest) 0 =
          (itemStarts rest 0).map (· + 2) := by
        show itemStarts rest (0 + 2) = _
        have hs := itemStarts_shift rest 2 0
        rw [Nat.add_zero] at hs
        rw [Nat.zero_add]
        exact hs
      have hslen : (streamBits (StreamItem.pad :: rest)).2 =
          2 + (streamBits rest).2 := rfl
      by_cases hjl : j < 2
      · refine iff_of_false ?_ ?_
        · intro hp
          obtain ⟨hp1, hp2, hp3⟩ := hp
          by_cases hj0 : j = 0
          · subst hj0
            rw [hbit 2, if_neg (by omega)] at hp3
            rw [show 2 - 2 = 0 by omega, hT01.1] at hp3
            exact absurd hp3 (by decide)
          · have hj1 : j = 1 := by omega
            subst hj1
            rw [hbit 3, if_neg (by omega)] at hp3
            rw [show 3 - 2 = 1 by omega, hT01.2] at hp3
            exact absurd hp3 (by decide)
        · rintro (h | h)
          · rw [hstart] at h
            obtain ⟨s, _, hs2⟩ := List.mem_map.mp h
            omega
          · rw [hslen] at h
            omega
      · have e1 : pairAt (bufferBits (StreamItem.pad :: rest)).1 j ↔
            pairAt (bufferBits rest).1 (j - 2) := by
          unfold pairAt
          rw [hbit j, if_neg (by omega), hbit (j + 1), if_neg (by omega),
            hbit (j + 2), if_neg (by omega),
            show j + 1 - 2 = (j - 2) + 1 by omega,
            show j + 2 - 2 = (j - 2) + 2 by omega]
        rw [e1, ih hok2 (j - 2), hstart, hslen]
        constructor
        · rintro (h | h)
          · exact Or.inl (List.mem_map.mpr ⟨j - 2, h, by omega⟩)
          · exact Or.inr (by omega)
        · rintro (h | h)
          · obtain ⟨s, hs1, hs2⟩ := List.mem_map.mp h
            refine Or.inl ?_
            rw [show j - 2 = s by omega]
            exact hs1
          · exact Or.inr (by omega)


/-! ## Serialization (vec.go `GobEncode`/`GobDecode`)

Modelled from the spec: `encoding/gob` and the external `bit.Array`'s own
gob methods are not in the repository.  Gob is modelled abstractly as a
lossless envelope: `GobEncode` emits the six encoded field values in order
(`bits`, `ranks`, `indices`, `popcount`, `length`, `initialized`), and
`GobDecode` reads the same six values back in the same order into a fresh
vector, exactly as the two functions encode/decode them. -/

/-- Modelled from the spec: `GobEncode` — the six field values, in encoding
order. -/
def gobEncode (v : Vector) : BitArray × List Nat × List Nat × Nat × Nat × Bool :=
  (v.bits, v.ranks, v.indices, v.popcount, v.length, v.initialized)

/-- Modelled from the spec: `GobDecode` — populate a fresh vector from the
six decoded values, in the same order. -/
def gobDecode (d : BitArray × List Nat × List Nat × Nat × Nat × Bool) : Vector :=
  { bits := d.1
    ranks := d.2.1
    indices := d.2.2.1
    popcount := d.2.2.2.1
    length := d.2.2.2.2.1
    initialized := d.2.2.2.2.2 }

/-- **C9**.  For every vector built by a sequence of `Add`s, decoding the
serialized form yields a vector identical to the original — equal as a
value, hence identical in every observable operation; in particular `Get`
returns the same result on both for every index. -/
theorem c9_serialization_roundtrip (vals : List Nat) (i : Int) :
    gobDecode (gobEncode (buildVec vals)) = buildVec vals ∧
    vecGet (gobDecode (gobEncode (buildVec vals))) i = vecGet (buildVec vals) i := by
  have h : gobDecode (gobEncode (buildVec vals)) = buildVec vals := by
    rcases buildVec vals with ⟨b, r, ix, pc, len, ini⟩
    rfl
  exact ⟨h, by rw [h]⟩


/-! ## Stream lemmas: append, ordering, counting -/

theorem fencodeSearch_ge (n : Nat) : ∀ (fuel p : Nat), p ≤ fencodeSearch n fuel p := by
  intro fuel
  induction fuel with
  | zero => intro p; exact le_refl p
  | succ f ih =>
    intro p
    simp only [fencodeSearch]
    by_cases h : fib p ≤ n
    · rw [if_pos h]
      exact le_trans (Nat.le_succ p) (ih (p + 1))
    · rw [if_neg h]

theorem fibencode_len_pos (n : Nat) : 2 ≤ (fibencode n).2 := by
  show 2 ≤ fencodeSearch (n + 2) 64 1
  have h1 : fencodeSearch (n + 2) 64 1 = fencodeSearch (n + 2) 63 2 := by
    show (if fib 1 ≤ n + 2 then fencodeSearch (n + 2) 63 (1 + 1) else 1) = _
    rw [if_pos (by show 1 ≤ n + 2; omega)]
  rw [h1]
  exact fencodeSearch_ge (n + 2) 63 2

theorem itemBits_len_pos (it : StreamItem) : 2 ≤ (itemBits it).2 := by
  cases it with
  | pad => exact le_refl 2
  | cw n => exact fibencode_len_pos n

theorem streamBits_append (xs ys : List StreamItem) :
    streamBits (xs ++ ys) = catBits (streamBits xs) (streamBits ys) := by
  induction xs with
  | nil =>
    show streamBits ys = catBits (0, 0) (streamBits ys)
    simp [catBits]
  | cons it rest ih =>
    show catBits (itemBits it) (streamBits (rest ++ ys)) = _
    rw [ih, ← catBits_assoc]
    rfl

theorem streamBits_len_append (xs ys : List StreamItem) :
    (streamBits (xs ++ ys)).2 = (streamBits xs).2 + (streamBits ys).2 := by
  rw [streamBits_append]
  rfl

theorem itemStarts_append (xs ys : List StreamItem) : ∀ o,
    itemStarts (xs ++ ys) o =
      itemStarts xs o ++ itemStarts ys (o + (streamBits xs).2) := by
  induction xs with
  | nil =>
    intro o
    show itemStarts ys o = [] ++ itemStarts ys (o + (streamBits ([] : List StreamItem)).2)
    have h0 : (streamBits ([] : List StreamItem)).2 = 0 := rfl
    rw [h0, Nat.add_zero, List.nil_append]
  | cons it rest ih =>
    intro o
    cases it with
    | pad =>
      show itemStarts (rest ++ ys) (o + 2) = itemStarts rest (o + 2) ++
        itemStarts ys (o + (streamBits (StreamItem.pad :: rest)).2)
      rw [ih (o + 2)]
      congr 2
      show o + 2 + (streamBits rest).2 = o + (2 + (streamBits rest).2)
      omega
    | cw n =>
      show o :: itemStarts (rest ++ ys) (o + (fibencode n).2) =
        (o :: itemStarts rest (o + (fibencode n).2)) ++
          itemStarts ys (o + (streamBits (StreamItem.cw n :: rest)).2)
      rw [List.cons_append, ih (o + (fibencode n).2)]
      congr 3
      show o + (fibencode n).2 + (streamBits rest).2 =
        o + ((fibencode n).2 + (streamBits rest).2)
      omega

theorem storedVals_append (xs ys : List StreamItem) :
    storedVals (xs ++ ys) = storedVals xs ++ storedVals ys := by
  induction xs with
  | nil => rfl
  | cons it rest ih =>
    cases it with
    | pad => exact ih
    | cw n =>
      show n :: storedVals (rest ++ ys) = (n :: storedVals rest) ++ storedVals ys
      rw [List.cons_append, ih]

theorem itemStarts_length (items : List StreamItem) : ∀ o,
    (itemStarts items o).length = (storedVals items).length := by
  induction items with
  | nil => intro o; rfl
  | cons it rest ih =>
    intro o
    cases it with
    | pad => exact ih (o + 2)
    | cw n =>
      show (itemStarts rest (o + (fibencode n).2)).length + 1 =
        (storedVals rest).length + 1
      rw [ih]

theorem itemStarts_sorted (items : List StreamItem) : ∀ o,
    (itemStarts items o).Pairwise (· < ·) := by
  induction items with
  | nil => intro o; exact List.Pairwise.nil
  | cons it rest ih =>
    intro o
    cases it with
    | pad => exact ih (o + 2)
    | cw n =>
      refine List.Pairwise.cons ?_ (ih _)
      intro s hs
      have h1 := itemStarts_ge rest _ s hs
      have h2 := fibencode_len_pos n
      omega

theorem itemStarts_lt (items : List StreamItem) : ∀ o s,
    s ∈ itemStarts items o → s < o + (streamBits items).2 := by
  induction items with
  | nil => intro o s hs; exact absurd hs (List.not_mem_nil s)
  | cons it rest ih =>
    intro o s hs
    cases it with
    | pad =>
      have h1 := ih (o + 2) s hs
      have h2 : (streamBits (StreamItem.pad :: rest)).2 = 2 + (streamBits rest).2 := rfl
      omega
    | cw n =>
      have h2 : (streamBits (StreamItem.cw n :: rest)).2 =
        (fibencode n).2 + (streamBits rest).2 := rfl
      have h3 := fibencode_len_pos n
      rcases List.mem_cons.mp hs with h | h
      · omega
      · have h1 := ih (o + (fibencode n).2) s h
        omega

/-- Number of `11` pairs of `B` strictly below bit position `x`. -/
def cntPairs (B x : Nat) : Nat :=
  (List.range x).countP fun j => decide (pairAt B j)

theorem cntPairs_mono (B : Nat) {x y : Nat} (h : x ≤ y) : cntPairs B x ≤ cntPairs B y := by
  unfold cntPairs
  rw [show y = x + (y - x) by omega, List.range_add, List.countP_append]
  omega

theorem cntPairs_add (B x y : Nat) : cntPairs B (x + y) =
    cntPairs B x + (List.range y).countP fun t => decide (pairAt B (x + t)) := by
  unfold cntPairs
  rw [List.range_add, List.countP_append, List.countP_map]
  rfl


/-! ## The `Add` invariant

`Inv v items` states that the concrete vector `v` is the faithful image of
the abstract item stream `items`: the bit buffer is the packed items plus
terminator, `popcount`/`length` count the codewords, no codeword start or
terminator sits at bit position 63 mod 64 (the pads prevent it), `ranks`
samples the number of codeword starts before each 512-bit boundary, and
`indices` anchors every 640th codeword start's 512-block. -/

structure Inv (v : Vector) (items : List StreamItem) : Prop where
  ok : ItemsOK items
  blen : v.bits.len = (streamBits items).2 + 3
  bbits : v.bits.bits = (bufferBits items).1
  pop : v.popcount = (itemStarts items 0).length
  vlen : v.length = (itemStarts items 0).length
  term63 : (streamBits items).2 % 64 ≠ 63
  starts63 : ∀ s ∈ itemStarts items 0, s % 64 ≠ 63
  head0 : ∀ s ∈ (itemStarts items 0).head?, s = 0
  empty0 : itemStarts items 0 = [] → (streamBits items).2 = 0
  ranks_pos : 1 ≤ v.ranks.length
  ranks_ub : (streamBits items).2 ≤ v.ranks.length * 512
  ranks_lb : (v.ranks.length - 1) * 512 ≤ (streamBits items).2
  ranks_val : ∀ q < v.ranks.length,
      v.ranks.getD q 0 = (itemStarts items 0).countP fun s => decide (s < q * 512)
  idx_len : v.indices.length = ((itemStarts items 0).length - 1) / 640 + 1
  idx_val : ∀ j < v.indices.length, ∀ s,
      (itemStarts items 0).get? (j * 640) = some s →
      v.indices.getD j 0 / 512 = s / 512
  idx0 : v.indices.getD 0 0 = 0
  init : v.initialized = true

theorem inv_newVector : Inv newVector [] := by
  refine ⟨fun n hn => absurd hn (List.not_mem_nil n), by decide, by decide, rfl, rfl,
    by decide, ?_, ?_, fun h => rfl, by decide, by decide, by decide, ?_, by decide,
    ?_, rfl, rfl⟩
  · intro s hs
    exact absurd hs (List.not_mem_nil s)
  · intro s hs
    exact absurd hs (Option.not_mem_none s)
  · intro q hq
    have hq0 : q = 0 := by
      have : newVector.ranks.length = 1 := rfl
      omega
    subst hq0
    decide
  · intro j hj s hs
    exact Option.noConfusion hs

/-- The abstract items appended by one `Add` of value `n`: the codeword,
then a `11` pad iff the post-codeword stream length lands on 63 mod 64. -/
def stepItems (items : List StreamItem) (n : Nat) : List StreamItem :=
  items ++ StreamItem.cw n ::
    (if ((streamBits items).2 + (fibencode n).2) % 64 = 63 then [StreamItem.pad] else [])

theorem storedVals_stepItems (items : List StreamItem) (n : Nat) :
    storedVals (stepItems items n) = storedVals items ++ [n] := by
  unfold stepItems
  rw [storedVals_append]
  congr 1
  by_cases h : ((streamBits items).2 + (fibencode n).2) % 64 = 63
  · rw [if_pos h]
    rfl
  · rw [if_neg h]
    rfl

theorem itemsOK_stepItems {items : List StreamItem} {n : Nat} (hok : ItemsOK items)
    (hn : n ≤ MaxValue) : ItemsOK (stepItems items n) := by
  intro m hm
  rw [storedVals_stepItems] at hm
  rcases List.mem_append.mp hm with h | h
  · exact hok m h
  · rw [List.mem_singleton.mp h]
    exact hn

theorem itemStarts_stepItems (items : List StreamItem) (n : Nat) :
    itemStarts (stepItems items n) 0 =
      itemStarts items 0 ++ [(streamBits items).2] := by
  unfold stepItems
  rw [itemStarts_append]
  congr 1
  rw [Nat.zero_add]
  by_cases h : ((streamBits items).2 + (fibencode n).2) % 64 = 63
  · rw [if_pos h]
    rfl
  · rw [if_neg h]
    rfl

theorem streamBits_len_stepItems (items : List StreamItem) (n : Nat) :
    (streamBits (stepItems items n)).2 = (streamBits items).2 + (fibencode n).2 +
      (if ((streamBits items).2 + (fibencode n).2) % 64 = 63 then 2 else 0) := by
  unfold stepItems
  rw [streamBits_len_append]
  by_cases h : ((streamBits items).2 + (fibencode n).2) % 64 = 63
  · rw [if_pos h, if_pos h]
    show (streamBits items).2 + ((fibencode n).2 + (2 + 0)) = _
    omega
  · rw [if_neg h, if_neg h]
    show (streamBits items).2 + ((fibencode n).2 + 0) = _
    omega


theorem streamBits_val_stepItems (items : List StreamItem) (n : Nat) :
    (streamBits (stepItems items n)).1 =
      (streamBits items).1 + (fibencode n).1 * 2 ^ (streamBits items).2 +
      (if ((streamBits items).2 + (fibencode n).2) % 64 = 63 then
        3 * 2 ^ ((streamBits items).2 + (fibencode n).2) else 0) := by
  unfold stepItems
  rw [streamBits_append]
  show (streamBits items).1 +
    (streamBits (StreamItem.cw n :: _)).1 * 2 ^ (streamBits items).2 = _
  by_cases h : ((streamBits items).2 + (fibencode n).2) % 64 = 63
  · rw [if_pos h, if_pos h]
    have hv : (streamBits (StreamItem.cw n :: [StreamItem.pad])).1 =
        (fibencode n).1 + 3 * 2 ^ (fibencode n).2 := by
      show (fibencode n).1 + (3 + 0 * 2 ^ 2) * 2 ^ (fibencode n).2 = _
      norm_num
    rw [hv, pow_add]
    ring
  · rw [if_neg h, if_neg h]
    have hv : (streamBits (StreamItem.cw n :: [])).1 = (fibencode n).1 := by
      show (fibencode n).1 + 0 * 2 ^ (fibencode n).2 = _
      norm_num
    rw [hv]
    omega

theorem xor63_div512 (x : Nat) : (x ^^^ 63) / 512 = x / 512 := by
  have h6 : (x ^^^ 63) >>> 6 = x >>> 6 := by
    apply Nat.eq_of_testBit_eq
    intro i
    rw [Nat.testBit_shiftRight, Nat.testBit_shiftRight, Nat.testBit_xor]
    have h63 : Nat.testBit 63 (6 + i) = false := by
      apply Nat.testBit_lt_two_pow
      calc (63 : Nat) < 2 ^ 6 := by norm_num
        _ ≤ 2 ^ (6 + i) := Nat.pow_le_pow_right (by norm_num) (by omega)
    rw [h63, Bool.xor_false]
  have e : ∀ y : Nat, y / 512 = (y >>> 6) / 8 := by
    intro y
    rw [Nat.shiftRight_eq_div_pow, Nat.div_div_eq_div_mul]
  rw [e, e, h6]

/-! The let-bound intermediate values of `vecAdd`, as named definitions. -/

/-- `idx` in `Add`: the insertion index (over the old terminator). -/
def addIdx (v : Vector) : Nat := v.bits.len - 3

/-- The buffer after inserting the codeword at `idx`. -/
def addB1 (v : Vector) (n : Nat) : BitArray :=
  v.bits.insert (addIdx v) (fibencode n).1 (fibencode n).2

/-- The buffer after the conditional `11` pad append. -/
def addB2 (v : Vector) (n : Nat) : BitArray :=
  if ((addB1 v n).len - 1) % 64 = 62 then (addB1 v n).add 0x3 2 else addB1 v n

/-- The updated rank samples. -/
def addRanks (v : Vector) (n : Nat) : List Nat :=
  if v.ranks.length * sr < (addB2 v n).len then
    v.ranks ++ [if (fibencode n).2 ≤ (addB2 v n).len - v.ranks.length * sr then
      v.popcount + 1 - 1 else v.popcount + 1]
  else v.ranks

/-- The updated select samples. -/
def addIndices (v : Vector) : List Nat :=
  if v.indices.length * ss < v.popcount + 1 then v.indices ++ [addIdx v ^^^ 0x3F]
  else v.indices

theorem vecAdd_eq (v : Vector) (n : Nat) : vecAdd v n =
    { bits := (addB2 v n).add 0x3 3
      ranks := addRanks v n
      indices := addIndices v
      popcount := v.popcount + 1
      length := v.length + 1
      initialized := true } := rfl


/-- One `Add` preserves the invariant, with the codeword (and conditional
pad) appended to the abstract stream. -/
theorem vecAdd_inv {v : Vector} {items : List StreamItem} (hI : Inv v items)
    {n : Nat} (hn : n ≤ MaxValue) : Inv (vecAdd v n) (stepItems items n) := by
  obtain ⟨hok, hblen, hbbits, hpop, hvlen, hterm63, hstarts63, hhead0, hempty0,
    hrpos, hrub, hrlb, hrval, hilen, hival, hidx0, hinit⟩ := hI
  have hsh := cwShape_of_le hn
  have hl3 : 3 ≤ (fibencode n).2 := hsh.len3
  have hl63 : (fibencode n).2 ≤ 63 := hsh.len63
  have hs1 : (streamBits items).1 < 2 ^ (streamBits items).2 := streamBits_lt items hok
  have hstartsT : ∀ s ∈ itemStarts items 0, s < (streamBits items).2 := by
    intro s hs
    have := itemStarts_lt items 0 s hs
    omega
  have hidx : addIdx v = (streamBits items).2 := by
    unfold addIdx
    omega
  have hbufval : (bufferBits items).1 =
      (streamBits items).1 + 3 * 2 ^ (streamBits items).2 := rfl
  have hb1 : addB1 v n = ⟨(streamBits items).2 + (fibencode n).2,
      (streamBits items).1 + (fibencode n).1 * 2 ^ (streamBits items).2⟩ := by
    unfold addB1 BitArray.insert
    rw [hidx]
    congr 1
    · rw [hblen]
      omega
    · rw [hbbits, hbufval]
      have hmod : ((streamBits items).1 + 3 * 2 ^ (streamBits items).2) %
          2 ^ (streamBits items).2 = (streamBits items).1 := by
        rw [Nat.add_mul_mod_self_right, Nat.mod_eq_of_lt hs1]
      have hshift0 : ((streamBits items).1 + 3 * 2 ^ (streamBits items).2) >>>
          ((streamBits items).2 + (fibencode n).2) = 0 := by
        rw [Nat.shiftRight_eq_div_pow]
        apply Nat.div_eq_of_lt
        calc (streamBits items).1 + 3 * 2 ^ (streamBits items).2
            < 4 * 2 ^ (streamBits items).2 := by omega
          _ ≤ 2 ^ ((streamBits items).2 + (fibencode n).2) := by
              rw [pow_add]
              have h4 : (4 : Nat) ≤ 2 ^ (fibencode n).2 := by
                calc (4 : Nat) = 2 ^ 2 := by norm_num
                  _ ≤ 2 ^ (fibencode n).2 := Nat.pow_le_pow_right (by norm_num) (by omega)
              calc 4 * 2 ^ (streamBits items).2
                  ≤ 2 ^ (fibencode n).2 * 2 ^ (streamBits items).2 :=
                    Nat.mul_le_mul_right _ h4
                _ = 2 ^ (streamBits items).2 * 2 ^ (fibencode n).2 := by ring
      rw [hmod, hshift0, Nat.mod_eq_of_lt hsh.lt, Nat.zero_shiftLeft]
      omega
  have hb2 : (addB2 v n).len = (streamBits items).2 + (fibencode n).2 +
        (if ((streamBits items).2 + (fibencode n).2) % 64 = 63 then 2 else 0) ∧
      (addB2 v n).bits = (streamBits items).1 +
        (fibencode n).1 * 2 ^ (streamBits items).2 +
        (if ((streamBits items).2 + (fibencode n).2) % 64 = 63 then
          3 * 2 ^ ((streamBits items).2 + (fibencode n).2) else 0) := by
    unfold addB2
    rw [hb1]
    by_cases hc : ((streamBits items).2 + (fibencode n).2) % 64 = 63
    · rw [if_pos (show (((⟨(streamBits items).2 + (fibencode n).2,
          (streamBits items).1 + (fibencode n).1 * 2 ^ (streamBits items).2⟩ :
          BitArray)).len - 1) % 64 = 62 by
            show ((streamBits items).2 + (fibencode n).2 - 1) % 64 = 62
            omega),
        if_pos hc, if_pos hc]
      constructor
      · rfl
      · show (streamBits items).1 + (fibencode n).1 * 2 ^ (streamBits items).2 +
          3 % 2 ^ 2 * 2 ^ ((streamBits items).2 + (fibencode n).2) = _
        norm_num
    · rw [if_neg (show ¬(((⟨(streamBits items).2 + (fibencode n).2,
          (streamBits items).1 + (fibencode n).1 * 2 ^ (streamBits items).2⟩ :
          BitArray)).len - 1) % 64 = 62 by
            show ¬((streamBits items).2 + (fibencode n).2 - 1) % 64 = 62
            omega),
        if_neg hc, if_neg hc]
      constructor
      · show (streamBits items).2 + (fibencode n).2 =
          (streamBits items).2 + (fibencode n).2 + 0
        omega
      · show (streamBits items).1 + (fibencode n).1 * 2 ^ (streamBits items).2 =
          (streamBits items).1 + (fibencode n).1 * 2 ^ (streamBits items).2 + 0
        omega
  have hT' : (streamBits (stepItems items n)).2 = (addB2 v n).len := by
    rw [streamBits_len_stepItems, hb2.1]
  have hV' : (bufferBits (stepItems items n)).1 =
      (addB2 v n).bits + 3 * 2 ^ (addB2 v n).len := by
    show (streamBits (stepItems items n)).1 +
      3 * 2 ^ (streamBits (stepItems items n)).2 = _
    rw [streamBits_val_stepItems, hT', hb2.1, hb2.2]
  have hstep_starts := itemStarts_stepItems items n
  have hdle : (if ((streamBits items).2 + (fibencode n).2) % 64 = 63 then (2 : Nat)
      else 0) ≤ 2 := by
    by_cases hc : ((streamBits items).2 + (fibencode n).2) % 64 = 63
    · rw [if_pos hc]
    · rw [if_neg hc]
      omega
  have hcount_app : ∀ m : Nat,
      (itemStarts items 0 ++ [(streamBits items).2]).countP
        (fun s => decide (s < m)) =
      (itemStarts items 0).countP (fun s => decide (s < m)) +
        (if (streamBits items).2 < m then 1 else 0) := by
    intro m
    rw [List.countP_append]
    congr 1
    simp [List.countP_cons]
  rw [vecAdd_eq]
  refine ⟨itemsOK_stepItems hok hn, ?_, ?_, ?_, ?_, ?_, ?_, ?_, ?_, ?_, ?_, ?_, ?_,
    ?_, ?_, ?_, rfl⟩
  · -- blen
    show (addB2 v n).len + 3 = (streamBits (stepItems items n)).2 + 3
    rw [hT']
  · -- bbits
    show (addB2 v n).bits + 3 % 2 ^ 3 * 2 ^ (addB2 v n).len =
      (bufferBits (stepItems items n)).1
    rw [hV']
    norm_num
  · -- pop
    show v.popcount + 1 = (itemStarts (stepItems items n) 0).length
    rw [hstep_starts, List.length_append, hpop]
    rfl
  · -- vlen
    show v.length + 1 = (itemStarts (stepItems items n) 0).length
    rw [hstep_starts, List.length_append, hvlen]
    rfl
  · -- term63
    rw [streamBits_len_stepItems]
    by_cases hc : ((streamBits items).2 + (fibencode n).2) % 64 = 63
    · rw [if_pos hc]
      omega
    · rw [if_neg hc]
      omega
  · -- starts63
    intro t ht
    rw [hstep_starts] at ht
    rcases List.mem_append.mp ht with h | h
    · exact hstarts63 t h
    · rw [List.mem_singleton.mp h]
      exact hterm63
  · -- head0
    intro t ht
    rw [hstep_starts] at ht
    cases hsl : itemStarts items 0 with
    | nil =>
      rw [hsl] at ht
      have hT0 := hempty0 hsl
      simp only [List.nil_append, List.head?_cons, Option.mem_def,
        Option.some.injEq] at ht
      omega
    | cons a tl =>
      rw [hsl] at ht
      simp only [List.cons_append, List.head?_cons, Option.mem_def,
        Option.some.injEq] at ht
      have ha : a = 0 := by
        refine hhead0 a ?_
        rw [hsl]
        rfl
      omega
  · -- empty0
    intro h
    rw [hstep_starts] at h
    have hlen := congrArg List.length h
    rw [List.length_append] at hlen
    simp at hlen
  · -- ranks_pos
    show 1 ≤ (addRanks v n).length
    simp only [addRanks, sr]
    by_cases hra : v.ranks.length * 512 < (addB2 v n).len
    · rw [if_pos hra, List.length_append, List.length_singleton]
      omega
    · rw [if_neg hra]
      exact hrpos
  · -- ranks_ub
    show (streamBits (stepItems items n)).2 ≤ (addRanks v n).length * 512
    rw [hT']
    simp only [addRanks, sr]
    by_cases hra : v.ranks.length * 512 < (addB2 v n).len
    · rw [if_pos hra, List.length_append, List.length_singleton]
      have hlen2 := hb2.1
      omega
    · rw [if_neg hra]
      omega
  · -- ranks_lb
    show ((addRanks v n).length - 1) * 512 ≤ (streamBits (stepItems items n)).2
    rw [hT']
    simp only [addRanks, sr]
    by_cases hra : v.ranks.length * 512 < (addB2 v n).len
    · rw [if_pos hra, List.length_append, List.length_singleton]
      have hlen2 := hb2.1
      omega
    · rw [if_neg hra]
      have hlen2 := hb2.1
      omega
  · -- ranks_val
    intro q hq
    show (addRanks v n).getD q 0 = _
    rw [hstep_starts]
    simp only [addRanks, sr] at hq ⊢
    by_cases hra : v.ranks.length * 512 < (addB2 v n).len
    · rw [hb2.1] at hra
      rw [if_pos (by rw [hb2.1]; exact hra)] at hq ⊢
      rw [List.length_append] at hq
      by_cases hqlt : q < v.ranks.length
      · rw [List.getD_append _ _ _ _ hqlt, hrval q hqlt, hcount_app]
        have hq512 : q * 512 ≤ (v.ranks.length - 1) * 512 :=
          Nat.mul_le_mul_right _ (by omega)
        rw [if_neg (by omega)]
        omega
      · have hqe : q = v.ranks.length := by
          simp only [List.length_singleton] at hq
          omega
        subst hqe
        rw [List.getD_append_right _ _ _ _ (le_refl _), Nat.sub_self]
        show (if (fibencode n).2 ≤ (addB2 v n).len - v.ranks.length * 512 then
          v.popcount + 1 - 1 else v.popcount + 1) = _
        rw [hcount_app, hpop]
        have halllt : (itemStarts items 0).countP
            (fun s => decide (s < v.ranks.length * 512)) =
            (itemStarts items 0).length := by
          rw [List.countP_eq_length]
          intro a ha
          simp only [decide_eq_true_eq]
          exact lt_of_lt_of_le (hstartsT a ha) hrub
        rw [halllt, hb2.1]
        by_cases hc : ((streamBits items).2 + (fibencode n).2) % 64 = 63
        · rw [if_pos hc] at hra ⊢
          by_cases hcond2 : (fibencode n).2 ≤
              (streamBits items).2 + (fibencode n).2 + 2 - v.ranks.length * 512
          · rw [if_pos hcond2, if_neg (by omega)]
            omega
          · rw [if_neg hcond2, if_pos (by omega)]
        · rw [if_neg hc] at hra ⊢
          by_cases hcond2 : (fibencode n).2 ≤
              (streamBits items).2 + (fibencode n).2 + 0 - v.ranks.length * 512
          · rw [if_pos hcond2, if_neg (by omega)]
            omega
          · rw [if_neg hcond2, if_pos (by omega)]
    · rw [if_neg (by rw [hb2.1] at hra; rw [hb2.1]; exact hra)] at hq ⊢
      rw [hrval q hq, hcount_app]
      have hq512 : q * 512 ≤ (v.ranks.length - 1) * 512 :=
        Nat.mul_le_mul_right _ (by omega)
      rw [if_neg (by omega)]
      omega
  · -- idx_len
    show (addIndices v).length = _
    rw [hstep_starts, List.length_append, List.length_singleton]
    simp only [addIndices, ss]
    by_cases hia : v.indices.length * 640 < v.popcount + 1
    · rw [if_pos hia, List.length_append, List.length_singleton]
      rw [hpop] at hia
      omega
    · rw [if_neg hia]
      rw [hpop] at hia
      omega
  · -- idx_val
    intro j hj t ht
    show (addIndices v).getD j 0 / 512 = t / 512
    rw [hstep_starts] at ht
    simp only [addIndices, ss] at hj ⊢
    rw [hidx] at hj ⊢
    by_cases hia : v.indices.length * 640 < v.popcount + 1
    · rw [if_pos hia] at hj ⊢
      rw [List.length_append, List.length_singleton] at hj
      rw [hpop] at hia
      by_cases hjl : j < v.indices.length
      · have hjlen : j * 640 < (itemStarts items 0).length := by
          have h1 : (j + 1) * 640 ≤ v.indices.length * 640 :=
            Nat.mul_le_mul_right _ (by omega)
          omega
        rw [List.getD_append _ _ _ _ hjl]
        rw [List.get?_append hjlen] at ht
        exact hival j hjl t ht
      · have hje : j = v.indices.length := by omega
        subst hje
        rw [List.getD_append_right _ _ _ _ (le_refl _), Nat.sub_self]
        have hileq : v.indices.length * 640 = (itemStarts items 0).length := by
          omega
        rw [hileq, List.get?_append_right (le_refl _), Nat.sub_self] at ht
        simp only [List.get?_cons_zero, Option.some.injEq] at ht
        show ((streamBits items).2 ^^^ 63) / 512 = t / 512
        rw [← ht]
        exact xor63_div512 (streamBits items).2
    · rw [if_neg hia] at hj ⊢
      rw [hpop] at hia
      by_cases hjlen : j * 640 < (itemStarts items 0).length
      · rw [List.get?_append hjlen] at ht
        exact hival j hj t ht
      · rw [List.get?_append_right (by omega)] at ht
        have hj0 : j * 640 = (itemStarts items 0).length ∧
            t = (streamBits items).2 := by
          rcases hk : j * 640 - (itemStarts items 0).length with _ | k
          · rw [hk] at ht
            simp only [List.get?_cons_zero, Option.some.injEq] at ht
            exact ⟨by omega, ht.symm⟩
          · rw [hk] at ht
            simp at ht
        obtain ⟨hjeq, htseq⟩ := hj0
        by_cases hlen0 : (itemStarts items 0).length = 0
        · have hj00 : j = 0 := by omega
          have hstarts_nil : itemStarts items 0 = [] :=
            List.length_eq_zero.mp hlen0
          have hT0 := hempty0 hstarts_nil
          subst hj00
          rw [hidx0, htseq, hT0]
        · exfalso
          omega
  · -- idx0
    show (addIndices v).getD 0 0 = 0
    simp only [addIndices, ss]
    by_cases hia : v.indices.length * 640 < v.popcount + 1
    · rw [if_pos hia]
      rw [List.getD_append _ _ _ _ (by omega)]
      exact hidx0
    · rw [if_neg hia]
      exact hidx0


/-- Every vector built by `Add`s is the image of some well-formed item
stream storing exactly the added values. -/
theorem buildVec_inv (vals : List Nat) (h : Storable vals) :
    ∃ items, Inv (buildVec vals) items ∧ storedVals items = vals := by
  suffices H : ∀ (l : List Nat), (∀ x ∈ l, x ≤ MaxValue) →
      ∀ (v : Vector) (items : List StreamItem), Inv v items →
      ∃ items', Inv (l.foldl vecAdd v) items' ∧
        storedVals items' = storedVals items ++ l by
    obtain ⟨items', h1, h2⟩ := H vals h newVector [] inv_newVector
    exact ⟨items', h1, by simpa using h2⟩
  intro l
  induction l with
  | nil =>
    intro _ v items hI
    exact ⟨items, hI, by simp⟩
  | cons a tl ih =>
    intro hst v items hI
    obtain ⟨items', h1, h2⟩ := ih (fun x hx => hst x (List.mem_cons_of_mem a hx))
      (vecAdd v a) (stepItems items a)
      (vecAdd_inv hI (hst a (List.mem_cons_self a tl)))
    refine ⟨items', h1, ?_⟩
    rw [h2, storedVals_stepItems]
    simp

/-! ## The word scan of `select11` -/

/-- Word `a` (64-bit) of the packed value `B`. -/
def wordAt (B a : Nat) : Nat := (B >>> (64 * a)) % 2 ^ 64

theorem wordAt_testBit (B a t : Nat) :
    (wordAt B a).testBit t = (decide (t < 64) && B.testBit (64 * a + t)) := by
  unfold wordAt
  rw [Nat.testBit_mod_two_pow, Nat.testBit_shiftRight]

theorem wordAt_lt (B a : Nat) : wordAt B a < 2 ^ 64 := Nat.mod_lt _ (by norm_num)

theorem filter_range_succ (p : Nat → Bool) (n : Nat) :
    (List.range (n + 1)).filter p =
      (List.range n).filter p ++ (if p n then [n] else []) := by
  rw [List.range_succ, List.filter_append, List.filter_singleton]
  congr 1
  by_cases h : p n
  · rw [if_pos h, h]
    rfl
  · rw [if_neg h, Bool.eq_false_iff.mpr h]
    rfl

theorem filter_range_getD_spec (p : Nat → Bool) : ∀ (N m : Nat),
    m < ((List.range N).filter p).length →
    p (((List.range N).filter p).getD m 0) = true ∧
    (List.range (((List.range N).filter p).getD m 0)).countP p = m ∧
    ((List.range N).filter p).getD m 0 < N := by
  intro N
  induction N with
  | zero =>
    intro m hm
    simp at hm
  | succ N ih =>
    intro m hm
    rw [filter_range_succ] at hm ⊢
    by_cases hm2 : m < ((List.range N).filter p).length
    · rw [List.getD_append _ _ _ _ hm2]
      obtain ⟨h1, h2, h3⟩ := ih m hm2
      exact ⟨h1, h2, by omega⟩
    · by_cases hp : p N
      · rw [if_pos hp] at hm ⊢
        rw [List.length_append, List.length_singleton] at hm
        have hme : m = ((List.range N).filter p).length := by omega
        subst hme
        rw [List.getD_append_right _ _ _ _ (le_refl _), Nat.sub_self]
        have hgN : ([N].getD 0 0 : Nat) = N := rfl
        rw [hgN]
        refine ⟨hp, ?_, by omega⟩
        rw [List.countP_eq_length_filter]
      · rw [if_neg hp, List.append_nil] at hm
        omega

theorem and_m64_iff (b : Nat) :
    b &&& m64 = m64 ↔ (b.testBit 62 = true ∧ b.testBit 63 = true) := by
  have hm : m64 = 2 ^ 62 * 3 := by norm_num [m64]
  have hmbit : ∀ i, Nat.testBit m64 i = (decide (i = 62) || decide (i = 63)) := by
    intro i
    rw [hm, Nat.testBit_mul_pow_two]
    rcases Nat.lt_or_ge i 62 with h | h
    · rw [decide_eq_false (by omega), Bool.false_and]
      have : ¬(i = 62) := by omega
      have h2 : ¬(i = 63) := by omega
      simp [this, h2]
    · rw [decide_eq_true (by omega : i ≥ 62), Bool.true_and]
      rcases Nat.lt_or_ge i 64 with h2 | h2
      · interval_cases i
        · decide
        · decide
      · have h3 : Nat.testBit 3 (i - 62) = false := by
          apply Nat.testBit_lt_two_pow
          calc (3 : Nat) < 2 ^ 2 := by norm_num
            _ ≤ 2 ^ (i - 62) := Nat.pow_le_pow_right (by norm_num) (by omega)
        rw [h3]
        have : ¬(i = 62) := by omega
        have h4 : ¬(i = 63) := by omega
        simp [this, h4]
  constructor
  · intro h
    constructor
    · have := congrArg (fun x => Nat.testBit x 62) h
      simp only [Nat.testBit_and] at this
      rw [hmbit 62] at this
      simp at this
      exact this
    · have := congrArg (fun x => Nat.testBit x 63) h
      simp only [Nat.testBit_and] at this
      rw [hmbit 63] at this
      simp at this
      exact this
  · intro ⟨h62, h63⟩
    apply Nat.eq_of_testBit_eq
    intro i
    rw [Nat.testBit_and, hmbit i]
    by_cases h2 : i = 62
    · subst h2
      rw [h62]
      rfl
    · by_cases h3 : i = 63
      · subst h3
        rw [h63]
        rfl
      · simp [h2, h3]

theorem and_one_iff (b : Nat) : (b &&& 1 = 1) ↔ b.testBit 0 = true := by
  rw [Nat.and_one_is_mod]
  rw [Nat.testBit_to_div_mod]
  simp



theorem decide_pairAt_eq (B j : Nat) :
    decide (pairAt B j) =
      (B.testBit j && B.testBit (j + 1) && !B.testBit (j + 2)) := by
  unfold pairAt
  rcases Bool.eq_false_or_eq_true (B.testBit j) with h1 | h1 <;>
    rcases Bool.eq_false_or_eq_true (B.testBit (j + 1)) with h2 | h2 <;>
    rcases Bool.eq_false_or_eq_true (B.testBit (j + 2)) with h3 | h3 <;>
    simp [h1, h2, h3]

theorem pairHead_wordAt (B a t : Nat) (ht : t + 2 < 64) :
    pairHead (wordAt B a) t =
      (B.testBit (64 * a + t) && B.testBit (64 * a + t + 1) &&
        !B.testBit (64 * a + t + 2)) := by
  unfold pairHead
  rw [wordAt_testBit, wordAt_testBit, wordAt_testBit,
    decide_eq_true (show t < 64 by omega),
    decide_eq_true (show t + 1 < 64 by omega),
    decide_eq_true (show t + 2 < 64 by omega)]
  simp only [Bool.true_and]
  rw [show 64 * a + (t + 1) = 64 * a + t + 1 by omega,
    show 64 * a + (t + 2) = 64 * a + t + 2 by omega]

/-- The local pair-head positions of word `a` of `B` are the global pair
positions in that word, plus a fake trailing entry at 62 exactly when bits
62,63 of the word and bit 0 of the next word are all set. -/
theorem word_filter (B a : Nat) (hmod63 : ¬pairAt B (64 * a + 63)) :
    (List.range 64).filter (pairHead (wordAt B a)) =
      ((List.range 63).filter fun t => decide (pairAt B (64 * a + t))) ++
      (if B.testBit (64 * a + 62) && B.testBit (64 * a + 63) &&
          B.testBit (64 * (a + 1)) then [62] else []) := by
  have hA : ∀ t, t < 62 →
      pairHead (wordAt B a) t = decide (pairAt B (64 * a + t)) := by
    intro t ht
    rw [pairHead_wordAt B a t (by omega), decide_pairAt_eq]
  have hB62 : pairHead (wordAt B a) 62 =
      (B.testBit (64 * a + 62) && B.testBit (64 * a + 63)) := by
    unfold pairHead
    rw [wordAt_testBit, wordAt_testBit, wordAt_testBit,
      decide_eq_true (show (62 : Nat) < 64 by norm_num),
      decide_eq_true (show (62 : Nat) + 1 < 64 by norm_num),
      decide_eq_false (show ¬((62 : Nat) + 2 < 64) by norm_num)]
    rw [show (62 : Nat) + 1 = 63 from rfl]
    simp
  have hC : pairHead (wordAt B a) 63 = false := by
    unfold pairHead
    rw [wordAt_testBit B a 63, wordAt_testBit B a (63 + 1),
      decide_eq_false (show ¬((63 : Nat) + 1 < 64) by norm_num)]
    simp
  have hD : (decide (pairAt B (64 * a + 62))) =
      (B.testBit (64 * a + 62) && B.testBit (64 * a + 63) &&
        !B.testBit (64 * (a + 1))) := by
    rw [decide_pairAt_eq, show 64 * a + 62 + 1 = 64 * a + 63 by omega,
      show 64 * a + 62 + 2 = 64 * (a + 1) by ring]
  have h631 : (63 : Nat) + 1 = 64 := rfl
  have h621 : (62 : Nat) + 1 = 63 := rfl
  have hsplit64 := filter_range_succ (pairHead (wordAt B a)) 63
  rw [h631, hC] at hsplit64
  rw [hsplit64, if_neg (by simp)]
  have hsplit63 := filter_range_succ (pairHead (wordAt B a)) 62
  rw [h621, hB62] at hsplit63
  have hsplit63g := filter_range_succ (fun t => decide (pairAt B (64 * a + t))) 62
  rw [h621] at hsplit63g
  rw [hsplit63, hsplit63g, List.append_nil]
  have hcongr : (List.range 62).filter (pairHead (wordAt B a)) =
      (List.range 62).filter fun t => decide (pairAt B (64 * a + t)) := by
    apply List.filter_congr
    intro t ht
    exact hA t (List.mem_range.mp ht)
  rw [hcongr, hD, List.append_assoc]
  congr 1
  rcases Bool.eq_false_or_eq_true (B.testBit (64 * a + 62)) with h1 | h1 <;>
    rcases Bool.eq_false_or_eq_true (B.testBit (64 * a + 63)) with h2 | h2 <;>
    rcases Bool.eq_false_or_eq_true (B.testBit (64 * (a + 1))) with h3 | h3 <;>
    simp [h1, h2, h3]

/-- Per-word pair count, with and without the fake-pair correction. -/
theorem word_count (B a : Nat) (hmod63 : ¬pairAt B (64 * a + 63)) :
    popcount11_64 (wordAt B a) =
      ((List.range 63).filter fun t => decide (pairAt B (64 * a + t))).length +
        (if B.testBit (64 * a + 62) && B.testBit (64 * a + 63) &&
          B.testBit (64 * (a + 1)) then 1 else 0) ∧
    cntPairs B (64 * (a + 1)) = cntPairs B (64 * a) +
      ((List.range 63).filter fun t => decide (pairAt B (64 * a + t))).length := by
  constructor
  · rw [popcount11_64_spec _ (wordAt_lt B a), List.countP_eq_length_filter,
      word_filter B a hmod63, List.length_append]
    congr 1
    by_cases h : (B.testBit (64 * a + 62) && B.testBit (64 * a + 63) &&
        B.testBit (64 * (a + 1))) = true
    · rw [if_pos h, if_pos h]
      rfl
    · rw [if_neg h, if_neg h]
      rfl
  · rw [show 64 * (a + 1) = 64 * a + 64 by ring, cntPairs_add]
    congr 1
    rw [List.countP_eq_length_filter]
    have hs := filter_range_succ (fun t => decide (pairAt B (64 * a + t))) 63
    rw [show (63 : Nat) + 1 = 64 from rfl] at hs
    rw [hs, if_neg (by simp only [decide_eq_true_eq]; exact hmod63), List.append_nil]

/-- `select11_64` on word `a` of `B`, for an index within the true (global)
pair count of that word, selects a true global pair with the right rank. -/
theorem word_select (B a r : Nat) (hmod63 : ¬pairAt B (64 * a + 63))
    (hr1 : 1 ≤ r)
    (hr2 : r ≤ ((List.range 63).filter fun t => decide (pairAt B (64 * a + t))).length) :
    pairAt B (64 * a + select11_64 (wordAt B a) r) ∧
    cntPairs B (64 * a + select11_64 (wordAt B a) r) = cntPairs B (64 * a) + (r - 1) ∧
    select11_64 (wordAt B a) r < 63 := by
  rw [select11_64_spec _ _ (wordAt_lt B a), word_filter B a hmod63,
    List.getD_append _ _ _ _ (by omega)]
  obtain ⟨h1, h2, h3⟩ :=
    filter_range_getD_spec (fun t => decide (pairAt B (64 * a + t))) 63 (r - 1) (by omega)
  refine ⟨of_decide_eq_true h1, ?_, h3⟩
  rw [cntPairs_add, h2]


theorem scanWords_cons_neg (i b : Nat) (rest : List Nat) (rank pos : Nat)
    (hm : ¬b &&& m64 = m64) :
    scanWords i (b :: rest) rank pos =
      (if i ≤ rank + popcount11_64 b then
        ScanRes.found (pos * 64 +
          select11_64 b (popcount11_64 b - (rank + popcount11_64 b - i)))
      else scanWords i rest (rank + popcount11_64 b) (pos + 1)) := by
  cases rest with
  | nil =>
    simp only [scanWords]
    rw [if_neg hm]
  | cons x xs =>
    simp only [scanWords]
    rw [if_neg hm]

/-- The word scan of `select11`, started at word `a` with the exact pair
rank before bit `64·a`, finds the `i`-th pair of `B`. -/
theorem scanWords_found (B T W i : Nat)
    (hW : W = (T + 66) / 64)
    (hBtop : ∀ p, B.testBit p = true → p ≤ T + 1)
    (hmod : ∀ p, pairAt B p → p % 64 ≠ 63) :
    ∀ (ws : List Nat) (a rank : Nat),
      ws.length = W - a →
      (∀ t, t < ws.length → ws.getD t 0 = wordAt B (a + t)) →
      rank = cntPairs B (64 * a) → rank < i → i ≤ cntPairs B (64 * W) →
      ∃ x, scanWords i ws rank a = ScanRes.found x ∧ pairAt B x ∧
        cntPairs B x = i - 1 := by
  intro ws
  induction ws with
  | nil =>
    intro a rank hlen hget hrank hri hiW
    exfalso
    simp only [List.length_nil] at hlen
    have := cntPairs_mono B (show 64 * W ≤ 64 * a by omega)
    omega
  | cons b rest ih =>
    intro a rank hlen hget hrank hri hiW
    have hb : b = wordAt B a := by
      have h := hget 0 (by simp)
      simpa using h
    have hmod63 : ¬pairAt B (64 * a + 63) := by
      intro hp
      exact hmod _ hp (by omega)
    obtain ⟨hpc, hcinc⟩ := word_count B a hmod63
    by_cases hm : b &&& m64 = m64
    · -- the word ends in bits 62,63 = 11, so the next word must exist
      have hbit63 : B.testBit (64 * a + 63) = true := by
        have h2 := ((and_m64_iff b).mp hm).2
        rw [hb, wordAt_testBit] at h2
        simpa using h2
      have hbit62 : B.testBit (64 * a + 62) = true := by
        have h2 := ((and_m64_iff b).mp hm).1
        rw [hb, wordAt_testBit] at h2
        simpa using h2
      have hW2 : a + 2 ≤ W := by
        have := hBtop _ hbit63
        omega
      cases rest with
      | nil =>
        exfalso
        simp only [List.length_cons, List.length_nil] at hlen
        omega
      | cons nxt rest2 =>
        have hnxt : nxt = wordAt B (a + 1) := by
          have h := hget 1 (by simp)
          simpa using h
        have hZiff : (nxt &&& 1 = 1) ↔ B.testBit (64 * (a + 1)) = true := by
          rw [and_one_iff, hnxt, wordAt_testBit]
          simp
        simp only [scanWords]
        rw [if_pos hm]
        rw [hbit62, hbit63] at hpc
        by_cases hz : nxt &&& 1 = 1
        · rw [if_pos hz]
          rw [hZiff.mp hz] at hpc
          have hpc2 : popcount11_64 b =
              ((List.range 63).filter fun t =>
                decide (pairAt B (64 * a + t))).length + 1 := by
            rw [hb, hpc]
            norm_num
          by_cases hfound : i ≤ rank + popcount11_64 b - 1
          · rw [if_pos hfound]
            have harg : popcount11_64 b - 1 - (rank + popcount11_64 b - 1 - i) =
                i - rank := by omega
            rw [harg, hb]
            obtain ⟨hp1, hp2, hp3⟩ :=
              word_select B a (i - rank) hmod63 (by omega) (by omega)
            refine ⟨64 * a + select11_64 (wordAt B a) (i - rank), ?_, hp1,
              by rw [hp2]; omega⟩
            rw [Nat.mul_comm a 64]
          · rw [if_neg hfound]
            apply ih (a + 1) (rank + popcount11_64 b - 1)
            · simp only [List.length_cons] at hlen ⊢
              omega
            · intro t ht
              have h := hget (t + 1) (by simp only [List.length_cons] at ht ⊢; omega)
              rw [show a + (t + 1) = a + 1 + t by omega] at h
              exact h
            · omega
            · omega
            · exact hiW
        · rw [if_neg hz]
          have hzf : B.testBit (64 * (a + 1)) = false := by
            rcases Bool.eq_false_or_eq_true (B.testBit (64 * (a + 1))) with h | h
            · exact absurd (hZiff.mpr h) hz
            · exact h
          rw [hzf] at hpc
          have hpc2 : popcount11_64 b =
              ((List.range 63).filter fun t =>
                decide (pairAt B (64 * a + t))).length := by
            rw [hb, hpc]
            norm_num
          by_cases hfound : i ≤ rank + popcount11_64 b - 0
          · rw [if_pos hfound]
            have harg : popcount11_64 b - 0 - (rank + popcount11_64 b - 0 - i) =
                i - rank := by omega
            rw [harg, hb]
            obtain ⟨hp1, hp2, hp3⟩ :=
              word_select B a (i - rank) hmod63 (by omega) (by omega)
            refine ⟨64 * a + select11_64 (wordAt B a) (i - rank), ?_, hp1,
              by rw [hp2]; omega⟩
            rw [Nat.mul_comm a 64]
          · rw [if_neg hfound]
            apply ih (a + 1) (rank + popcount11_64 b - 0)
            · simp only [List.length_cons] at hlen ⊢
              omega
            · intro t ht
              have h := hget (t + 1) (by simp only [List.length_cons] at ht ⊢; omega)
              rw [show a + (t + 1) = a + 1 + t by omega] at h
              exact h
            · omega
            · omega
            · exact hiW
    · -- bits 62,63 not both set: no correction in this word
      have hpcz : (if B.testBit (64 * a + 62) && B.testBit (64 * a + 63) &&
          B.testBit (64 * (a + 1)) then (1 : Nat) else 0) = 0 := by
        rw [if_neg]
        intro hc
        rcases Bool.and_eq_true_iff.mp hc with ⟨hc1, _⟩
        rcases Bool.and_eq_true_iff.mp hc1 with ⟨hX, hY⟩
        apply hm
        apply (and_m64_iff b).mpr
        rw [hb]
        constructor
        · rw [wordAt_testBit]
          simp [hX]
        · rw [wordAt_testBit]
          simp [hY]
      rw [hpcz, Nat.add_zero, ← hb] at hpc
      rw [scanWords_cons_neg i b rest rank a hm]
      by_cases hfound : i ≤ rank + popcount11_64 b
      · rw [if_pos hfound]
        have harg : popcount11_64 b - (rank + popcount11_64 b - i) = i - rank := by
          omega
        rw [harg, hb]
        obtain ⟨hp1, hp2, hp3⟩ :=
          word_select B a (i - rank) hmod63 (by omega) (by omega)
        refine ⟨64 * a + select11_64 (wordAt B a) (i - rank), ?_, hp1,
          by rw [hp2]; omega⟩
        rw [Nat.mul_comm a 64]
      · rw [if_neg hfound]
        apply ih (a + 1) (rank + popcount11_64 b)
        · simp only [List.length_cons] at hlen ⊢
          omega
        · intro t ht
          have h := hget (t + 1) (by simp only [List.length_cons] at ht ⊢; omega)
          rw [show a + (t + 1) = a + 1 + t by omega] at h
          exact h
        · omega
        · omega
        · exact hiW


/-! ## Counting pairs against the start list -/

theorem countP_or_disjoint (p q : Nat → Bool) : ∀ (L : List Nat),
    (∀ c ∈ L, ¬(p c = true ∧ q c = true)) →
    L.countP (fun c => p c || q c) = L.countP p + L.countP q := by
  intro L
  induction L with
  | nil => intro _; rfl
  | cons a tl ih =>
    intro hd
    rw [List.countP_cons, List.countP_cons, List.countP_cons,
      ih (fun c hc => hd c (List.mem_cons_of_mem a hc))]
    have ha := hd a (List.mem_cons_self a tl)
    cases hpa : p a <;> cases hqa : q a <;> simp [hpa, hqa] at ha ⊢ <;> omega

theorem countP_eq_range (a x : Nat) :
    (List.range x).countP (fun j => decide (j = a)) = if a < x then 1 else 0 := by
  induction x with
  | zero => simp
  | succ x ih =>
    rw [List.range_succ, List.countP_append, ih]
    by_cases h : a < x
    · rw [if_pos h, if_pos (by omega)]
      have hne : ¬(x = a) := by omega
      simp [List.countP_cons, hne]
    · by_cases h2 : a = x
      · subst h2
        rw [if_neg h, if_pos (by omega)]
        simp [List.countP_cons]
      · rw [if_neg h, if_neg (by omega)]
        have hne : ¬(x = a) := by omega
        simp [List.countP_cons, hne]

theorem range_countP_mem (x : Nat) : ∀ (l : List Nat), l.Pairwise (· < ·) →
    (List.range x).countP (fun j => decide (j ∈ l)) =
      l.countP (fun s => decide (s < x)) := by
  intro l
  induction l with
  | nil => intro _; simp
  | cons a tl ih =>
    intro hp
    obtain ⟨ha, htl⟩ := List.pairwise_cons.mp hp
    have hsplit : (List.range x).countP (fun j => decide (j ∈ a :: tl)) =
        (List.range x).countP (fun j => decide (j = a)) +
        (List.range x).countP (fun j => decide (j ∈ tl)) := by
      rw [← countP_or_disjoint]
      · apply List.countP_congr
        intro j _
        by_cases h1 : j = a <;> by_cases h2 : j ∈ tl <;> simp [h1, h2]
      · intro c _ hc
        obtain ⟨h1, h2⟩ := hc
        rw [decide_eq_true_eq] at h1 h2
        subst h1
        exact absurd (ha c h2) (lt_irrefl c)
    rw [hsplit, countP_eq_range, ih htl, List.countP_cons]
    by_cases hax : a < x <;> simp [hax]
    omega

theorem sorted_countP_lt : ∀ (l : List Nat), l.Pairwise (· < ·) → ∀ (m x : Nat),
    l.get? m = some x → l.countP (fun s => decide (s < x)) = m := by
  intro l
  induction l with
  | nil =>
    intro _ m x h
    exact absurd h (by simp)
  | cons a tl ih =>
    intro hp m x hx
    obtain ⟨ha, htl⟩ := List.pairwise_cons.mp hp
    cases m with
    | zero =>
      simp only [List.get?_cons_zero, Option.some.injEq] at hx
      subst hx
      have h0 : tl.countP (fun s => decide (s < a)) = 0 := by
        rw [List.countP_eq_zero]
        intro b hb
        simp only [decide_eq_true_eq, not_lt]
        exact le_of_lt (ha b hb)
      simp [List.countP_cons, h0]
    | succ m2 =>
      simp only [List.get?_cons_succ] at hx
      have htlc := ih htl m2 x hx
      rw [List.countP_cons, htlc]
      have hmemx : x ∈ tl := List.get?_mem hx
      have hax : a < x := ha x hmemx
      simp [hax]

/-- For a position at or below the terminator, the buffer's pair count below
it is the number of codeword starts below it. -/
theorem cntPairs_eq_countStarts {items : List StreamItem} (hok : ItemsOK items)
    (x : Nat) (hx : x ≤ (streamBits items).2) :
    cntPairs (bufferBits items).1 x =
      (itemStarts items 0).countP (fun s => decide (s < x)) := by
  unfold cntPairs
  rw [← range_countP_mem x (itemStarts items 0) (itemStarts_sorted items 0)]
  apply List.countP_congr
  intro j hj
  have hjx : j < x := List.mem_range.mp hj
  by_cases hmem : j ∈ itemStarts items 0
  · simp [hmem, (pairs_of_stream items hok j).mpr (Or.inl hmem)]
  · have hnp : ¬pairAt (bufferBits items).1 j := by
      intro hpj
      rcases (pairs_of_stream items hok j).mp hpj with h | h
      · exact hmem h
      · omega
    simp [hmem, hnp]

/-- The total pair count of the buffer dominates the number of stored
codewords. -/
theorem cntPairs_total {items : List StreamItem} (hok : ItemsOK items) (y : Nat)
    (hy : (streamBits items).2 + 1 ≤ y) :
    (itemStarts items 0).length ≤ cntPairs (bufferBits items).1 y := by
  have h1 : (itemStarts items 0).length ≤
      cntPairs (bufferBits items).1 ((streamBits items).2 + 1) := by
    unfold cntPairs
    have h2 : (itemStarts items 0).countP
        (fun s => decide (s < (streamBits items).2 + 1)) =
        (itemStarts items 0).length := by
      rw [List.countP_eq_length]
      intro a ha
      simp only [decide_eq_true_eq]
      have := itemStarts_lt items 0 a ha
      omega
    rw [← h2, ← range_countP_mem _ _ (itemStarts_sorted items 0)]
    apply List.countP_mono_left
    intro j hjmem hjin
    rw [decide_eq_true_eq] at hjin ⊢
    exact (pairs_of_stream items hok j).mpr (Or.inl hjin)
  exact le_trans h1 (cntPairs_mono _ hy)

/-! ## `findIdx?` analysis -/

theorem findIdx?_spec (p : Nat → Bool) : ∀ (l : List Nat) (st : Nat),
    (List.findIdx? p l st = none ∧ ∀ x ∈ l, p x = false) ∨
    (∃ k, List.findIdx? p l st = some (st + k) ∧ k < l.length ∧
      (∀ m x, m < k → l.get? m = some x → p x = false) ∧
      ∃ x, l.get? k = some x ∧ p x = true) := by
  intro l
  induction l with
  | nil =>
    intro st
    left
    exact ⟨List.findIdx?_nil, by simp⟩
  | cons a tl ih =>
    intro st
    rw [List.findIdx?_cons]
    by_cases hp : p a = true
    · right
      refine ⟨0, ?_, by simp, ?_, a, rfl, hp⟩
      · rw [if_pos hp, Nat.add_zero]
      · intro m x hm _
        omega
    · rw [if_neg hp]
      rcases ih (st + 1) with ⟨h1, h2⟩ | ⟨k, h1, h2, h3, x, h4, h5⟩
      · left
        refine ⟨h1, ?_⟩
        intro x hx
        rcases List.mem_cons.mp hx with h | h
        · rw [h]
          exact Bool.eq_false_iff.mpr hp
        · exact h2 x h
      · right
        refine ⟨k + 1, ?_, by simp only [List.length_cons]; omega, ?_, x,
          by simpa using h4, h5⟩
        · rw [h1]
          congr 1
          omega
        · intro m x2 hm hx2
          cases m with
          | zero =>
            simp only [List.get?_cons_zero, Option.some.injEq] at hx2
            rw [← hx2]
            exact Bool.eq_false_iff.mpr hp
          | succ m2 =>
            exact h3 m2 x2 (by omega) (by simpa using hx2)


theorem get?_eq_getD {l : List Nat} {j : Nat} (h : j < l.length) :
    l.get? j = some (l.getD j 0) := by
  rw [List.getD_eq_getElem?_getD, ← List.get?_eq_getElem?]
  cases hx : l.get? j with
  | none =>
    rw [List.get?_eq_none] at hx
    omega
  | some c => rfl

theorem getD_drop (l : List Nat) (a t : Nat) :
    (l.drop a).getD t 0 = l.getD (a + t) 0 := by
  rw [List.getD_eq_getElem?_getD, List.getD_eq_getElem?_getD,
    ← List.get?_eq_getElem?, ← List.get?_eq_getElem?, List.get?_drop]

theorem wordsOf_length (arr : BitArray) :
    (wordsOf arr).length = (arr.len + 63) / 64 := by
  unfold wordsOf
  rw [List.length_map, List.length_range]

theorem wordsOf_getD (arr : BitArray) (m : Nat) (hm : m < (arr.len + 63) / 64) :
    (wordsOf arr).getD m 0 = wordAt arr.bits m := by
  unfold wordsOf wordAt
  rw [List.getD_eq_getElem?_getD, ← List.get?_eq_getElem?, List.get?_map,
    List.get?_range hm]
  rfl


theorem getD_of_get? {l : List Nat} {j c : Nat} (h : l.get? j = some c) :
    l.getD j 0 = c := by
  rw [List.getD_eq_getElem?_getD, ← List.get?_eq_getElem?, h]
  rfl

/-- `select11` on an invariant vector finds, for every `i ∈ [1, popcount]`,
a buffer position holding a `11` pair with exactly `i - 1` pairs below it. -/
theorem select11E_spec {v : Vector} {items : List StreamItem} (hI : Inv v items)
    {i : Nat} (hi1 : 1 ≤ i) (hi2 : i ≤ v.popcount) :
    ∃ x, select11E v i = ScanRes.found x ∧ pairAt (bufferBits items).1 x ∧
      cntPairs (bufferBits items).1 x = i - 1 := by
  obtain ⟨hok, hblen, hbbits, hpop, hvlen, hterm63, hstarts63, hhead0, hempty0,
    hrpos, hrub, hrlb, hrval, hilen, hival, hidx0, hinit⟩ := hI
  have hstartsT : ∀ s ∈ itemStarts items 0, s < (streamBits items).2 := by
    intro s hs
    have := itemStarts_lt items 0 s hs
    omega
  rw [hpop] at hi2
  have hjlt : (i - 1) / 640 < v.indices.length := by
    rw [hilen]
    omega
  obtain ⟨ij0, hij⟩ : ∃ c, v.indices.get? ((i - 1) / 640) = some c :=
    ⟨_, get?_eq_getD hjlt⟩
  have hjstart : (i - 1) / 640 * 640 < (itemStarts items 0).length := by omega
  obtain ⟨sj, hsj⟩ : ∃ c, (itemStarts items 0).get? ((i - 1) / 640 * 640) = some c :=
    ⟨_, get?_eq_getD hjstart⟩
  have hqv : ij0 / 512 = sj / 512 := by
    have h := hival ((i - 1) / 640) hjlt sj hsj
    rw [getD_of_get? hij] at h
    exact h
  have hsjT : sj < (streamBits items).2 := hstartsT sj (List.get?_mem hsj)
  have hqlt : ij0 / 512 < v.ranks.length := by
    rw [hqv]
    omega
  have hcountsj : (itemStarts items 0).countP (fun s => decide (s < sj)) =
      (i - 1) / 640 * 640 :=
    sorted_countP_lt (itemStarts items 0) (itemStarts_sorted items 0) _ sj hsj
  have hrq : v.ranks.getD (ij0 / 512) 0 < i := by
    rw [hrval _ hqlt]
    have hcle : (itemStarts items 0).countP
        (fun s => decide (s < ij0 / 512 * 512)) ≤
        (itemStarts items 0).countP (fun s => decide (s < sj)) := by
      apply List.countP_mono_left
      intro a _ hlt
      rw [decide_eq_true_eq] at hlt ⊢
      have h512 : ij0 / 512 * 512 ≤ sj := by
        rw [hqv]
        omega
      omega
    omega
  have hrqlen : (v.ranks.drop (ij0 / 512)).length = v.ranks.length - ij0 / 512 :=
    List.length_drop _ _
  have hpack : ∃ kE, ij0 / 512 + kE < v.ranks.length ∧
      (v.ranks.drop (ij0 / 512)).getD kE 0 < i ∧
      ((List.findIdx? (fun r => decide (i ≤ r)) (v.ranks.drop (ij0 / 512)) 0 = none ∧
        (v.ranks.drop (ij0 / 512)).length = kE + 1) ∨
       List.findIdx? (fun r => decide (i ≤ r)) (v.ranks.drop (ij0 / 512)) 0 =
         some (kE + 1)) := by
    rcases findIdx?_spec (fun r => decide (i ≤ r)) (v.ranks.drop (ij0 / 512)) 0 with
      ⟨hFn, hFall⟩ | ⟨kf, hFs, hkflen, hFbefore, xf, hFget, hFp⟩
    · refine ⟨(v.ranks.drop (ij0 / 512)).length - 1, by omega, ?_,
        Or.inl ⟨hFn, by omega⟩⟩
      have hklen : (v.ranks.drop (ij0 / 512)).length - 1 <
          (v.ranks.drop (ij0 / 512)).length := by omega
      have hget := get?_eq_getD hklen
      have hmem := List.get?_mem hget
      have hfa := hFall _ hmem
      simp only [decide_eq_false_iff_not, not_le] at hfa
      exact hfa
    · cases kf with
      | zero =>
        exfalso
        have h0 : (v.ranks.drop (ij0 / 512)).get? 0 =
            v.ranks.get? (ij0 / 512 + 0) := List.get?_drop _ _ _
        rw [h0] at hFget
        have hg := getD_of_get? hFget
        rw [Nat.add_zero] at hg
        rw [decide_eq_true_eq] at hFp
        omega
      | succ k2 =>
        refine ⟨k2, by omega, ?_, Or.inr (by simpa using hFs)⟩
        have hk2len : k2 < (v.ranks.drop (ij0 / 512)).length := by omega
        have hget := get?_eq_getD hk2len
        have hfb := hFbefore k2 _ (by omega) hget
        simp only [decide_eq_false_iff_not, not_le] at hfb
        exact hfb
  obtain ⟨kE, hkE1, hkE2, hkE4⟩ := hpack
  have hkElen : kE < (v.ranks.drop (ij0 / 512)).length := by omega
  obtain ⟨r0, hr0⟩ : ∃ c, (v.ranks.drop (ij0 / 512)).get? kE = some c :=
    ⟨_, get?_eq_getD hkElen⟩
  have hr0getD : v.ranks.getD (ij0 / 512 + kE) 0 = r0 := by
    have h := hr0
    rw [List.get?_drop] at h
    exact getD_of_get? h
  have hr0lt : r0 < i := by
    have hg := getD_of_get? hr0
    omega
  have hr0val : r0 = (itemStarts items 0).countP
      (fun s => decide (s < (ij0 / 512 + kE) * 512)) := by
    rw [← hr0getD]
    exact hrval _ hkE1
  have hTub : (ij0 / 512 + kE) * 512 ≤ (streamBits items).2 := by
    have h1 : (ij0 / 512 + kE) * 512 ≤ (v.ranks.length - 1) * 512 :=
      Nat.mul_le_mul_right _ (by omega)
    omega
  have h64 : (2 : Nat) ^ 6 = 64 := by norm_num
  have haidx : (((ij0 / 512 + kE) * 512) >>> 6) = (ij0 / 512 + kE) * 8 := by
    rw [Nat.shiftRight_eq_div_pow, h64]
    omega
  have hWlen : (wordsOf v.bits).length = ((streamBits items).2 + 66) / 64 := by
    rw [wordsOf_length, hblen]
  have haidxW : ¬(((ij0 / 512 + kE) * 512) >>> 6) > (wordsOf v.bits).length := by
    rw [haidx, hWlen]
    omega
  have hB2 : (bufferBits items).1 < 2 ^ ((streamBits items).2 + 2) := by
    have hs1 := streamBits_lt items hok
    show (streamBits items).1 + 3 * 2 ^ (streamBits items).2 < _
    have hp2 : (2 : Nat) ^ ((streamBits items).2 + 2) =
        4 * 2 ^ (streamBits items).2 := by
      rw [pow_add]
      ring
    omega
  have hBtop : ∀ p, (bufferBits items).1.testBit p = true →
      p ≤ (streamBits items).2 + 1 := by
    intro p hp
    by_contra hcon
    push_neg at hcon
    have hf : (bufferBits items).1.testBit p = false :=
      Nat.testBit_lt_two_pow (lt_of_lt_of_le hB2
        (Nat.pow_le_pow_right (by norm_num) (by omega)))
    rw [hf] at hp
    exact Bool.false_ne_true hp
  have hmodp : ∀ p, pairAt (bufferBits items).1 p → p % 64 ≠ 63 := by
    intro p hp
    rcases (pairs_of_stream items hok p).mp hp with h | h
    · exact hstarts63 p h
    · rw [h]
      exact hterm63
  have hrankcnt : r0 = cntPairs (bufferBits items).1
      (64 * (((ij0 / 512 + kE) * 512) >>> 6)) := by
    rw [haidx, show 64 * ((ij0 / 512 + kE) * 8) = (ij0 / 512 + kE) * 512 by ring,
      cntPairs_eq_countStarts hok _ hTub]
    exact hr0val
  have htotal : i ≤ cntPairs (bufferBits items).1 (64 * (wordsOf v.bits).length) := by
    have h2 := cntPairs_total hok (64 * (wordsOf v.bits).length)
      (by rw [hWlen]; omega)
    omega
  have hgetDw : ∀ t, t < ((wordsOf v.bits).drop (((ij0 / 512 + kE) * 512) >>> 6)).length →
      ((wordsOf v.bits).drop (((ij0 / 512 + kE) * 512) >>> 6)).getD t 0 =
        wordAt (bufferBits items).1 ((((ij0 / 512 + kE) * 512) >>> 6) + t) := by
    intro t ht
    rw [List.length_drop] at ht
    rw [getD_drop, wordsOf_getD]
    · rw [hbbits]
    · have hwl := wordsOf_length v.bits
      omega
  obtain ⟨x, hxeq, hxp, hxc⟩ := scanWords_found (bufferBits items).1
    (streamBits items).2 (wordsOf v.bits).length i hWlen hBtop hmodp
    ((wordsOf v.bits).drop (((ij0 / 512 + kE) * 512) >>> 6))
    (((ij0 / 512 + kE) * 512) >>> 6) r0
    (List.length_drop _ _) hgetDw hrankcnt hr0lt htotal
  refine ⟨x, ?_, hxp, hxc⟩
  rw [← hxeq]
  unfold select11E
  simp only [ss, sr]
  split
  · rename_i heq
    rw [hij] at heq
    cases heq
  · rename_i ij1 heq
    rw [hij] at heq
    injection heq with heq2
    subst heq2
    split
    · rename_i heqk
      exfalso
      split at heqk
      · rename_i heqF
        rcases hkE4 with ⟨hFn, _⟩ | hFs
        · rw [heqF] at hFn
          cases hFn
        · rw [heqF] at hFs
          injection hFs with h5
          omega
      · rename_i k0 heqF
        cases heqk
      · rename_i heqF
        split at heqk
        · rename_i hlen0
          omega
        · rename_i l hlenl
          cases heqk
    · rename_i k1 heqk
      have hk1 : k1 = kE := by
        split at heqk
        · cases heqk
        · rename_i k0 heqF
          injection heqk with h4
          rcases hkE4 with ⟨hFn, _⟩ | hFs
          · rw [heqF] at hFn
            cases hFn
          · rw [heqF] at hFs
            injection hFs with h5
            omega
        · rename_i heqF
          split at heqk
          · cases heqk
          · rename_i l hlenl
            injection heqk with h4
            rcases hkE4 with ⟨hFn, hlenE⟩ | hFs
            · omega
            · rw [heqF] at hFs
              cases hFs
      subst hk1
      split
      · rename_i heqr
        rw [hr0] at heqr
        cases heqr
      · rename_i r1 heqr
        rw [hr0] at heqr
        injection heqr with heqr2
        subst heqr2
        rw [if_neg haidxW]


instance (vals : List Nat) : Decidable (Storable vals) := by
  unfold Storable
  infer_instance

/-! ## Claims C3, C6, C10 -/

/-- **C3**.  After every completed sequence of `Add`s, the rank samples are
monotone (`ranks[q] ≤ ranks[q+1]`) and every `ranks[q]` equals the true
number of `11` pairs (codeword starts) located strictly before bit position
`q·sr` in the bit buffer — the decrement applied when the newly written
codeword lies entirely after the sampling boundary is exactly what keeps
this equality. -/
theorem c3_ranks_invariant (vals : List Nat) (h : Storable vals) :
    (∀ q, q + 1 < (buildVec vals).ranks.length →
      (buildVec vals).ranks.getD q 0 ≤ (buildVec vals).ranks.getD (q + 1) 0) ∧
    (∀ q < (buildVec vals).ranks.length,
      (buildVec vals).ranks.getD q 0 =
        cntPairs (buildVec vals).bits.bits (q * sr)) := by
  obtain ⟨items, hI, hvals⟩ := buildVec_inv vals h
  obtain ⟨hok, hblen, hbbits, hpop, hvlen, hterm63, hstarts63, hhead0, hempty0,
    hrpos, hrub, hrlb, hrval, hilen, hival, hidx0, hinit⟩ := hI
  constructor
  · intro q hq
    rw [hrval q (by omega), hrval (q + 1) hq]
    apply List.countP_mono_left
    intro a _ hlt
    rw [decide_eq_true_eq] at hlt ⊢
    have hmul : q * 512 ≤ (q + 1) * 512 := by omega
    omega
  · intro q hq
    rw [hrval q hq, hbbits]
    have hqT : q * sr ≤ (streamBits items).2 := by
      show q * 512 ≤ _
      have h1 : q * 512 ≤ ((buildVec vals).ranks.length - 1) * 512 :=
        Nat.mul_le_mul_right _ (by omega)
      omega
    rw [cntPairs_eq_countStarts hok _ hqT]
    rfl

theorem c3_ranks_invariant_witness :
    Storable [3, 1, 4] ∧
    ((∀ q, q + 1 < (buildVec [3, 1, 4]).ranks.length →
      (buildVec [3, 1, 4]).ranks.getD q 0 ≤ (buildVec [3, 1, 4]).ranks.getD (q + 1) 0) ∧
    (∀ q < (buildVec [3, 1, 4]).ranks.length,
      (buildVec [3, 1, 4]).ranks.getD q 0 =
        cntPairs (buildVec [3, 1, 4]).bits.bits (q * sr))) :=
  ⟨by decide, c3_ranks_invariant [3, 1, 4] (by decide)⟩

/-- **C6**.  On every vector produced by a sequence of `Add`s, `select11` is
strictly monotone over the stored range: `1 ≤ i < j ≤ length` implies
`select11(i) < select11(j)` (both calls succeeding with found positions). -/
theorem c6_select_monotone (vals : List Nat) (h : Storable vals) (i j : Nat)
    (hi : 1 ≤ i) (hij : i < j) (hj : j ≤ (buildVec vals).length) :
    ∃ xi xj, select11E (buildVec vals) i = ScanRes.found xi ∧
      select11E (buildVec vals) j = ScanRes.found xj ∧ xi < xj := by
  obtain ⟨items, hI, hvals⟩ := buildVec_inv vals h
  have hpc : (buildVec vals).popcount = (buildVec vals).length := by
    rw [hI.pop, hI.vlen]
  obtain ⟨xi, hie, hip, hic⟩ := select11E_spec hI hi (by omega)
  obtain ⟨xj, hje, hjp, hjc⟩ := @select11E_spec _ _ hI j (by omega) (by omega)
  refine ⟨xi, xj, hie, hje, ?_⟩
  by_contra hcon
  push_neg at hcon
  have hmono := cntPairs_mono (bufferBits items).1 hcon
  omega

theorem c6_select_monotone_witness :
    Storable [3, 1, 4] ∧ 1 ≤ 1 ∧ 1 < 2 ∧ 2 ≤ (buildVec [3, 1, 4]).length ∧
    (∃ xi xj, select11E (buildVec [3, 1, 4]) 1 = ScanRes.found xi ∧
      select11E (buildVec [3, 1, 4]) 2 = ScanRes.found xj ∧ xi < xj) :=
  ⟨by decide, le_refl 1, by decide, by decide,
    c6_select_monotone [3, 1, 4] (by decide) 1 2 (le_refl 1) (by decide) (by decide)⟩

/-- **C10**.  For every vector built by `Add`s (so the buffer ends with the
`011` terminator and padding is maintained) and every `i` with
`1 ≤ i ≤ length`, the word scan inside `select11(i)` never indexes past the
end of the word array (the embedded scan would return `oob` on any such
access, and `fell` if it ran off the buffer): it terminates with a found
position, having reached `rank ≥ i`. -/
theorem c10_select_scan_safe (vals : List Nat) (h : Storable vals) (i : Nat)
    (hi : 1 ≤ i) (hlen : i ≤ (buildVec vals).length) :
    ∃ x, select11E (buildVec vals) i = ScanRes.found x := by
  obtain ⟨items, hI, hvals⟩ := buildVec_inv vals h
  have hpc : (buildVec vals).popcount = (buildVec vals).length := by
    rw [hI.pop, hI.vlen]
  obtain ⟨x, he, hp2, hc2⟩ := select11E_spec hI hi (by omega)
  exact ⟨x, he⟩

theorem c10_select_scan_safe_witness :
    Storable [3, 1, 4] ∧ 1 ≤ 3 ∧ 3 ≤ (buildVec [3, 1, 4]).length ∧
    (∃ x, select11E (buildVec [3, 1, 4]) 3 = ScanRes.found x) :=
  ⟨by decide, by decide, by decide,
    c10_select_scan_safe [3, 1, 4] (by decide) 3 (by decide) (by decide)⟩


/-! ## Weighted Fibonacci values of digit strings

The decoder reads codewords back to front; `wval x n k` is the value of the
bit string `x` restricted to its low `n` bits, bit `t` weighted
`fib (k + n - 1 - t)` — the Fibonacci positional value used throughout the
byte-table decoder. -/

def wval (x : Nat) : Nat → Nat → Nat
  | 0, _ => 0
  | n + 1, k => (if x.testBit n then fib k else 0) + wval x n (k + 1)

/-- No two adjacent set bits in the low `n`-bit window. -/
def nonAdjW (x n : Nat) : Prop :=
  ∀ t < n, t + 1 < n → ¬(x.testBit t = true ∧ x.testBit (t + 1) = true)

instance (x n : Nat) : Decidable (nonAdjW x n) := by
  unfold nonAdjW
  infer_instance

theorem wval_congr (x y : Nat) : ∀ n k, (∀ t, t < n → x.testBit t = y.testBit t) →
    wval x n k = wval y n k := by
  intro n
  induction n with
  | zero => intro k _; rfl
  | succ n ih =>
    intro k h
    show (if x.testBit n then fib k else 0) + wval x n (k + 1) = _
    rw [h n (by omega), ih (k + 1) (fun t ht => h t (by omega))]
    rfl

theorem wval_mod (x n k : Nat) : wval (x % 2 ^ n) n k = wval x n k := by
  apply wval_congr
  intro t ht
  rw [Nat.testBit_mod_two_pow, decide_eq_true ht, Bool.true_and]

/-- The Fibonacci addition law for the shifted table
(`fib 0 = fib 1 = 1`). -/
theorem fib_add (k : Nat) : ∀ s, 1 ≤ k → 1 ≤ s →
    fib (k + s) = fib k * fib s + fib (k - 1) * fib (s - 1) := by
  intro s
  induction s using Nat.strong_induction_on with
  | _ s ih =>
    intro hk hs
    match s, hs with
    | 1, _ =>
      have e1 : fib (k + 1) = fib (k - 1) + fib ((k - 1) + 1) := by
        rw [show k + 1 = (k - 1) + 2 by omega]
        exact fib_add_two (k - 1)
      rw [show (k - 1) + 1 = k by omega] at e1
      have hf1 : fib 1 = 1 := rfl
      have hf0 : fib (1 - 1) = 1 := rfl
      rw [hf1, hf0]
      omega
    | 2, _ =>
      have e1 : fib (k + 2) = fib k + fib (k + 1) := fib_add_two k
      have e2 : fib (k + 1) = fib (k - 1) + fib ((k - 1) + 1) := by
        rw [show k + 1 = (k - 1) + 2 by omega]
        exact fib_add_two (k - 1)
      rw [show (k - 1) + 1 = k by omega] at e2
      have hf2 : fib 2 = 2 := rfl
      have hf1 : fib (2 - 1) = 1 := rfl
      rw [hf2, hf1]
      omega
    | (s + 3), _ =>
      have ih1 := ih (s + 2) (by omega) hk (by omega)
      have ih2 := ih (s + 1) (by omega) hk (by omega)
      rw [show s + 2 - 1 = s + 1 by omega] at ih1
      rw [show s + 1 - 1 = s by omega] at ih2
      have e1 : fib (k + (s + 3)) = fib (k + (s + 1)) + fib ((k + (s + 1)) + 1) := by
        rw [show k + (s + 3) = (k + (s + 1)) + 2 by omega]
        exact fib_add_two (k + (s + 1))
      rw [show (k + (s + 1)) + 1 = k + (s + 2) by omega] at e1
      have e2 : fib (s + 3) = fib (s + 1) + fib (s + 2) := fib_add_two (s + 1)
      have e3 : fib (s + 2) = fib s + fib (s + 1) := fib_add_two s
      calc fib (k + (s + 3)) = fib (k + (s + 1)) + fib (k + (s + 2)) := e1
        _ = (fib k * fib (s + 1) + fib (k - 1) * fib s) +
            (fib k * fib (s + 2) + fib (k - 1) * fib (s + 1)) := by rw [ih2, ih1]
        _ = fib k * (fib (s + 1) + fib (s + 2)) +
            fib (k - 1) * (fib s + fib (s + 1)) := by ring
        _ = fib k * fib (s + 3) + fib (k - 1) * fib (s + 3 - 1) := by
            rw [show s + 3 - 1 = s + 2 by omega, ← e2, ← e3]

/-- The two-table combination law behind `fibshift`, at the level of
weighted sums. -/
theorem wval_comb (x : Nat) : ∀ n k j, 1 ≤ k →
    fib k * wval x n (j + 1) + fib (k - 1) * wval x n j = wval x n (k + j + 1) := by
  intro n
  induction n with
  | zero =>
    intro k j _
    show fib k * 0 + fib (k - 1) * 0 = 0
    ring
  | succ n ih =>
    intro k j hk
    show fib k * ((if x.testBit n then fib (j + 1) else 0) + wval x n (j + 2)) +
      fib (k - 1) * ((if x.testBit n then fib j else 0) + wval x n (j + 1)) =
      (if x.testBit n then fib (k + j + 1) else 0) + wval x n (k + j + 2)
    have hbit : fib k * (if x.testBit n then fib (j + 1) else 0) +
        fib (k - 1) * (if x.testBit n then fib j else 0) =
        (if x.testBit n then fib (k + j + 1) else 0) := by
      by_cases hb : x.testBit n = true
      · rw [if_pos hb, if_pos hb, if_pos hb]
        have := fib_add k (j + 1) hk (by omega)
        rw [show j + 1 - 1 = j by omega] at this
        rw [show k + j + 1 = k + (j + 1) by omega, this]
      · rw [if_neg hb, if_neg hb, if_neg hb]
        ring
    have htail := ih k (j + 1) hk
    rw [show k + (j + 1) + 1 = k + j + 2 by omega] at htail
    calc fib k * ((if x.testBit n then fib (j + 1) else 0) + wval x n (j + 2)) +
        fib (k - 1) * ((if x.testBit n then fib j else 0) + wval x n (j + 1)) =
        (fib k * (if x.testBit n then fib (j + 1) else 0) +
          fib (k - 1) * (if x.testBit n then fib j else 0)) +
        (fib k * wval x n (j + 2) + fib (k - 1) * wval x n (j + 1)) := by ring
      _ = (if x.testBit n then fib (k + j + 1) else 0) + wval x n (k + j + 2) := by
          rw [hbit, htail]

/-- Splitting a weighted sum at bit position `n1`: the high `n2` bits keep
the base weight, the low `n1` bits are shifted up by `n2`. -/
theorem wval_split (x n1 : Nat) : ∀ n2 k,
    wval x (n1 + n2) k = wval (x >>> n1) n2 k + wval x n1 (k + n2) := by
  intro n2
  induction n2 with
  | zero =>
    intro k
    show wval x n1 k = 0 + wval x n1 (k + 0)
    rw [Nat.zero_add, Nat.add_zero]
  | succ n2 ih =>
    intro k
    show (if x.testBit (n1 + n2) then fib k else 0) + wval x (n1 + n2) (k + 1) = _
    rw [ih (k + 1)]
    show _ = ((if (x >>> n1).testBit n2 then fib k else 0) + wval (x >>> n1) n2 (k + 1)) +
      wval x n1 (k + (n2 + 1))
    rw [Nat.testBit_shiftRight, show n1 + n2 = n1 + n2 from rfl]
    rw [show k + 1 + n2 = k + (n2 + 1) by omega]
    ring

set_option maxRecDepth 8000 in
/-- The `vf1` table agrees with the down-shifted weighted value on every
non-adjacent window of at most 8 bits (all decoder fragments). -/
theorem vf1_correct : ∀ x < 256, ∀ n < 9, x < 2 ^ n → nonAdjW x n →
    vf1 (wval x n 1) = wval x n 0 := by decide

/-- `fibshift` performs the Fibonacci left shift on fragment values. -/
theorem fibshift_correct (x n k : Nat) (hx : x < 2 ^ n) (hn : n ≤ 8)
    (hna : nonAdjW x n) (hk : 1 ≤ k) :
    fibshift (wval x n 1) k = wval x n (k + 1) := by
  unfold fibshift
  have hx256 : x < 256 := lt_of_lt_of_le hx
    (le_trans (Nat.pow_le_pow_right (by norm_num) hn) (by norm_num))
  rw [vf1_correct x hx256 n (by omega) hx hna]
  have := wval_comb x n k 0 hk
  rw [show k + 0 + 1 = k + 1 by omega] at this
  exact this


/-! ## The encoded value as a weighted sum -/

theorem zeckRev_shift : ∀ (j c n : Nat), zeckRev (c + 1) j n = 2 * zeckRev c j n := by
  intro j
  induction j with
  | zero =>
    intro c n
    show (if fib 0 ≤ n then 2 ^ (c + 1) else 0) = 2 * (if fib 0 ≤ n then 2 ^ c else 0)
    by_cases h : fib 0 ≤ n
    · rw [if_pos h, if_pos h, pow_succ]
      ring
    · rw [if_neg h, if_neg h]
  | succ j ih =>
    intro c n
    show (if fib (j + 1) ≤ n then 2 ^ (c + 1) + zeckRev (c + 1 + 1) j (n - fib (j + 1))
        else zeckRev (c + 1 + 1) j n) =
      2 * (if fib (j + 1) ≤ n then 2 ^ c + zeckRev (c + 1) j (n - fib (j + 1))
        else zeckRev (c + 1) j n)
    by_cases h : fib (j + 1) ≤ n
    · rw [if_pos h, if_pos h, ih (c + 1), pow_succ]
      ring
    · rw [if_neg h, if_neg h, ih (c + 1)]

theorem wval_cons (b z : Nat) (hb : b < 2) : ∀ (n k : Nat),
    wval (b + 2 * z) (n + 1) k = b * fib (k + n) + wval z n k := by
  intro n
  induction n with
  | zero =>
    intro k
    show (if (b + 2 * z).testBit 0 then fib k else 0) + 0 = b * fib (k + 0) + 0
    have h0 : (b + 2 * z).testBit 0 = decide ((b + 2 * z) % 2 = 1) := Nat.testBit_zero _
    have hm : (b + 2 * z) % 2 = b := by omega
    rw [h0, hm]
    match b, hb with
    | 0, _ => simp
    | 1, _ => simp
  | succ n ih =>
    intro k
    show (if (b + 2 * z).testBit (n + 1) then fib k else 0) + wval (b + 2 * z) (n + 1) (k + 1) =
      b * fib (k + (n + 1)) + ((if z.testBit n then fib k else 0) + wval z n (k + 1))
    have hsucc : (b + 2 * z).testBit (n + 1) = z.testBit n := by
      rw [Nat.testBit_succ]
      congr 1
      omega
    rw [hsucc, ih (k + 1), show k + 1 + n = k + (n + 1) by omega]
    ring

theorem zeckRev_val : ∀ (j n : Nat), n < fib (j + 1) →
    wval (zeckRev 0 j n) (j + 1) 0 = n := by
  intro j
  induction j with
  | zero =>
    intro n hn
    have hn0 : n = 0 := by
      have h1 : fib (0 + 1) = 1 := rfl
      omega
    subst hn0
    have hz : zeckRev 0 0 0 = 0 := by
      show (if fib 0 ≤ 0 then 2 ^ 0 else 0) = 0
      rw [if_neg (by show ¬(fib 0 ≤ 0); have : fib 0 = 1 := rfl; omega)]
    rw [hz]
    show (if Nat.testBit 0 0 then fib 0 else 0) + 0 = 0
    simp
  | succ j ih =>
    intro n hn
    have hfj2 : fib (j + 1 + 1) = fib j + fib (j + 1) := fib_add_two j
    show wval (if fib (j + 1) ≤ n then 2 ^ 0 + zeckRev (0 + 1) j (n - fib (j + 1))
      else zeckRev (0 + 1) j n) (j + 2) 0 = n
    by_cases h : fib (j + 1) ≤ n
    · rw [if_pos h]
      set M := n - fib (j + 1) with hM
      have hsh := zeckRev_shift j 0 M
      have hlt : M < fib (j + 1) := by
        have := fib_mono (show j ≤ j + 1 by omega)
        omega
      have hih := ih M hlt
      have hw := wval_cons 1 (zeckRev 0 j M) (by omega) (j + 1) 0
      calc wval (2 ^ 0 + zeckRev (0 + 1) j M) (j + 2) 0
          = wval (1 + 2 * zeckRev 0 j M) (j + 1 + 1) 0 := by
            rw [hsh]
            rfl
        _ = 1 * fib (0 + (j + 1)) + wval (zeckRev 0 j M) (j + 1) 0 := hw
        _ = fib (j + 1) + M := by rw [hih, one_mul, Nat.zero_add]
        _ = n := by omega
    · rw [if_neg h]
      have hsh := zeckRev_shift j 0 n
      have hih := ih n (by omega)
      have hw := wval_cons 0 (zeckRev 0 j n) (by omega) (j + 1) 0
      calc wval (zeckRev (0 + 1) j n) (j + 2) 0
          = wval (0 + 2 * zeckRev 0 j n) (j + 1 + 1) 0 := by
            rw [hsh, Nat.zero_add]
        _ = 0 * fib (0 + (j + 1)) + wval (zeckRev 0 j n) (j + 1) 0 := hw
        _ = n := by rw [hih]; omega

/-- The packed codeword of `m`, with the terminator bit stripped, sums back
to `m` under the Fibonacci weights. -/
theorem fencode_val (m : Nat) (h2 : 2 ≤ m) (hm : m < fib 63) :
    wval ((fencode m).1 >>> 1) ((fencode m).2 - 1) 1 = m := by
  obtain ⟨P, hfe, hP1, hP63, hmP, hq⟩ := fencode_unfold m hm
  rw [hfe]
  show wval ((1 + zeckRev 1 (P - 1) m) >>> 1) (P - 1) 1 = m
  rw [show zeckRev 1 (P - 1) m = zeckRev (0 + 1) (P - 1) m from rfl,
    zeckRev_shift (P - 1) 0 m]
  have hdiv : (1 + 2 * zeckRev 0 (P - 1) m) >>> 1 = zeckRev 0 (P - 1) m := by
    rw [Nat.shiftRight_eq_div_pow, pow_one]
    omega
  rw [hdiv]
  have hmP2 : m < fib ((P - 1) + 1) := by
    rw [show P - 1 + 1 = P by omega]
    exact hmP
  have hz := zeckRev_val (P - 1) m hmP2
  have hlt := (zeckRev_spec (P - 1) 0 m hmP2).1
  rw [Nat.zero_add] at hlt
  have htop : (zeckRev 0 (P - 1) m).testBit (P - 1) = false :=
    Nat.testBit_lt_two_pow hlt
  show wval (zeckRev 0 (P - 1) m) (P - 1) 1 = m
  have hpeel : wval (zeckRev 0 (P - 1) m) ((P - 1) + 1) 0 =
      (if (zeckRev 0 (P - 1) m).testBit (P - 1) then fib 0 else 0) +
      wval (zeckRev 0 (P - 1) m) (P - 1) 1 := rfl
  rw [hz, htop] at hpeel
  simp only [Bool.false_eq_true, if_false, Nat.zero_add] at hpeel
  omega


/-! ## The round-trip input of claim C2

The claim feeds the decoder the packed codeword of `m + 2` (low bit first, as
`fencode` lays it out), followed by the `0b11` terminator in the next two bits
and zero padding, cut into little-endian bytes as `Get` would read them. -/

def c2Stream (w L : Nat) : Nat := w + 3 * 2 ^ L

def c2NBytes (L : Nat) : Nat := (L + 9) / 8 + 2

def c2Bytes (w L : Nat) : List Nat :=
  (List.range (c2NBytes L)).map fun j => (c2Stream w L >>> (8 * j)) % 2 ^ 8

def c2Input (m : Nat) : List Nat := c2Bytes (fibencode m).1 (fibencode m).2

/-- Fragment `k` of the codeword digit string `x` as the decoder accumulates
them: byte 0 contributes its top seven bits, each later byte all eight. -/
def chunk (x : Nat) : Nat → Nat
  | 0 => wval (x % 2 ^ 7) 7 1
  | k + 1 => wval ((x >>> (8 * k + 7)) % 2 ^ 8) 8 1

/-- The decoder's fragment buffer after the fragments of bytes `0 .. k-1`
have been flushed into it. -/
def fbufF (x k : Nat) : List Nat := (List.range k).map (chunk x)

/-- Nowhere-adjacent bit strings (the digit part of a Fibonacci codeword). -/
def nonAdjAll (x : Nat) : Prop :=
  ∀ t, ¬(x.testBit t = true ∧ x.testBit (t + 1) = true)

theorem window_testBit (x a b t : Nat) :
    ((x >>> a) % 2 ^ b).testBit t = (decide (t < b) && x.testBit (a + t)) := by
  rw [Nat.testBit_mod_two_pow, Nat.testBit_shiftRight]

theorem nonAdjW_window (x a b : Nat) (h : nonAdjAll x) :
    nonAdjW ((x >>> a) % 2 ^ b) b := by
  intro t _ _ hcon
  obtain ⟨h1, h2⟩ := hcon
  rw [window_testBit, Bool.and_eq_true] at h1 h2
  refine h (a + t) ⟨h1.2, ?_⟩
  rw [show a + t + 1 = a + (t + 1) by omega]
  exact h2.2

theorem nonAdjW_mod (x b : Nat) (h : nonAdjAll x) : nonAdjW (x % 2 ^ b) b := by
  have hw := nonAdjW_window x 0 b h
  rwa [Nat.shiftRight_zero] at hw

theorem fbufF_succ (x k : Nat) : fbufF x (k + 1) = fbufF x k ++ [chunk x k] := by
  unfold fbufF
  rw [List.range_succ, List.map_append, List.map_singleton]

/-- Byte table entry for the first byte of a codeword: terminator bit,
top digit bit, the mandatory zero, then five digit bits.  The whole byte is
consumed and yields one complete fragment. -/
theorem table1_first : ∀ b < 256, b % 8 = 3 → nonAdjW (b >>> 1) 7 →
    fibTable1 b = ⟨0, [wval (b >>> 1) 7 1], 0⟩ := by decide

/-- Byte table entry for a pure digit byte: nothing completes, the whole
byte joins the pending fragment. -/
theorem table1_digits : ∀ b < 256, nonAdjW b 8 →
    fibTable1 b = ⟨8, [], wval b 8 1⟩ := by decide

/-- Byte table entry for a byte holding the last digits of a codeword and the
terminator `11` at offsets `o, o+1` (`1 ≤ o ≤ 6`): the terminator run
completes as a fragment of value `fib (7-o)` and the digits start the next
pending fragment. -/
theorem table1_term : ∀ b < 256, ∀ o < 7, 1 ≤ o → b >>> o = 3 → nonAdjW b o →
    fibTable1 b = ⟨o, [fib (7 - o)], wval (b % 2 ^ o) o 1⟩ := by decide

/-- Second byte table, used when a `11` pair straddles a byte boundary: the
top bit of the previous byte is dropped and its seven digit bits re-read. -/
theorem table2_straddle : ∀ z < 128, nonAdjW z 7 →
    fibTable2 (z + 128) = ⟨7, [], wval z 7 1⟩ := by decide


/-- Reassembling the fragment buffer: the fragments of bytes `0 .. k` under
`decodeBufferAux` sum to the weighted value of the low `8k+7` digit bits,
shifted by the incoming `shift`. -/
theorem decodeBufferAux_fbufF (x : Nat) (hna : nonAdjAll x) : ∀ k sh last, 1 ≤ sh →
    decodeBufferAux ((fbufF x (k + 1)).reverse) sh last =
      last + wval (x % 2 ^ (8 * k + 7)) (8 * k + 7) (sh + 1) := by
  intro k
  induction k with
  | zero =>
    intro sh last hsh
    have hfb : fbufF x 1 = [chunk x 0] := rfl
    rw [hfb, List.reverse_singleton]
    simp only [decodeBufferAux]
    have hc : chunk x 0 = wval (x % 2 ^ 7) 7 1 := rfl
    rw [hc, fibshift_correct (x % 2 ^ 7) 7 sh (Nat.mod_lt _ (by norm_num)) (by norm_num)
      (nonAdjW_mod x 7 hna) hsh]
  | succ k ih =>
    intro sh last hsh
    rw [fbufF_succ, List.reverse_append, List.reverse_singleton, List.singleton_append]
    simp only [decodeBufferAux]
    rw [ih (sh + 8) (last + fibshift (chunk x (k + 1)) sh) (by omega)]
    have hc : chunk x (k + 1) = wval ((x >>> (8 * k + 7)) % 2 ^ 8) 8 1 := rfl
    have hfs := fibshift_correct ((x >>> (8 * k + 7)) % 2 ^ 8) 8 sh
      (Nat.mod_lt _ (by norm_num)) (le_refl 8) (nonAdjW_window x (8 * k + 7) 8 hna) hsh
    rw [hc, hfs]
    have hm1 : wval (x % 2 ^ (8 * k + 7)) (8 * k + 7) (sh + 8 + 1) =
        wval x (8 * k + 7) (sh + 8 + 1) := wval_mod x (8 * k + 7) (sh + 8 + 1)
    have hm2 : wval ((x >>> (8 * k + 7)) % 2 ^ 8) 8 (sh + 1) =
        wval (x >>> (8 * k + 7)) 8 (sh + 1) := wval_mod (x >>> (8 * k + 7)) 8 (sh + 1)
    have hm3 : wval (x % 2 ^ (8 * (k + 1) + 7)) (8 * (k + 1) + 7) (sh + 1) =
        wval x (8 * (k + 1) + 7) (sh + 1) := wval_mod x (8 * (k + 1) + 7) (sh + 1)
    have hsplit := wval_split x (8 * k + 7) 8 (sh + 1)
    rw [show sh + 1 + 8 = sh + 8 + 1 by omega] at hsplit
    rw [hm1, hm2, hm3, show 8 * (k + 1) + 7 = 8 * k + 7 + 8 by omega, hsplit]
    omega

/-- `decodeBuffer` on the byte fragments of `0 .. k` plus a final raw
fragment `g`. -/
theorem decodeBuffer_fbufF_append (x : Nat) (hna : nonAdjAll x) (k g sh : Nat)
    (hsh : 1 ≤ sh) :
    decodeBuffer (fbufF x (k + 1) ++ [g]) sh =
      g + wval (x % 2 ^ (8 * k + 7)) (8 * k + 7) (sh + 1) := by
  have hdb : decodeBuffer (fbufF x (k + 1) ++ [g]) sh =
      decodeBufferAux ((fbufF x (k + 1)).reverse) sh g := by
    unfold decodeBuffer
    rw [List.reverse_append, List.reverse_singleton, List.singleton_append]
  rw [hdb, decodeBufferAux_fbufF x hna k sh g hsh]


theorem shiftRight_lt_pow (x a b : Nat) (h : x < 2 ^ (a + b)) : x >>> a < 2 ^ b := by
  rw [Nat.shiftRight_eq_div_pow]
  apply Nat.div_lt_of_lt_mul
  rw [← pow_add]
  exact h

theorem pow_split (a b c : Nat) (h : a = b + c) : (2 : Nat) ^ a = 2 ^ b * 2 ^ c := by
  rw [← pow_add, h]

/-- Byte 0 of the round-trip stream: terminator bit, then the low seven
digit bits. -/
theorem c2_byte0 (x L : Nat) (hL : 8 ≤ L) :
    c2Stream (1 + 2 * x) L % 2 ^ 8 = 1 + 2 * (x % 128) := by
  have hrw : c2Stream (1 + 2 * x) L = (1 + 2 * x) + 3 * 2 ^ (L - 8) * 2 ^ 8 := by
    show (1 + 2 * x) + 3 * 2 ^ L = _
    rw [pow_split L (L - 8) 8 (by omega)]
    ring
  rw [hrw, Nat.add_mul_mod_self_right]
  have h256 : (2 : Nat) ^ 8 = 256 := by norm_num
  rw [h256]
  omega

/-- The stream shifted past `j ≥ 1` whole bytes, while still inside the
codeword: digit bits, then the terminator `3` aligned at `L - 8j`. -/
theorem c2_shift (x L j : Nat) (hj : 1 ≤ j) (hjL : 8 * j ≤ L) :
    c2Stream (1 + 2 * x) L >>> (8 * j) = x >>> (8 * j - 1) + 3 * 2 ^ (L - 8 * j) := by
  have hrw : c2Stream (1 + 2 * x) L = (1 + 2 * x) + 3 * 2 ^ (L - 8 * j) * 2 ^ (8 * j) := by
    show (1 + 2 * x) + 3 * 2 ^ L = _
    rw [pow_split L (L - 8 * j) (8 * j) (by omega)]
    ring
  have hpj : (2 : Nat) ^ (8 * j) = 2 * 2 ^ (8 * j - 1) := by
    rw [pow_split (8 * j) 1 (8 * j - 1) (by omega), pow_one]
  rw [hrw, Nat.shiftRight_eq_div_pow,
    Nat.add_mul_div_right _ _ (Nat.pos_pow_of_pos _ (by norm_num)),
    Nat.shiftRight_eq_div_pow]
  congr 1
  rw [hpj, ← Nat.div_div_eq_div_mul]
  congr 1
  omega

/-- A byte strictly inside the digit region. -/
theorem c2_byte_digit (x L j : Nat) (hj : 1 ≤ j) (hjL : 8 * j + 8 ≤ L) :
    (c2Stream (1 + 2 * x) L >>> (8 * j)) % 2 ^ 8 = (x >>> (8 * j - 1)) % 2 ^ 8 := by
  rw [c2_shift x L j hj (by omega)]
  have hrw : 3 * 2 ^ (L - 8 * j) = 3 * 2 ^ (L - 8 * j - 8) * 2 ^ 8 := by
    rw [pow_split (L - 8 * j) (L - 8 * j - 8) 8 (by omega)]
    ring
  rw [hrw, Nat.add_mul_mod_self_right]

/-- The byte holding the end of the digits and the whole terminator
(`L % 8 ≤ 6`). -/
theorem c2_byte_term_low (x L q : Nat) (hq : 1 ≤ q) (hqL : 8 * q ≤ L)
    (ho : L ≤ 8 * q + 6) (hx : x < 2 ^ (L - 1)) :
    (c2Stream (1 + 2 * x) L >>> (8 * q)) % 2 ^ 8 =
      x >>> (8 * q - 1) + 3 * 2 ^ (L - 8 * q) := by
  rw [c2_shift x L q hq hqL]
  apply Nat.mod_eq_of_lt
  have hy : x >>> (8 * q - 1) < 2 ^ (L - 8 * q) := by
    apply shiftRight_lt_pow
    rw [show 8 * q - 1 + (L - 8 * q) = L - 1 by omega]
    exact hx
  have hp : (2 : Nat) ^ (L - 8 * q) ≤ 2 ^ 6 := Nat.pow_le_pow_right (by norm_num) (by omega)
  have h256 : (2 : Nat) ^ 8 = 256 := by norm_num
  have h64 : (2 : Nat) ^ 6 = 64 := by norm_num
  omega

/-- The byte holding the end of the digits and the first terminator bit when
the terminator straddles a byte boundary (`L % 8 = 7`). -/
theorem c2_byte_term7 (x L q : Nat) (hq : 1 ≤ q) (ho : L = 8 * q + 7)
    (hx : x < 2 ^ (L - 1)) :
    (c2Stream (1 + 2 * x) L >>> (8 * q)) % 2 ^ 8 = x >>> (8 * q - 1) + 128 := by
  rw [c2_shift x L q hq (by omega), show L - 8 * q = 7 by omega]
  have hy : x >>> (8 * q - 1) < 2 ^ 7 := by
    apply shiftRight_lt_pow
    rw [show 8 * q - 1 + 7 = L - 1 by omega]
    exact hx
  have h256 : (2 : Nat) ^ 8 = 256 := by norm_num
  have h128 : (2 : Nat) ^ 7 = 128 := by norm_num
  rw [h256, h128]
  rw [h128] at hy
  have key : ∀ d : Nat, d < 128 → (d + 3 * 128) % 256 = d + 128 := by
    intro d hd
    omega
  exact key _ hy

/-- The byte after a straddling terminator: just the second terminator
bit. -/
theorem c2_byte_after7 (x L q : Nat) (ho : L = 8 * q + 7) (hx : x < 2 ^ (L - 1)) :
    (c2Stream (1 + 2 * x) L >>> (8 * (q + 1))) % 2 ^ 8 = 1 := by
  have hpow : (2 : Nat) ^ (8 * (q + 1)) = 2 * 2 ^ L := by
    rw [pow_split (8 * (q + 1)) 1 L (by omega), pow_one]
  have hxL : 2 * x + 2 ≤ 2 ^ L := by
    have h2 : (2 : Nat) ^ L = 2 ^ (L - 1) * 2 := by
      rw [pow_split L (L - 1) 1 (by omega), pow_one]
    omega
  have hdiv : c2Stream (1 + 2 * x) L / 2 ^ (8 * (q + 1)) = 1 := by
    apply Nat.div_eq_of_lt_le
    · rw [one_mul, hpow]
      show 2 * 2 ^ L ≤ 1 + 2 * x + 3 * 2 ^ L
      omega
    · rw [hpow]
      show 1 + 2 * x + 3 * 2 ^ L < (1 + 1) * (2 * 2 ^ L)
      omega
  rw [Nat.shiftRight_eq_div_pow, hdiv]
  norm_num

/-- Bytes past the terminator are zero padding. -/
theorem c2_byte_pad (x L j : Nat) (hL : 1 ≤ L) (hj : L + 2 ≤ 8 * j)
    (hx : x < 2 ^ (L - 1)) :
    (c2Stream (1 + 2 * x) L >>> (8 * j)) % 2 ^ 8 = 0 := by
  have hxL : 2 * x + 2 ≤ 2 ^ L := by
    have h2 : (2 : Nat) ^ L = 2 ^ (L - 1) * 2 := by
      rw [pow_split L (L - 1) 1 (by omega), pow_one]
    omega
  have hSlt : c2Stream (1 + 2 * x) L < 2 ^ (L + 2) := by
    show 1 + 2 * x + 3 * 2 ^ L < 2 ^ (L + 2)
    have h4 : (2 : Nat) ^ (L + 2) = 2 ^ L * 4 := by
      rw [pow_split (L + 2) L 2 (by omega)]
      norm_num
    omega
  have hdiv : c2Stream (1 + 2 * x) L >>> (8 * j) = 0 := by
    rw [Nat.shiftRight_eq_div_pow]
    apply Nat.div_eq_of_lt
    calc c2Stream (1 + 2 * x) L < 2 ^ (L + 2) := hSlt
      _ ≤ 2 ^ (8 * j) := Nat.pow_le_pow_right (by norm_num) hj
  rw [hdiv]
  norm_num


/-- The suffix of the round-trip byte list starting at byte `t`. -/
def c2Tail (w L t : Nat) : List Nat :=
  (List.range (c2NBytes L - t)).map fun j => (c2Stream w L >>> (8 * (t + j))) % 2 ^ 8

theorem c2Tail_zero (w L : Nat) : c2Tail w L 0 = c2Bytes w L := by
  unfold c2Tail c2Bytes
  rw [Nat.sub_zero]
  apply List.map_congr_left
  intro j _
  rw [Nat.zero_add]

theorem c2Tail_cons (w L t : Nat) (h : t < c2NBytes L) :
    c2Tail w L t = ((c2Stream w L >>> (8 * t)) % 2 ^ 8) :: c2Tail w L (t + 1) := by
  unfold c2Tail
  rw [show c2NBytes L - t = (c2NBytes L - (t + 1)) + 1 by omega,
    List.range_succ_eq_map, List.map_cons, List.map_map]
  congr 1
  apply List.map_congr_left
  intro j _
  show (c2Stream w L >>> (8 * (t + (j + 1)))) % 2 ^ 8 = _
  rw [show t + (j + 1) = t + 1 + j by omega]

theorem and1_iff : ∀ b < 2 ^ 8, (b &&& 1 = 1 ↔ b.testBit 0 = true) := by decide

theorem and128_iff : ∀ b < 2 ^ 8, (b &&& 128 = 0 ↔ b.testBit 7 = false) := by decide

theorem byte0_and128 : ∀ c < 2 ^ 7,
    ((1 + 2 * c) &&& 128 = 0 ↔ c.testBit 6 = false) := by decide

/-- Bit 0 of byte `t` of the stream is digit bit `8t - 1`, for any byte at or
before the terminator byte. -/
theorem c2_byteLow (x L t : Nat) (ht : 1 ≤ t) (htL : 8 * t + 1 ≤ L) :
    ((c2Stream (1 + 2 * x) L >>> (8 * t)) % 2 ^ 8) &&& 1 = 1 ↔
      x.testBit (8 * t - 1) = true := by
  rw [c2_shift x L t ht (by omega)]
  have he : (2 : Nat) ^ (L - 8 * t) = 2 * 2 ^ (L - 8 * t - 1) := by
    rw [pow_split (L - 8 * t) 1 (L - 8 * t - 1) (by omega), pow_one]
  have hand : ∀ a : Nat, a &&& 1 = a % 2 := fun a => Nat.and_one_is_mod a
  rw [hand]
  have hmod : (x >>> (8 * t - 1) + 3 * 2 ^ (L - 8 * t)) % 2 ^ 8 % 2 =
      x >>> (8 * t - 1) % 2 := by
    rw [Nat.mod_mod_of_dvd _ (by norm_num)]
    omega
  rw [hmod, Nat.testBit_to_div_mod, ← Nat.shiftRight_eq_div_pow]
  constructor
  · intro h
    rw [h]
    norm_num
  · intro h
    exact of_decide_eq_true h

/-- Bit 7 of byte `t - 1` of the stream is digit bit `8t - 2`. -/
theorem c2_byteTop (x L t : Nat) (ht : 1 ≤ t) (htL : 8 * t ≤ L) (hL : 8 ≤ L) :
    ((c2Stream (1 + 2 * x) L >>> (8 * (t - 1))) % 2 ^ 8) &&& 128 = 0 ↔
      x.testBit (8 * t - 2) = false := by
  rcases Nat.lt_or_ge t 2 with h2 | h2
  · have ht1 : t = 1 := by omega
    subst ht1
    rw [show 8 * (1 - 1) = 0 by norm_num, Nat.shiftRight_zero, c2_byte0 x L hL]
    have hc : x % 128 < 2 ^ 7 := by
      have : (2 : Nat) ^ 7 = 128 := by norm_num
      omega
    rw [byte0_and128 (x % 128) hc]
    have hb : (x % 128).testBit 6 = x.testBit 6 := by
      rw [show (128 : Nat) = 2 ^ 7 by norm_num, Nat.testBit_mod_two_pow]
      norm_num
    rw [hb]
  · have hd := c2_byte_digit x L (t - 1) (by omega) (by omega)
    rw [show 8 * (t - 1) - 1 = 8 * t - 9 by omega] at hd
    rw [hd, and128_iff _ (Nat.mod_lt _ (by norm_num)), window_testBit]
    rw [show 8 * t - 9 + 7 = 8 * t - 2 by omega]
    norm_num


/-- Processing the carried record of byte `t - 1` (a byte inside the digit
region): nothing is flushed as a value and the fragment buffer advances to
the fragments of bytes `0 .. t-1`. -/
theorem c2_prevPhase (x L t : Nat) (hL : 8 ≤ L) (hbit0 : x.testBit 0 = true)
    (hbit1 : x.testBit 1 = false) (hna : nonAdjAll x)
    (h1 : 1 ≤ t) (ht : 8 * t ≤ L) :
    fibdecNums 1 (fibTable1 ((c2Stream (1 + 2 * x) L >>> (8 * (t - 1))) % 2 ^ 8)).numbers
      (fibTable1 ((c2Stream (1 + 2 * x) L >>> (8 * (t - 1))) % 2 ^ 8)).shift
      (if 0 < (fibTable1 ((c2Stream (1 + 2 * x) L >>> (8 * (t - 1))) % 2 ^ 8)).shift
        then fbufF x (t - 1) ++
          [(fibTable1 ((c2Stream (1 + 2 * x) L >>> (8 * (t - 1))) % 2 ^ 8)).incomplete]
        else fbufF x (t - 1)) [] = Sum.inr (fbufF x t, []) := by
  rcases Nat.lt_or_ge t 2 with h2 | h2
  · have ht1 : t = 1 := by omega
    subst ht1
    have hb0 : (c2Stream (1 + 2 * x) L >>> (8 * (1 - 1))) % 2 ^ 8 = 1 + 2 * (x % 128) := by
      rw [show 8 * (1 - 1) = 0 by norm_num, Nat.shiftRight_zero]
      exact c2_byte0 x L hL
    rw [hb0]
    have h0 : x % 2 = 1 := by
      have hb := hbit0
      rw [Nat.testBit_to_div_mod] at hb
      have hb2 := of_decide_eq_true hb
      simpa using hb2
    have h1d : x / 2 % 2 = 0 := by
      have hb := hbit1
      rw [Nat.testBit_to_div_mod, decide_eq_false_iff_not] at hb
      simp only [pow_one] at hb
      omega
    have hx4 : x % 4 = 1 := by omega
    have hb0lt : 1 + 2 * (x % 128) < 2 ^ 8 := by
      have h256 : (2 : Nat) ^ 8 = 256 := by norm_num
      omega
    have hmod8 : (1 + 2 * (x % 128)) % 8 = 3 := by omega
    have hsh : (1 + 2 * (x % 128)) >>> 1 = x % 2 ^ 7 := by
      rw [Nat.shiftRight_eq_div_pow, pow_one]
      have h128 : (2 : Nat) ^ 7 = 128 := by norm_num
      omega
    have hnaw : nonAdjW ((1 + 2 * (x % 128)) >>> 1) 7 := by
      rw [hsh]
      exact nonAdjW_mod x 7 hna
    have hrec := table1_first (1 + 2 * (x % 128)) hb0lt hmod8 hnaw
    rw [hsh] at hrec
    rw [hrec]
    show fibdecNums 1 [wval (x % 2 ^ 7) 7 1] 0
      (if 0 < 0 then fbufF x 0 ++ [0] else fbufF x 0) [] = Sum.inr (fbufF x 1, [])
    rw [if_neg (lt_irrefl 0)]
    have hfb0 : fbufF x 0 = ([] : List Nat) := rfl
    have hfb1 : fbufF x 1 = [wval (x % 2 ^ 7) 7 1] := rfl
    rw [hfb0, hfb1]
    simp [fibdecNums, decodeBuffer]
  · have hd := c2_byte_digit x L (t - 1) (by omega) (by omega)
    rw [show 8 * (t - 1) - 1 = 8 * (t - 2) + 7 by omega] at hd
    rw [hd]
    have hlt : (x >>> (8 * (t - 2) + 7)) % 2 ^ 8 < 2 ^ 8 := Nat.mod_lt _ (by norm_num)
    have hrec := table1_digits _ hlt (nonAdjW_window x (8 * (t - 2) + 7) 8 hna)
    rw [hrec]
    show fibdecNums 1 [] 8
      (if 0 < 8 then fbufF x (t - 1) ++ [wval ((x >>> (8 * (t - 2) + 7)) % 2 ^ 8) 8 1]
       else fbufF x (t - 1)) [] = Sum.inr (fbufF x t, [])
    rw [if_pos (by norm_num)]
    have hch : chunk x (t - 1) = wval ((x >>> (8 * (t - 2) + 7)) % 2 ^ 8) 8 1 := by
      rw [show t - 1 = (t - 2) + 1 by omega]
      rfl
    rw [← hch, ← fbufF_succ, show t - 1 + 1 = t by omega]
    rfl


/-- One full-digit byte of the stream advances the decoder loop one byte
without emitting anything. -/
theorem c2_step (x L t : Nat) (hL : 8 ≤ L) (hx : x < 2 ^ (L - 1))
    (hbit0 : x.testBit 0 = true) (hbit1 : x.testBit 1 = false) (hna : nonAdjAll x)
    (h1 : 1 ≤ t) (ht : 8 * t + 8 ≤ L) :
    fibdecodeLoop 1 (c2Tail (1 + 2 * x) L t)
      ((c2Stream (1 + 2 * x) L >>> (8 * (t - 1))) % 2 ^ 8)
      (fibTable1 ((c2Stream (1 + 2 * x) L >>> (8 * (t - 1))) % 2 ^ 8))
      (fbufF x (t - 1)) [] =
    fibdecodeLoop 1 (c2Tail (1 + 2 * x) L (t + 1))
      ((c2Stream (1 + 2 * x) L >>> (8 * t)) % 2 ^ 8)
      (fibTable1 ((c2Stream (1 + 2 * x) L >>> (8 * t)) % 2 ^ 8))
      (fbufF x t) [] := by
  have hnb : t < c2NBytes L := by
    unfold c2NBytes
    omega
  rw [c2Tail_cons (1 + 2 * x) L t hnb]
  simp only [fibdecodeLoop]
  have hlow := c2_byteLow x L t h1 (by omega)
  have htopiff := c2_byteTop x L t h1 (by omega) hL
  have hbit78 : x.testBit (8 * t - 1) = true → x.testBit (8 * t - 2) = false := by
    intro hb1
    rcases Bool.eq_false_or_eq_true (x.testBit (8 * t - 2)) with hb | hb
    · exfalso
      refine hna (8 * t - 2) ⟨hb, ?_⟩
      rw [show 8 * t - 2 + 1 = 8 * t - 1 by omega]
      exact hb1
    · exact hb
  have hpr : (if ((c2Stream (1 + 2 * x) L >>> (8 * t)) % 2 ^ 8) &&& 1 = 1 ∧
      (fibTable1 ((c2Stream (1 + 2 * x) L >>> (8 * t)) % 2 ^ 8)).shift > 0
      then fibTable2 ((c2Stream (1 + 2 * x) L >>> (8 * (t - 1))) % 2 ^ 8)
      else fibTable1 ((c2Stream (1 + 2 * x) L >>> (8 * (t - 1))) % 2 ^ 8)) =
      fibTable1 ((c2Stream (1 + 2 * x) L >>> (8 * (t - 1))) % 2 ^ 8) := by
    by_cases hc1 : ((c2Stream (1 + 2 * x) L >>> (8 * t)) % 2 ^ 8) &&& 1 = 1
    · have htop : ((c2Stream (1 + 2 * x) L >>> (8 * (t - 1))) % 2 ^ 8) &&& 128 = 0 :=
        htopiff.2 (hbit78 (hlow.1 hc1))
      have hft2 : fibTable2 ((c2Stream (1 + 2 * x) L >>> (8 * (t - 1))) % 2 ^ 8) =
          fibTable1 ((c2Stream (1 + 2 * x) L >>> (8 * (t - 1))) % 2 ^ 8) := by
        unfold fibTable2
        rw [if_neg (fun hcon => hcon htop)]
      rw [hft2, ite_self]
    · rw [if_neg (fun hcon => hc1 hcon.1)]
  rw [hpr]
  have hnums := c2_prevPhase x L t hL hbit0 hbit1 hna h1 (by omega)
  simp only [hnums]
  have hnot : ¬((((c2Stream (1 + 2 * x) L >>> (8 * t)) % 2 ^ 8) &&& 1 = 1 ∧
      (fibTable1 ((c2Stream (1 + 2 * x) L >>> (8 * t)) % 2 ^ 8)).shift > 0) ∧
      ((c2Stream (1 + 2 * x) L >>> (8 * (t - 1))) % 2 ^ 8) &&& 0x80 ≠ 0) := by
    rintro ⟨⟨hc1, _⟩, hend⟩
    exact hend (htopiff.2 (hbit78 (hlow.1 hc1)))
  rw [if_neg hnot]


theorem nonAdjW_shift (x a n : Nat) (h : nonAdjAll x) : nonAdjW (x >>> a) n := by
  intro t _ _ hcon
  obtain ⟨h1, h2⟩ := hcon
  rw [Nat.testBit_shiftRight] at h1 h2
  refine h (a + t) ⟨h1, ?_⟩
  rw [show a + t + 1 = a + (t + 1) by omega]
  exact h2

theorem top_set : ∀ c < 128, (c + 128) &&& 128 = 128 := by decide

/-- Flushing the pending codeword at the start of a fragment run: a value of
at least 2 is emitted (minus 2) and, with `count = 1`, the decoder returns. -/
theorem fibdecNums_flush (sh v n0 : Nat) (nums : List Nat) (fb : List Nat)
    (hv : decodeBuffer fb (if sh = 0 then 8 else sh) = v) (h2 : 2 ≤ v) :
    fibdecNums 1 (n0 :: nums) sh fb [] = Sum.inl [v - 2] := by
  simp only [fibdecNums, hv]
  rw [if_pos (by omega : v > 1)]
  simp

/-- The full fragment buffer of a `q`-byte digit string reassembles to the
weighted value of all `8q - 1` digit bits. -/
theorem decodeBuffer_full (x : Nat) (hna : nonAdjAll x) (q : Nat) (h1 : 1 ≤ q) :
    decodeBuffer (fbufF x q) 8 = wval x (8 * q - 1) 1 := by
  rcases Nat.lt_or_ge q 2 with h2 | h2
  · have hq1 : q = 1 := by omega
    subst hq1
    show decodeBuffer [chunk x 0] 8 = wval x (8 * 1 - 1) 1
    show chunk x 0 = wval x (8 * 1 - 1) 1
    exact wval_mod x 7 1
  · have hq : q = q - 2 + 1 + 1 := by omega
    rw [hq, fbufF_succ,
      decodeBuffer_fbufF_append x hna (q - 2) (chunk x (q - 2 + 1)) 8 (by norm_num)]
    have hch : chunk x (q - 2 + 1) = wval ((x >>> (8 * (q - 2) + 7)) % 2 ^ 8) 8 1 := rfl
    rw [hch, wval_mod, wval_mod]
    have hsplit := wval_split x (8 * (q - 2) + 7) 8 1
    rw [show (1 : Nat) + 8 = 8 + 1 by norm_num] at hsplit
    rw [show 8 * (q - 2 + 1 + 1) - 1 = 8 * (q - 2) + 7 + 8 by omega, hsplit]

/-- Final iteration when the terminator is a whole byte `3`: the padding byte
flushes the complete codeword. -/
theorem loop_end_o0 (x q pIn : Nat) (rest : List Nat) (hna : nonAdjAll x)
    (h1 : 1 ≤ q) (hm : 2 ≤ wval x (8 * q - 1) 1) :
    fibdecodeLoop 1 (0 :: rest) pIn ⟨0, [fib 7], 0⟩ (fbufF x q) [] =
      [wval x (8 * q - 1) 1 - 2] := by
  have hdec : decodeBuffer (fbufF x q) (if (0 : Nat) = 0 then 8 else 0) =
      wval x (8 * q - 1) 1 := by
    rw [if_pos rfl]
    exact decodeBuffer_full x hna q h1
  have hfl := fibdecNums_flush 0 (wval x (8 * q - 1) 1) (fib 7) [] (fbufF x q) hdec hm
  simp only [fibdecodeLoop]
  rw [if_neg (by decide : ¬((0 : Nat) &&& 1 = 1 ∧ (fibTable1 0).shift > 0))]
  show (match fibdecNums 1 [fib 7] 0
      (if 0 < 0 then fbufF x q ++ [0] else fbufF x q) [] with
    | Sum.inl res => res
    | Sum.inr fr =>
      if ((0 : Nat) &&& 1 = 1 ∧ (fibTable1 0).shift > 0) ∧ pIn &&& 0x80 ≠ 0 then
        let dec := decodeBuffer fr.1 7
        if dec > 1 then
          let result2 := fr.2 ++ [dec - 2]
          if result2.length = 1 then result2
          else fibdecodeLoop 1 rest 0 (fibTable1 0) [] result2
        else fibdecodeLoop 1 rest 0 (fibTable1 0) [] fr.2
      else fibdecodeLoop 1 rest 0 (fibTable1 0) fr.1 fr.2) =
    [wval x (8 * q - 1) 1 - 2]
  rw [if_neg (lt_irrefl 0), hfl]


/-- Final iteration when the terminator sits at offset `1 ≤ o ≤ 6` of the
last codeword byte: the padding byte flushes the complete codeword. -/
theorem loop_end_o16 (x q o pIn : Nat) (rest : List Nat) (hna : nonAdjAll x)
    (h1 : 1 ≤ q) (ho1 : 1 ≤ o)
    (hm : 2 ≤ wval x (8 * q - 1 + o) 1) :
    fibdecodeLoop 1 (0 :: rest) pIn
      ⟨o, [fib (7 - o)], wval (x >>> (8 * q - 1)) o 1⟩ (fbufF x q) [] =
      [wval x (8 * q - 1 + o) 1 - 2] := by
  have hdec : decodeBuffer (fbufF x q ++ [wval (x >>> (8 * q - 1)) o 1])
      (if o = 0 then 8 else o) = wval x (8 * q - 1 + o) 1 := by
    rw [if_neg (by omega : ¬o = 0)]
    have hq : q = q - 1 + 1 := by omega
    rw [hq, decodeBuffer_fbufF_append x hna (q - 1) _ o ho1]
    rw [wval_mod]
    have hsplit := wval_split x (8 * q - 1) o 1
    rw [show (1 : Nat) + o = o + 1 by omega] at hsplit
    rw [show 8 * (q - 1) + 7 = 8 * q - 1 by omega,
      show 8 * (q - 1 + 1) - 1 = 8 * q - 1 by omega]
    exact hsplit.symm
  have hfl := fibdecNums_flush o (wval x (8 * q - 1 + o) 1) (fib (7 - o)) []
    (fbufF x q ++ [wval (x >>> (8 * q - 1)) o 1]) hdec hm
  simp only [fibdecodeLoop]
  rw [if_neg (by decide : ¬((0 : Nat) &&& 1 = 1 ∧ (fibTable1 0).shift > 0))]
  show (match fibdecNums 1 [fib (7 - o)] o
      (if 0 < o then fbufF x q ++ [wval (x >>> (8 * q - 1)) o 1] else fbufF x q) [] with
    | Sum.inl res => res
    | Sum.inr fr =>
      if ((0 : Nat) &&& 1 = 1 ∧ (fibTable1 0).shift > 0) ∧ pIn &&& 0x80 ≠ 0 then
        let dec := decodeBuffer fr.1 7
        if dec > 1 then
          let result2 := fr.2 ++ [dec - 2]
          if result2.length = 1 then result2
          else fibdecodeLoop 1 rest 0 (fibTable1 0) [] result2
        else fibdecodeLoop 1 rest 0 (fibTable1 0) [] fr.2
      else fibdecodeLoop 1 rest 0 (fibTable1 0) fr.1 fr.2) =
    [wval x (8 * q - 1 + o) 1 - 2]
  rw [if_pos (by omega : 0 < o), hfl]

/-- Final iterations when the terminator pair straddles the byte boundary
(`L % 8 = 7`): the decoder's `fibTable2` special case rereads the previous
byte without its top bit and flushes the codeword. -/
theorem loop_end_o7 (x q z : Nat) (r : fibRecord) (rest : List Nat)
    (hna : nonAdjAll x) (h1 : 1 ≤ q) (hz : z = x >>> (8 * q - 1)) (hzlt : z < 128)
    (hm : 2 ≤ wval x (8 * q + 6) 1) :
    fibdecodeLoop 1 (1 :: rest) (z + 128) r (fbufF x q) [] =
      [wval x (8 * q + 6) 1 - 2] := by
  have htab2 : fibTable2 (z + 128) = ⟨7, [], wval z 7 1⟩ := by
    apply table2_straddle z (by norm_num; omega)
    rw [hz]
    exact nonAdjW_shift x (8 * q - 1) 7 hna
  have hdec : decodeBuffer (fbufF x q ++ [wval z 7 1]) 7 = wval x (8 * q + 6) 1 := by
    have hq : q = q - 1 + 1 := by omega
    rw [hq, decodeBuffer_fbufF_append x hna (q - 1) _ 7 (by norm_num)]
    rw [wval_mod]
    have hsplit := wval_split x (8 * q - 1) 7 1
    rw [show (1 : Nat) + 7 = 7 + 1 by omega] at hsplit
    rw [show 8 * (q - 1) + 7 = 8 * q - 1 by omega, hz,
      show 8 * (q - 1 + 1) + 6 = 8 * q - 1 + 7 by omega]
    exact hsplit.symm
  have hcond1 : (1 : Nat) &&& 1 = 1 ∧ (fibTable1 1).shift > 0 := by decide
  have hend : (z + 128) &&& 0x80 ≠ 0 := by
    have := top_set z hzlt
    omega
  simp only [fibdecodeLoop]
  rw [if_pos hcond1, htab2]
  show (if ((1 : Nat) &&& 1 = 1 ∧ (fibTable1 1).shift > 0) ∧ (z + 128) &&& 0x80 ≠ 0 then
      if decodeBuffer (if 0 < 7 then fbufF x q ++ [wval z 7 1] else fbufF x q) 7 > 1 then
        if (([] : List Nat) ++
            [decodeBuffer (if 0 < 7 then fbufF x q ++ [wval z 7 1] else fbufF x q) 7 - 2]).length = 1 then
          ([] : List Nat) ++
            [decodeBuffer (if 0 < 7 then fbufF x q ++ [wval z 7 1] else fbufF x q) 7 - 2]
        else fibdecodeLoop 1 rest 1 (fibTable1 1) []
          (([] : List Nat) ++
            [decodeBuffer (if 0 < 7 then fbufF x q ++ [wval z 7 1] else fbufF x q) 7 - 2])
      else fibdecodeLoop 1 rest 1 (fibTable1 1) [] []
    else fibdecodeLoop 1 rest 1 (fibTable1 1)
      (if 0 < 7 then fbufF x q ++ [wval z 7 1] else fbufF x q) []) =
    [wval x (8 * q + 6) 1 - 2]
  rw [if_pos (by norm_num : (0 : Nat) < 7), hdec,
    if_pos (And.intro hcond1 hend), if_pos (by omega : wval x (8 * q + 6) 1 > 1)]
  simp


theorem nonAdjW_congr (a b n : Nat) (h : ∀ t < n, a.testBit t = b.testBit t)
    (hb : nonAdjW b n) : nonAdjW a n := by
  intro t ht ht1 hcon
  obtain ⟨h1, h2⟩ := hcon
  rw [h t ht] at h1
  rw [h (t + 1) ht1] at h2
  exact hb t ht ht1 ⟨h1, h2⟩

/-- From the state entering the terminator byte, case `L % 8 = 0`: the
decoder emits exactly the codeword value minus 2. -/
theorem c2_end0 (x L q : Nat) (hq1 : 1 ≤ q) (ho : L = 8 * q)
    (hx : x < 2 ^ (L - 1)) (hbit0 : x.testBit 0 = true) (hbit1 : x.testBit 1 = false)
    (hna : nonAdjAll x) (hm : 2 ≤ wval x (L - 1) 1) :
    fibdecodeLoop 1 (c2Tail (1 + 2 * x) L q)
      ((c2Stream (1 + 2 * x) L >>> (8 * (q - 1))) % 2 ^ 8)
      (fibTable1 ((c2Stream (1 + 2 * x) L >>> (8 * (q - 1))) % 2 ^ 8))
      (fbufF x (q - 1)) [] = [wval x (L - 1) 1 - 2] := by
  have hL : 8 ≤ L := by omega
  have hy0 : x >>> (8 * q - 1) = 0 := by
    rw [Nat.shiftRight_eq_div_pow]
    apply Nat.div_eq_of_lt
    rw [show 8 * q - 1 = L - 1 by omega]
    exact hx
  have hbq : (c2Stream (1 + 2 * x) L >>> (8 * q)) % 2 ^ 8 = 3 := by
    rw [c2_byte_term_low x L q hq1 (by omega) (by omega) hx, hy0,
      show L - 8 * q = 0 by omega]
    norm_num
  rw [c2Tail_cons (1 + 2 * x) L q (by unfold c2NBytes; omega), hbq]
  simp only [fibdecodeLoop]
  rw [if_neg (by decide : ¬((3 : Nat) &&& 1 = 1 ∧ (fibTable1 3).shift > 0))]
  have hnums := c2_prevPhase x L q hL hbit0 hbit1 hna hq1 (by omega)
  simp only [hnums]
  rw [if_neg (fun hcon =>
    absurd hcon.1 (by decide : ¬((3 : Nat) &&& 1 = 1 ∧ (fibTable1 3).shift > 0)))]
  have ht3 : fibTable1 3 = ⟨0, [fib 7], 0⟩ := by decide
  rw [ht3]
  have hpad : (c2Stream (1 + 2 * x) L >>> (8 * (q + 1))) % 2 ^ 8 = 0 :=
    c2_byte_pad x L (q + 1) (by omega) (by omega) hx
  rw [c2Tail_cons (1 + 2 * x) L (q + 1) (by unfold c2NBytes; omega), hpad,
    show L - 1 = 8 * q - 1 by omega]
  exact loop_end_o0 x q 3 (c2Tail (1 + 2 * x) L (q + 1 + 1)) hna hq1
    (by rw [show 8 * q - 1 = L - 1 by omega]; exact hm)

/-- From the state entering the terminator byte, case `1 ≤ L % 8 ≤ 6`. -/
theorem c2_end16 (x L q : Nat) (hq1 : 1 ≤ q) (ho1 : 8 * q + 1 ≤ L)
    (ho6 : L ≤ 8 * q + 6)
    (hx : x < 2 ^ (L - 1)) (hbit0 : x.testBit 0 = true) (hbit1 : x.testBit 1 = false)
    (hna : nonAdjAll x) (hm : 2 ≤ wval x (L - 1) 1) :
    fibdecodeLoop 1 (c2Tail (1 + 2 * x) L q)
      ((c2Stream (1 + 2 * x) L >>> (8 * (q - 1))) % 2 ^ 8)
      (fibTable1 ((c2Stream (1 + 2 * x) L >>> (8 * (q - 1))) % 2 ^ 8))
      (fbufF x (q - 1)) [] = [wval x (L - 1) 1 - 2] := by
  have hL : 8 ≤ L := by omega
  have hbq := c2_byte_term_low x L q hq1 (by omega) (by omega) hx
  have hylt : x >>> (8 * q - 1) < 2 ^ (L - 8 * q) := by
    apply shiftRight_lt_pow
    rw [show 8 * q - 1 + (L - 8 * q) = L - 1 by omega]
    exact hx
  have hrec : fibTable1 (x >>> (8 * q - 1) + 3 * 2 ^ (L - 8 * q)) =
      ⟨L - 8 * q, [fib (7 - (L - 8 * q))], wval (x >>> (8 * q - 1)) (L - 8 * q) 1⟩ := by
    have hblt : x >>> (8 * q - 1) + 3 * 2 ^ (L - 8 * q) < 2 ^ 8 := by
      have hp : (2 : Nat) ^ (L - 8 * q) ≤ 2 ^ 6 := Nat.pow_le_pow_right (by norm_num) (by omega)
      have h256 : (2 : Nat) ^ 8 = 256 := by norm_num
      have h64 : (2 : Nat) ^ 6 = 64 := by norm_num
      omega
    have hsh3 : (x >>> (8 * q - 1) + 3 * 2 ^ (L - 8 * q)) >>> (L - 8 * q) = 3 := by
      rw [Nat.shiftRight_eq_div_pow,
        Nat.add_mul_div_right _ _ (Nat.pos_pow_of_pos _ (by norm_num)),
        Nat.div_eq_of_lt hylt]
    have hmodb : (x >>> (8 * q - 1) + 3 * 2 ^ (L - 8 * q)) % 2 ^ (L - 8 * q) =
        x >>> (8 * q - 1) := by
      rw [Nat.add_mul_mod_self_right, Nat.mod_eq_of_lt hylt]
    have hnab : nonAdjW (x >>> (8 * q - 1) + 3 * 2 ^ (L - 8 * q)) (L - 8 * q) := by
      apply nonAdjW_congr _ (x >>> (8 * q - 1)) _ ?_
        (nonAdjW_shift x (8 * q - 1) (L - 8 * q) hna)
      intro t ht
      have h1 : ((x >>> (8 * q - 1) + 3 * 2 ^ (L - 8 * q)) % 2 ^ (L - 8 * q)).testBit t =
          (x >>> (8 * q - 1) + 3 * 2 ^ (L - 8 * q)).testBit t := by
        rw [Nat.testBit_mod_two_pow, decide_eq_true ht, Bool.true_and]
      rw [← h1, hmodb]
    have h := table1_term (x >>> (8 * q - 1) + 3 * 2 ^ (L - 8 * q)) hblt
      (L - 8 * q) (by omega) (by omega) hsh3 hnab
    rw [h, hmodb]
  rw [c2Tail_cons (1 + 2 * x) L q (by unfold c2NBytes; omega), hbq]
  simp only [fibdecodeLoop]
  have hlow := c2_byteLow x L q hq1 (by omega)
  rw [hbq] at hlow
  have htopiff := c2_byteTop x L q hq1 (by omega) hL
  have hbit78 : x.testBit (8 * q - 1) = true → x.testBit (8 * q - 2) = false := by
    intro hb1
    rcases Bool.eq_false_or_eq_true (x.testBit (8 * q - 2)) with hb | hb
    · exfalso
      refine hna (8 * q - 2) ⟨hb, ?_⟩
      rw [show 8 * q - 2 + 1 = 8 * q - 1 by omega]
      exact hb1
    · exact hb
  have hpr : (if (x >>> (8 * q - 1) + 3 * 2 ^ (L - 8 * q)) &&& 1 = 1 ∧
      (fibTable1 (x >>> (8 * q - 1) + 3 * 2 ^ (L - 8 * q))).shift > 0
      then fibTable2 ((c2Stream (1 + 2 * x) L >>> (8 * (q - 1))) % 2 ^ 8)
      else fibTable1 ((c2Stream (1 + 2 * x) L >>> (8 * (q - 1))) % 2 ^ 8)) =
      fibTable1 ((c2Stream (1 + 2 * x) L >>> (8 * (q - 1))) % 2 ^ 8) := by
    by_cases hc1 : (x >>> (8 * q - 1) + 3 * 2 ^ (L - 8 * q)) &&& 1 = 1
    · have htop : ((c2Stream (1 + 2 * x) L >>> (8 * (q - 1))) % 2 ^ 8) &&& 128 = 0 :=
        htopiff.2 (hbit78 (hlow.1 hc1))
      have hft2 : fibTable2 ((c2Stream (1 + 2 * x) L >>> (8 * (q - 1))) % 2 ^ 8) =
          fibTable1 ((c2Stream (1 + 2 * x) L >>> (8 * (q - 1))) % 2 ^ 8) := by
        unfold fibTable2
        rw [if_neg (fun hcon => hcon htop)]
      rw [hft2, ite_self]
    · rw [if_neg (fun hcon => hc1 hcon.1)]
  rw [hpr]
  have hnums := c2_prevPhase x L q hL hbit0 hbit1 hna hq1 (by omega)
  simp only [hnums]
  have hnot : ¬(((x >>> (8 * q - 1) + 3 * 2 ^ (L - 8 * q)) &&& 1 = 1 ∧
      (fibTable1 (x >>> (8 * q - 1) + 3 * 2 ^ (L - 8 * q))).shift > 0) ∧
      ((c2Stream (1 + 2 * x) L >>> (8 * (q - 1))) % 2 ^ 8) &&& 0x80 ≠ 0) := by
    rintro ⟨⟨hc1, _⟩, hend⟩
    exact hend (htopiff.2 (hbit78 (hlow.1 hc1)))
  rw [if_neg hnot, hrec]
  have hpad : (c2Stream (1 + 2 * x) L >>> (8 * (q + 1))) % 2 ^ 8 = 0 :=
    c2_byte_pad x L (q + 1) (by omega) (by omega) hx
  rw [c2Tail_cons (1 + 2 * x) L (q + 1) (by unfold c2NBytes; omega), hpad,
    show L - 1 = 8 * q - 1 + (L - 8 * q) by omega]
  exact loop_end_o16 x q (L - 8 * q) (x >>> (8 * q - 1) + 3 * 2 ^ (L - 8 * q))
    (c2Tail (1 + 2 * x) L (q + 1 + 1)) hna hq1 (by omega)
    (by rw [show 8 * q - 1 + (L - 8 * q) = L - 1 by omega]; exact hm)

/-- From the state entering the last digit byte, case `L % 8 = 7`: the
straddling terminator is handled by the decoder special case. -/
theorem c2_end7 (x L q : Nat) (hq1 : 1 ≤ q) (ho : L = 8 * q + 7)
    (hx : x < 2 ^ (L - 1)) (hbit0 : x.testBit 0 = true) (hbit1 : x.testBit 1 = false)
    (hna : nonAdjAll x) (hm : 2 ≤ wval x (L - 1) 1) :
    fibdecodeLoop 1 (c2Tail (1 + 2 * x) L q)
      ((c2Stream (1 + 2 * x) L >>> (8 * (q - 1))) % 2 ^ 8)
      (fibTable1 ((c2Stream (1 + 2 * x) L >>> (8 * (q - 1))) % 2 ^ 8))
      (fbufF x (q - 1)) [] = [wval x (L - 1) 1 - 2] := by
  have hL : 8 ≤ L := by omega
  have hbq := c2_byte_term7 x L q hq1 ho hx
  have hzlt : x >>> (8 * q - 1) < 128 := by
    have h := shiftRight_lt_pow x (8 * q - 1) 7 (by rw [show 8 * q - 1 + 7 = L - 1 by omega]; exact hx)
    have h128 : (2 : Nat) ^ 7 = 128 := by norm_num
    omega
  rw [c2Tail_cons (1 + 2 * x) L q (by unfold c2NBytes; omega), hbq]
  simp only [fibdecodeLoop]
  have hlow := c2_byteLow x L q hq1 (by omega)
  rw [hbq] at hlow
  have htopiff := c2_byteTop x L q hq1 (by omega) hL
  have hbit78 : x.testBit (8 * q - 1) = true → x.testBit (8 * q - 2) = false := by
    intro hb1
    rcases Bool.eq_false_or_eq_true (x.testBit (8 * q - 2)) with hb | hb
    · exfalso
      refine hna (8 * q - 2) ⟨hb, ?_⟩
      rw [show 8 * q - 2 + 1 = 8 * q - 1 by omega]
      exact hb1
    · exact hb
  have hpr : (if (x >>> (8 * q - 1) + 128) &&& 1 = 1 ∧
      (fibTable1 (x >>> (8 * q - 1) + 128)).shift > 0
      then fibTable2 ((c2Stream (1 + 2 * x) L >>> (8 * (q - 1))) % 2 ^ 8)
      else fibTable1 ((c2Stream (1 + 2 * x) L >>> (8 * (q - 1))) % 2 ^ 8)) =
      fibTable1 ((c2Stream (1 + 2 * x) L >>> (8 * (q - 1))) % 2 ^ 8) := by
    by_cases hc1 : (x >>> (8 * q - 1) + 128) &&& 1 = 1
    · have htop : ((c2Stream (1 + 2 * x) L >>> (8 * (q - 1))) % 2 ^ 8) &&& 128 = 0 :=
        htopiff.2 (hbit78 (hlow.1 hc1))
      have hft2 : fibTable2 ((c2Stream (1 + 2 * x) L >>> (8 * (q - 1))) % 2 ^ 8) =
          fibTable1 ((c2Stream (1 + 2 * x) L >>> (8 * (q - 1))) % 2 ^ 8) := by
        unfold fibTable2
        rw [if_neg (fun hcon => hcon htop)]
      rw [hft2, ite_self]
    · rw [if_neg (fun hcon => hc1 hcon.1)]
  rw [hpr]
  have hnums := c2_prevPhase x L q hL hbit0 hbit1 hna hq1 (by omega)
  simp only [hnums]
  have hnot : ¬(((x >>> (8 * q - 1) + 128) &&& 1 = 1 ∧
      (fibTable1 (x >>> (8 * q - 1) + 128)).shift > 0) ∧
      ((c2Stream (1 + 2 * x) L >>> (8 * (q - 1))) % 2 ^ 8) &&& 0x80 ≠ 0) := by
    rintro ⟨⟨hc1, _⟩, hend⟩
    exact hend (htopiff.2 (hbit78 (hlow.1 hc1)))
  rw [if_neg hnot]
  have hb1 : (c2Stream (1 + 2 * x) L >>> (8 * (q + 1))) % 2 ^ 8 = 1 :=
    c2_byte_after7 x L q ho hx
  rw [c2Tail_cons (1 + 2 * x) L (q + 1) (by unfold c2NBytes; omega), hb1,
    show L - 1 = 8 * q + 6 by omega]
  exact loop_end_o7 x q (x >>> (8 * q - 1))
    (fibTable1 (x >>> (8 * q - 1) + 128)) (c2Tail (1 + 2 * x) L (q + 1 + 1))
    hna hq1 rfl hzlt
    (by rw [show 8 * q + 6 = L - 1 by omega]; exact hm)


/-- The decoder loop from the state entering byte `t` of the stream,
`1 ≤ t ≤ L / 8`, returns the codeword value minus 2. -/
theorem c2_loop (x L : Nat) (hL : 8 ≤ L) (hx : x < 2 ^ (L - 1))
    (hbit0 : x.testBit 0 = true) (hbit1 : x.testBit 1 = false) (hna : nonAdjAll x)
    (hm : 2 ≤ wval x (L - 1) 1) :
    ∀ d t, 1 ≤ t → t + d = L / 8 →
      fibdecodeLoop 1 (c2Tail (1 + 2 * x) L t)
        ((c2Stream (1 + 2 * x) L >>> (8 * (t - 1))) % 2 ^ 8)
        (fibTable1 ((c2Stream (1 + 2 * x) L >>> (8 * (t - 1))) % 2 ^ 8))
        (fbufF x (t - 1)) [] = [wval x (L - 1) 1 - 2] := by
  intro d
  induction d with
  | zero =>
    intro t h1 ht
    rcases Nat.lt_or_ge (L % 8) 1 with h0 | h01
    · exact c2_end0 x L t h1 (by omega) hx hbit0 hbit1 hna hm
    · rcases Nat.lt_or_ge (L % 8) 7 with h6 | h7
      · exact c2_end16 x L t h1 (by omega) (by omega) hx hbit0 hbit1 hna hm
      · exact c2_end7 x L t h1 (by omega) hx hbit0 hbit1 hna hm
  | succ d ih =>
    intro t h1 ht
    rw [c2_step x L t hL hx hbit0 hbit1 hna h1 (by omega)]
    have hnext := ih (t + 1) (by omega) (by omega)
    rw [show t + 1 - 1 = t by omega] at hnext
    exact hnext

/-- The encodable values whose codeword is at most 7 bits, checked
exhaustively. -/
theorem c2_small : ∀ m < 19, fibdecode (c2Input m) 1 = [m] := by decide

theorem fib_seven : fib 7 = 21 := by decide

/-- C2: for every unsigned `m` in the encodable range, decoding the byte
stream made of the codeword of `m + 2`, the `0b11` terminator and zero
padding, with `count = 1`, yields exactly `[m]`. -/
theorem c2_encode_decode (m : Nat) (hm : m ≤ MaxValue) :
    fibdecode (c2Input m) 1 = [m] := by
  rcases Nat.lt_or_ge m 19 with hsmall | hbig
  · exact c2_small m hsmall
  · have h2 : 2 ≤ m + 2 := by omega
    have hlt : m + 2 < fib 63 :=
      lt_of_le_of_lt (by omega : m + 2 ≤ MaxValue + 2) MaxValue_add_two_lt
    have hshape := fencode_shape (m + 2) h2 hlt
    have hval := fencode_val (m + 2) h2 hlt
    have hL : 8 ≤ (fencode (m + 2)).2 := by
      by_contra hcon
      push_neg at hcon
      obtain ⟨P, hfe, hP1, hP63, hmP, hq⟩ := fencode_unfold (m + 2) hlt
      have hP2 : (fencode (m + 2)).2 = P := by rw [hfe]
      have hmono : fib P ≤ fib 7 := fib_mono (by omega)
      rw [fib_seven] at hmono
      omega
    have hw2 : (fencode (m + 2)).1 % 2 = 1 := by
      have hb := hshape.bit0
      rw [Nat.testBit_to_div_mod] at hb
      have hb2 := of_decide_eq_true hb
      simpa using hb2
    have hwsplit : (fencode (m + 2)).1 =
        1 + 2 * ((fencode (m + 2)).1 >>> 1) := by
      rw [Nat.shiftRight_eq_div_pow, pow_one]
      omega
    have hx : (fencode (m + 2)).1 >>> 1 < 2 ^ ((fencode (m + 2)).2 - 1) := by
      apply shiftRight_lt_pow
      rw [show 1 + ((fencode (m + 2)).2 - 1) = (fencode (m + 2)).2 by omega]
      exact hshape.lt
    have hbit0x : ((fencode (m + 2)).1 >>> 1).testBit 0 = true := by
      rw [Nat.testBit_shiftRight]
      exact hshape.bit1
    have hbit1x : ((fencode (m + 2)).1 >>> 1).testBit 1 = false := by
      rw [Nat.testBit_shiftRight]
      exact hshape.bit2
    have hnax : nonAdjAll ((fencode (m + 2)).1 >>> 1) := by
      intro t hcon
      obtain ⟨ha, hb⟩ := hcon
      rw [Nat.testBit_shiftRight] at ha hb
      refine hshape.noAdj (1 + t) (by omega) ⟨ha, ?_⟩
      rw [show 1 + t + 1 = 1 + (t + 1) by omega]
      exact hb
    have hm2 : 2 ≤ wval ((fencode (m + 2)).1 >>> 1) ((fencode (m + 2)).2 - 1) 1 := by
      rw [hval]
      omega
    have hloop := c2_loop ((fencode (m + 2)).1 >>> 1) (fencode (m + 2)).2
      hL hx hbit0x hbit1x hnax hm2 ((fencode (m + 2)).2 / 8 - 1) 1 (le_refl 1)
      (by omega)
    rw [hval, show m + 2 - 2 = m by omega] at hloop
    show fibdecode (c2Bytes (fencode (m + 2)).1 (fencode (m + 2)).2) 1 = [m]
    rw [hwsplit, ← c2Tail_zero,
      c2Tail_cons (1 + 2 * ((fencode (m + 2)).1 >>> 1)) (fencode (m + 2)).2 0
        (by unfold c2NBytes; omega)]
    show fibdecodeLoop 1
      (c2Tail (1 + 2 * ((fencode (m + 2)).1 >>> 1)) (fencode (m + 2)).2 1)
      ((c2Stream (1 + 2 * ((fencode (m + 2)).1 >>> 1)) (fencode (m + 2)).2 >>> (8 * 0)) % 2 ^ 8)
      (fibTable1 ((c2Stream (1 + 2 * ((fencode (m + 2)).1 >>> 1)) (fencode (m + 2)).2 >>> (8 * 0)) % 2 ^ 8))
      [] [] = [m]
    exact hloop

theorem c2_encode_decode_witness :
    600 ≤ MaxValue ∧ fibdecode (c2Input 600) 1 = [600] :=
  ⟨by decide, c2_encode_decode 600 (by decide)⟩


/-! ## Byte-table lemmas for decoding at arbitrary offsets (claim C1) -/

/-- Head byte of a decode window: cleared bits below `op`, the codeword start
`110` at `op`, digit bits above. -/
theorem table1_head : ∀ b < 256, ∀ op < 7, b % 2 ^ (op + 3) = 3 * 2 ^ op →
    nonAdjW (b >>> (op + 1)) (7 - op) →
    fibTable1 b = ⟨op, [wval (b >>> (op + 1)) (7 - op) 1], 0⟩ := by decide

/-- Hypotheses for a flush byte on the normal path: digits below the closing
pair at `o, o+1`, any continuation above that either starts with a zero bit
or with the `11 0` of a pad-plus-codeword head. -/
def flushHyp (b o : Nat) : Prop :=
  nonAdjW b o ∧ b.testBit o = true ∧ b.testBit (o + 1) = true ∧
    ((o + 2 ≤ 7 → b.testBit (o + 2) = false) ∨
      (o ≤ 4 ∧ b.testBit (o + 2) = true ∧ (o + 3 ≤ 7 → b.testBit (o + 3) = true) ∧
        (o + 4 ≤ 7 → b.testBit (o + 4) = false)))

instance (b o : Nat) : Decidable (flushHyp b o) := by
  unfold flushHyp
  infer_instance

/-- Hypotheses for a flush byte on the reread path (`fibTable2` with the top
bit set). -/
def flushHyp2 (b o : Nat) : Prop :=
  b.testBit 7 = true ∧ nonAdjW b o ∧ b.testBit o = true ∧ b.testBit (o + 1) = true ∧
    ((o + 2 ≤ 6 → b.testBit (o + 2) = false) ∨ o = 5 ∨
      (o ≤ 3 ∧ b.testBit (o + 2) = true ∧ b.testBit (o + 3) = true ∧
        (o + 4 ≤ 6 → b.testBit (o + 4) = false)))

instance (b o : Nat) : Decidable (flushHyp2 b o) := by
  unfold flushHyp2
  infer_instance

/-- Hypotheses for a merged byte: cleared bits below `op`, codeword start at
`op`, digits, closing pair at `om`, continuation above. -/
def mergedHyp (b op om : Nat) : Prop :=
  op + 3 ≤ om ∧ b % 2 ^ op = 0 ∧ b.testBit op = true ∧ b.testBit (op + 1) = true ∧
    b.testBit (op + 2) = false ∧ nonAdjW (b >>> (op + 1)) (om - op - 1) ∧
    b.testBit om = true ∧ b.testBit (om + 1) = true ∧
    ((om + 2 ≤ 7 → b.testBit (om + 2) = false) ∨
      (om ≤ 4 ∧ b.testBit (om + 2) = true ∧ (om + 3 ≤ 7 → b.testBit (om + 3) = true) ∧
        (om + 4 ≤ 7 → b.testBit (om + 4) = false)))

instance (b op om : Nat) : Decidable (mergedHyp b op om) := by
  unfold mergedHyp
  infer_instance

/-- Hypotheses for a merged byte whose closing pair straddles into the next
byte. -/
def merged7Hyp (b op : Nat) : Prop :=
  b % 2 ^ op = 0 ∧ b.testBit op = true ∧ b.testBit (op + 1) = true ∧
    b.testBit (op + 2) = false ∧ nonAdjW (b >>> (op + 1)) (6 - op) ∧
    b.testBit 7 = true

instance (b op : Nat) : Decidable (merged7Hyp b op) := by
  unfold merged7Hyp
  infer_instance

/-- Flush byte, normal path. -/
theorem table1_flush : ∀ b < 256, ∀ o < 7, flushHyp b o →
    (fibTable1 b).shift = o ∧ (fibTable1 b).incomplete = wval (b % 2 ^ o) o 1 ∧
      (fibTable1 b).numbers ≠ [] := by decide

/-- Flush byte, reread path: the dropped top bit does not disturb the pair
or the digits below it. -/
theorem table2_flush : ∀ b < 256, ∀ o < 6, flushHyp2 b o →
    (fibTable2 b).shift = o ∧ (fibTable2 b).incomplete = wval (b % 2 ^ o) o 1 ∧
      (fibTable2 b).numbers ≠ [] := by decide

theorem table1_shift0 : ∀ b < 256, b % 8 = 3 → (fibTable1 b).shift = 0 := by decide

/-- A byte starting `1 0` continues a code into the next byte: positive
shift. -/
theorem table1_shiftpos1 : ∀ b < 256, b % 4 = 1 → 0 < (fibTable1 b).shift := by
  decide

/-- A byte starting `1 1 1 0` (second half of a straddling pair, then a pad
head): positive shift. -/
theorem table1_shiftpos7 : ∀ b < 256, b % 16 = 7 → 0 < (fibTable1 b).shift := by
  decide

/-- A byte of nonadjacent digit bits with a free top bit: positive shift. -/
theorem table1_shiftpos_digits : ∀ b < 256, nonAdjW b 7 →
    0 < (fibTable1 b).shift := by decide

/-- Conclusion of the merged-byte analysis, as a decidable package. -/
def mergedConc (b op om : Nat) : Prop :=
  (fibTable1 b).shift = op ∧ (fibTable1 b).incomplete = 0 ∧
    2 ≤ (fibTable1 b).numbers.length ∧
    (fibTable1 b).numbers.headD 0 =
      wval ((b >>> (op + 1)) % 2 ^ (om - op - 1)) (om - op - 1) 1

instance (b op om : Nat) : Decidable (mergedConc b op om) := by
  unfold mergedConc
  infer_instance

/-- Merged byte: the whole codeword value is the first complete number. -/
theorem table1_merged : ∀ b < 256, ∀ op < 5, ∀ om < 7, mergedHyp b op om →
    mergedConc b op om := by decide

/-- Merged byte with the closing pair straddling into the next byte, reread
without its top bit: the codeword digits are the one complete number. -/
theorem table2_merged7 : ∀ b < 256, ∀ op < 5, merged7Hyp b op →
    fibTable2 b = ⟨op, [wval ((b >>> (op + 1)) % 2 ^ (6 - op)) (6 - op) 1], 0⟩ := by
  decide


/-- A fragment run whose flush value is a pad or sentinel (at most 1) is
discarded and the run continues with the fragment. -/
theorem fibdecNums_discard (sh v n0 : Nat) (nums fb : List Nat)
    (hv : decodeBuffer fb (if sh = 0 then 8 else sh) = v) (hv1 : v ≤ 1) :
    fibdecNums 1 (n0 :: nums) sh fb [] = fibdecNums 1 nums 0 [n0] [] := by
  simp only [fibdecNums, hv]
  rw [if_neg (by omega : ¬v > 1)]

/-- Generic flush iteration, positive carried shift: the byte after the
closing pair flushes the pending codeword and the decoder returns. -/
theorem loop_flush_pos (bq bq1 o inc M n0 : Nat) (ns fb rest : List Nat)
    (hrec : (if bq1 &&& 1 = 1 ∧ (fibTable1 bq1).shift > 0 then fibTable2 bq
      else fibTable1 bq) = ⟨o, n0 :: ns, inc⟩)
    (ho : 1 ≤ o)
    (hdec : decodeBuffer (fb ++ [inc]) o = M)
    (hM : 2 ≤ M) :
    fibdecodeLoop 1 (bq1 :: rest) bq (fibTable1 bq) fb [] = [M - 2] := by
  have hfl := fibdecNums_flush o M n0 ns (fb ++ [inc])
    (by rw [if_neg (by omega : ¬o = 0)]; exact hdec) hM
  simp only [fibdecodeLoop]
  rw [hrec]
  show (match fibdecNums 1 (n0 :: ns) o (if 0 < o then fb ++ [inc] else fb) [] with
    | Sum.inl res => res
    | Sum.inr fr =>
      if (bq1 &&& 1 = 1 ∧ (fibTable1 bq1).shift > 0) ∧ bq &&& 0x80 ≠ 0 then
        let dec := decodeBuffer fr.1 7
        if dec > 1 then
          let result2 := fr.2 ++ [dec - 2]
          if result2.length = 1 then result2
          else fibdecodeLoop 1 rest bq1 (fibTable1 bq1) [] result2
        else fibdecodeLoop 1 rest bq1 (fibTable1 bq1) [] fr.2
      else fibdecodeLoop 1 rest bq1 (fibTable1 bq1) fr.1 fr.2) = [M - 2]
  rw [if_pos (by omega : 0 < o), hfl]

/-- Generic flush iteration, zero carried shift (the codeword ended exactly
at the byte boundary). -/
theorem loop_flush_zero (bq bq1 inc M n0 : Nat) (ns fb rest : List Nat)
    (hrec : (if bq1 &&& 1 = 1 ∧ (fibTable1 bq1).shift > 0 then fibTable2 bq
      else fibTable1 bq) = ⟨0, n0 :: ns, inc⟩)
    (hdec : decodeBuffer fb 8 = M)
    (hM : 2 ≤ M) :
    fibdecodeLoop 1 (bq1 :: rest) bq (fibTable1 bq) fb [] = [M - 2] := by
  have hfl := fibdecNums_flush 0 M n0 ns fb (by rw [if_pos rfl]; exact hdec) hM
  simp only [fibdecodeLoop]
  rw [hrec]
  show (match fibdecNums 1 (n0 :: ns) 0 (if 0 < 0 then fb ++ [inc] else fb) [] with
    | Sum.inl res => res
    | Sum.inr fr =>
      if (bq1 &&& 1 = 1 ∧ (fibTable1 bq1).shift > 0) ∧ bq &&& 0x80 ≠ 0 then
        let dec := decodeBuffer fr.1 7
        if dec > 1 then
          let result2 := fr.2 ++ [dec - 2]
          if result2.length = 1 then result2
          else fibdecodeLoop 1 rest bq1 (fibTable1 bq1) [] result2
        else fibdecodeLoop 1 rest bq1 (fibTable1 bq1) [] fr.2
      else fibdecodeLoop 1 rest bq1 (fibTable1 bq1) fr.1 fr.2) = [M - 2]
  rw [if_neg (lt_irrefl 0), hfl]

/-- Flush through the straddling-pair special case: the carried record has no
complete number, and the boundary reread flushes the codeword. -/
theorem loop_flush_straddle (bq bq1 sh inc M : Nat) (fb rest : List Nat)
    (hrec : (if bq1 &&& 1 = 1 ∧ (fibTable1 bq1).shift > 0 then fibTable2 bq
      else fibTable1 bq) = ⟨sh, [], inc⟩)
    (hsh : 1 ≤ sh)
    (hcond : (bq1 &&& 1 = 1 ∧ (fibTable1 bq1).shift > 0) ∧ bq &&& 0x80 ≠ 0)
    (hdec : decodeBuffer (fb ++ [inc]) 7 = M)
    (hM : 2 ≤ M) :
    fibdecodeLoop 1 (bq1 :: rest) bq (fibTable1 bq) fb [] = [M - 2] := by
  simp only [fibdecodeLoop]
  rw [hrec]
  show (match fibdecNums 1 ([] : List Nat) sh (if 0 < sh then fb ++ [inc] else fb) [] with
    | Sum.inl res => res
    | Sum.inr fr =>
      if (bq1 &&& 1 = 1 ∧ (fibTable1 bq1).shift > 0) ∧ bq &&& 0x80 ≠ 0 then
        let dec := decodeBuffer fr.1 7
        if dec > 1 then
          let result2 := fr.2 ++ [dec - 2]
          if result2.length = 1 then result2
          else fibdecodeLoop 1 rest bq1 (fibTable1 bq1) [] result2
        else fibdecodeLoop 1 rest bq1 (fibTable1 bq1) [] fr.2
      else fibdecodeLoop 1 rest bq1 (fibTable1 bq1) fr.1 fr.2) = [M - 2]
  rw [if_pos (by omega : 0 < sh)]
  show (if (bq1 &&& 1 = 1 ∧ (fibTable1 bq1).shift > 0) ∧ bq &&& 0x80 ≠ 0 then
      if decodeBuffer (fb ++ [inc]) 7 > 1 then
        if (([] : List Nat) ++ [decodeBuffer (fb ++ [inc]) 7 - 2]).length = 1 then
          ([] : List Nat) ++ [decodeBuffer (fb ++ [inc]) 7 - 2]
        else fibdecodeLoop 1 rest bq1 (fibTable1 bq1) []
          (([] : List Nat) ++ [decodeBuffer (fb ++ [inc]) 7 - 2])
      else fibdecodeLoop 1 rest bq1 (fibTable1 bq1) [] []
    else fibdecodeLoop 1 rest bq1 (fibTable1 bq1) (fb ++ [inc]) []) = [M - 2]
  rw [hdec, if_pos hcond, if_pos (by omega : M > 1)]
  simp

/-- The straddling special case with a pad or sentinel flush value: the
buffer is reset and the loop continues. -/
theorem loop_straddle_discard (b0 b1 sh inc : Nat) (fb rest : List Nat)
    (hrec : (if b1 &&& 1 = 1 ∧ (fibTable1 b1).shift > 0 then fibTable2 b0
      else fibTable1 b0) = ⟨sh, [], inc⟩)
    (hsh : 1 ≤ sh)
    (hcond : (b1 &&& 1 = 1 ∧ (fibTable1 b1).shift > 0) ∧ b0 &&& 0x80 ≠ 0)
    (hdec : decodeBuffer (fb ++ [inc]) 7 ≤ 1) :
    fibdecodeLoop 1 (b1 :: rest) b0 (fibTable1 b0) fb [] =
      fibdecodeLoop 1 rest b1 (fibTable1 b1) [] [] := by
  simp only [fibdecodeLoop]
  rw [hrec]
  show (match fibdecNums 1 ([] : List Nat) sh (if 0 < sh then fb ++ [inc] else fb) [] with
    | Sum.inl res => res
    | Sum.inr fr =>
      if (b1 &&& 1 = 1 ∧ (fibTable1 b1).shift > 0) ∧ b0 &&& 0x80 ≠ 0 then
        let dec := decodeBuffer fr.1 7
        if dec > 1 then
          let result2 := fr.2 ++ [dec - 2]
          if result2.length = 1 then result2
          else fibdecodeLoop 1 rest b1 (fibTable1 b1) [] result2
        else fibdecodeLoop 1 rest b1 (fibTable1 b1) [] fr.2
      else fibdecodeLoop 1 rest b1 (fibTable1 b1) fr.1 fr.2) = _
  rw [if_pos (by omega : 0 < sh)]
  show (if (b1 &&& 1 = 1 ∧ (fibTable1 b1).shift > 0) ∧ b0 &&& 0x80 ≠ 0 then
      if decodeBuffer (fb ++ [inc]) 7 > 1 then
        if (([] : List Nat) ++ [decodeBuffer (fb ++ [inc]) 7 - 2]).length = 1 then
          ([] : List Nat) ++ [decodeBuffer (fb ++ [inc]) 7 - 2]
        else fibdecodeLoop 1 rest b1 (fibTable1 b1) []
          (([] : List Nat) ++ [decodeBuffer (fb ++ [inc]) 7 - 2])
      else fibdecodeLoop 1 rest b1 (fibTable1 b1) [] []
    else fibdecodeLoop 1 rest b1 (fibTable1 b1) (fb ++ [inc]) []) = _
  rw [if_pos hcond, if_neg (by omega : ¬decodeBuffer (fb ++ [inc]) 7 > 1)]

/-- Merged-byte flush: the carried record holds the codeword value as its
first complete number; its flush is preceded by one discarded sentinel. -/
theorem loop_flush_merged (b0 b1 sh g g2 M : Nat) (gs fb rest : List Nat)
    (hrec : (if b1 &&& 1 = 1 ∧ (fibTable1 b1).shift > 0 then fibTable2 b0
      else fibTable1 b0) = ⟨sh, g :: g2 :: gs, 0⟩)
    (hdisc : decodeBuffer (if 0 < sh then fb ++ [0] else fb)
      (if sh = 0 then 8 else sh) ≤ 1)
    (hg : g = M) (hM : 2 ≤ M) :
    fibdecodeLoop 1 (b1 :: rest) b0 (fibTable1 b0) fb [] = [M - 2] := by
  have hstep := fibdecNums_discard sh _ g (g2 :: gs) (if 0 < sh then fb ++ [0] else fb)
    rfl hdisc
  have hfl := fibdecNums_flush 0 M g2 gs [g] (by rw [if_pos rfl]; show g = M; exact hg) hM
  simp only [fibdecodeLoop]
  rw [hrec]
  show (match fibdecNums 1 (g :: g2 :: gs) sh (if 0 < sh then fb ++ [0] else fb) [] with
    | Sum.inl res => res
    | Sum.inr fr =>
      if (b1 &&& 1 = 1 ∧ (fibTable1 b1).shift > 0) ∧ b0 &&& 0x80 ≠ 0 then
        let dec := decodeBuffer fr.1 7
        if dec > 1 then
          let result2 := fr.2 ++ [dec - 2]
          if result2.length = 1 then result2
          else fibdecodeLoop 1 rest b1 (fibTable1 b1) [] result2
        else fibdecodeLoop 1 rest b1 (fibTable1 b1) [] fr.2
      else fibdecodeLoop 1 rest b1 (fibTable1 b1) fr.1 fr.2) = [M - 2]
  rw [hstep, hfl]

/-- Merged-byte flush when the closing pair straddles the byte boundary: the
reread record holds the codeword value as its one number, and the flush goes
through the boundary special case. -/
theorem loop_flush_merged7 (b0 b1 sh g M : Nat) (fb rest : List Nat)
    (hrec : (if b1 &&& 1 = 1 ∧ (fibTable1 b1).shift > 0 then fibTable2 b0
      else fibTable1 b0) = ⟨sh, [g], 0⟩)
    (hcond : (b1 &&& 1 = 1 ∧ (fibTable1 b1).shift > 0) ∧ b0 &&& 0x80 ≠ 0)
    (hdisc : decodeBuffer (if 0 < sh then fb ++ [0] else fb)
      (if sh = 0 then 8 else sh) ≤ 1)
    (hg : g = M) (hM : 2 ≤ M) :
    fibdecodeLoop 1 (b1 :: rest) b0 (fibTable1 b0) fb [] = [M - 2] := by
  have hstep := fibdecNums_discard sh _ g [] (if 0 < sh then fb ++ [0] else fb)
    rfl hdisc
  simp only [fibdecodeLoop]
  rw [hrec]
  show (match fibdecNums 1 [g] sh (if 0 < sh then fb ++ [0] else fb) [] with
    | Sum.inl res => res
    | Sum.inr fr =>
      if (b1 &&& 1 = 1 ∧ (fibTable1 b1).shift > 0) ∧ b0 &&& 0x80 ≠ 0 then
        let dec := decodeBuffer fr.1 7
        if dec > 1 then
          let result2 := fr.2 ++ [dec - 2]
          if result2.length = 1 then result2
          else fibdecodeLoop 1 rest b1 (fibTable1 b1) [] result2
        else fibdecodeLoop 1 rest b1 (fibTable1 b1) [] fr.2
      else fibdecodeLoop 1 rest b1 (fibTable1 b1) fr.1 fr.2) = [M - 2]
  rw [hstep]
  show (if (b1 &&& 1 = 1 ∧ (fibTable1 b1).shift > 0) ∧ b0 &&& 0x80 ≠ 0 then
      if decodeBuffer [g] 7 > 1 then
        if (([] : List Nat) ++ [decodeBuffer [g] 7 - 2]).length = 1 then
          ([] : List Nat) ++ [decodeBuffer [g] 7 - 2]
        else fibdecodeLoop 1 rest b1 (fibTable1 b1) []
          (([] : List Nat) ++ [decodeBuffer [g] 7 - 2])
      else fibdecodeLoop 1 rest b1 (fibTable1 b1) [] []
    else fibdecodeLoop 1 rest b1 (fibTable1 b1) [g] []) = [M - 2]
  have hdb : decodeBuffer [g] 7 = M := hg
  rw [hdb, if_pos hcond, if_pos (by omega : M > 1)]
  simp


/-! ## Decoding a codeword at an arbitrary bit offset (claim C1)

The decode window cut out by `Get`: `op` cleared bits (`op = idx % 8`), the
codeword `1 + 2x` of bit length `L`, then the rest of the buffer `u` (the
following items and the terminator). -/

def c1Stream (x L op u : Nat) : Nat := (1 + 2 * x) * 2 ^ op + u * 2 ^ (op + L)

/-- Fragment `k` for a head byte holding `w0` digit bits. -/
def chunkG (w0 x : Nat) : Nat → Nat
  | 0 => wval (x % 2 ^ w0) w0 1
  | k + 1 => wval ((x >>> (8 * k + w0)) % 2 ^ 8) 8 1

def fbufG (w0 x k : Nat) : List Nat := (List.range k).map (chunkG w0 x)

theorem fbufG_succ (w0 x k : Nat) :
    fbufG w0 x (k + 1) = fbufG w0 x k ++ [chunkG w0 x k] := by
  unfold fbufG
  rw [List.range_succ, List.map_append, List.map_singleton]

theorem decodeBufferAux_fbufG (w0 x : Nat) (hw1 : 1 ≤ w0) (hw8 : w0 ≤ 8)
    (hna : nonAdjAll x) : ∀ k sh last, 1 ≤ sh →
    decodeBufferAux ((fbufG w0 x (k + 1)).reverse) sh last =
      last + wval (x % 2 ^ (8 * k + w0)) (8 * k + w0) (sh + 1) := by
  intro k
  induction k with
  | zero =>
    intro sh last hsh
    have hfb : fbufG w0 x 1 = [chunkG w0 x 0] := rfl
    rw [hfb, List.reverse_singleton]
    simp only [decodeBufferAux]
    have hc : chunkG w0 x 0 = wval (x % 2 ^ w0) w0 1 := rfl
    rw [show 8 * 0 + w0 = w0 by omega]
    rw [hc, fibshift_correct (x % 2 ^ w0) w0 sh (Nat.mod_lt _ (Nat.pos_pow_of_pos _ (by norm_num)))
      hw8 (nonAdjW_mod x w0 hna) hsh]
  | succ k ih =>
    intro sh last hsh
    rw [fbufG_succ, List.reverse_append, List.reverse_singleton, List.singleton_append]
    simp only [decodeBufferAux]
    rw [ih (sh + 8) (last + fibshift (chunkG w0 x (k + 1)) sh) (by omega)]
    have hc : chunkG w0 x (k + 1) = wval ((x >>> (8 * k + w0)) % 2 ^ 8) 8 1 := rfl
    have hfs := fibshift_correct ((x >>> (8 * k + w0)) % 2 ^ 8) 8 sh
      (Nat.mod_lt _ (by norm_num)) (le_refl 8) (nonAdjW_window x (8 * k + w0) 8 hna) hsh
    rw [hc, hfs]
    have hm1 : wval (x % 2 ^ (8 * k + w0)) (8 * k + w0) (sh + 8 + 1) =
        wval x (8 * k + w0) (sh + 8 + 1) := wval_mod x (8 * k + w0) (sh + 8 + 1)
    have hm2 : wval ((x >>> (8 * k + w0)) % 2 ^ 8) 8 (sh + 1) =
        wval (x >>> (8 * k + w0)) 8 (sh + 1) := wval_mod (x >>> (8 * k + w0)) 8 (sh + 1)
    have hm3 : wval (x % 2 ^ (8 * (k + 1) + w0)) (8 * (k + 1) + w0) (sh + 1) =
        wval x (8 * (k + 1) + w0) (sh + 1) := wval_mod x (8 * (k + 1) + w0) (sh + 1)
    have hsplit := wval_split x (8 * k + w0) 8 (sh + 1)
    rw [show sh + 1 + 8 = sh + 8 + 1 by omega] at hsplit
    rw [hm1, hm2, hm3, show 8 * (k + 1) + w0 = 8 * k + w0 + 8 by omega, hsplit]
    omega

theorem decodeBuffer_fbufG_append (w0 x : Nat) (hw1 : 1 ≤ w0) (hw8 : w0 ≤ 8)
    (hna : nonAdjAll x) (k g sh : Nat) (hsh : 1 ≤ sh) :
    decodeBuffer (fbufG w0 x (k + 1) ++ [g]) sh =
      g + wval (x % 2 ^ (8 * k + w0)) (8 * k + w0) (sh + 1) := by
  have hdb : decodeBuffer (fbufG w0 x (k + 1) ++ [g]) sh =
      decodeBufferAux ((fbufG w0 x (k + 1)).reverse) sh g := by
    unfold decodeBuffer
    rw [List.reverse_append, List.reverse_singleton, List.singleton_append]
  rw [hdb, decodeBufferAux_fbufG w0 x hw1 hw8 hna k sh g hsh]

theorem decodeBuffer_fbufG_full (w0 x : Nat) (hw1 : 1 ≤ w0) (hw8 : w0 ≤ 8)
    (hna : nonAdjAll x) (q : Nat) (h1 : 1 ≤ q) :
    decodeBuffer (fbufG w0 x q) 8 = wval x (8 * (q - 1) + w0) 1 := by
  rcases Nat.lt_or_ge q 2 with h2 | h2
  · have hq1 : q = 1 := by omega
    subst hq1
    show decodeBuffer [chunkG w0 x 0] 8 = wval x (8 * (1 - 1) + w0) 1
    show chunkG w0 x 0 = wval x (8 * (1 - 1) + w0) 1
    show wval (x % 2 ^ w0) w0 1 = wval x (8 * (1 - 1) + w0) 1
    rw [show 8 * (1 - 1) + w0 = w0 by norm_num]
    exact wval_mod x w0 1
  · have hq : q = q - 2 + 1 + 1 := by omega
    rw [hq, fbufG_succ,
      decodeBuffer_fbufG_append w0 x hw1 hw8 hna (q - 2) (chunkG w0 x (q - 2 + 1)) 8 (by norm_num)]
    have hch : chunkG w0 x (q - 2 + 1) = wval ((x >>> (8 * (q - 2) + w0)) % 2 ^ 8) 8 1 := rfl
    rw [hch, wval_mod, wval_mod]
    have hsplit := wval_split x (8 * (q - 2) + w0) 8 1
    rw [show (1 : Nat) + 8 = 8 + 1 by norm_num] at hsplit
    rw [show 8 * (q - 2 + 1 + 1 - 1) + w0 = 8 * (q - 2) + w0 + 8 by omega, hsplit]


/-! ## Byte extraction from the C1 decode window -/

theorem odd_mod_double (x m : Nat) (hm : 0 < m) :
    (1 + 2 * x) % (2 * m) = 1 + 2 * (x % m) := by
  have hdm := Nat.mod_add_div x m
  have h2 : 2 * m * (x / m) = 2 * (m * (x / m)) := by ring
  have hx : 1 + 2 * x = 1 + 2 * (x % m) + 2 * m * (x / m) := by omega
  rw [hx, Nat.add_mul_mod_self_left]
  apply Nat.mod_eq_of_lt
  have := Nat.mod_lt x hm
  omega

theorem testBit_add_mul_pow (y c o t : Nat) (hy : y < 2 ^ o) :
    (y + c * 2 ^ o).testBit (o + t) = c.testBit t := by
  have hsh : (y + c * 2 ^ o) >>> o = c := by
    rw [Nat.shiftRight_eq_div_pow,
      Nat.add_mul_div_right _ _ (Nat.pos_pow_of_pos _ (by norm_num)),
      Nat.div_eq_of_lt hy]
    omega
  have h := Nat.testBit_shiftRight (x := y + c * 2 ^ o) (i := o) (j := t)
  rw [hsh] at h
  exact h.symm

theorem testBit_add_mul_pow_low (y c o t : Nat) (hy : y < 2 ^ o) (ht : t < o) :
    (y + c * 2 ^ o).testBit t = y.testBit t := by
  have hmod : (y + c * 2 ^ o) % 2 ^ o = y := by
    rw [Nat.add_mul_mod_self_right, Nat.mod_eq_of_lt hy]
  have h1 : ((y + c * 2 ^ o) % 2 ^ o).testBit t = (y + c * 2 ^ o).testBit t := by
    rw [Nat.testBit_mod_two_pow, decide_eq_true ht, Bool.true_and]
  rw [← h1, hmod]

theorem add_mul_pow_lt (y c o e : Nat) (hy : y < 2 ^ o) (hc : c < 2 ^ (e - o))
    (hoe : o ≤ e) : y + c * 2 ^ o < 2 ^ e := by
  have hp : (2 : Nat) ^ e = 2 ^ (e - o) * 2 ^ o := pow_split _ _ _ (by omega)
  have h1 : c * 2 ^ o ≤ (2 ^ (e - o) - 1) * 2 ^ o :=
    Nat.mul_le_mul_right _ (by omega)
  rw [Nat.sub_mul, one_mul, ← hp] at h1
  have h2 : (2 : Nat) ^ o ≤ 2 ^ e := Nat.pow_le_pow_right (by norm_num) hoe
  have h3 : (0 : Nat) < 2 ^ o := Nat.pos_pow_of_pos _ (by norm_num)
  omega

/-- The C1 window shifted past `j ≥ 1` whole bytes, still inside the
codeword. -/
theorem c1_shift (x L op u j : Nat) (hop : op ≤ 7) (hj : 1 ≤ j)
    (hjL : 8 * j ≤ op + L) :
    c1Stream x L op u >>> (8 * j) =
      x >>> (8 * j - op - 1) + u * 2 ^ (op + L - 8 * j) := by
  have hrw : c1Stream x L op u =
      (1 + 2 * x) * 2 ^ op + u * 2 ^ (op + L - 8 * j) * 2 ^ (8 * j) := by
    show (1 + 2 * x) * 2 ^ op + u * 2 ^ (op + L) = _
    rw [pow_split (op + L) (op + L - 8 * j) (8 * j) (by omega)]
    ring
  have hsplit1 : (2 : Nat) ^ (8 * j) = 2 ^ op * 2 ^ (8 * j - op) :=
    pow_split _ _ _ (by omega)
  have hsplit2 : (2 : Nat) ^ (8 * j - op) = 2 * 2 ^ (8 * j - op - 1) := by
    rw [pow_split (8 * j - op) 1 (8 * j - op - 1) (by omega), pow_one]
  rw [hrw, Nat.shiftRight_eq_div_pow,
    Nat.add_mul_div_right _ _ (Nat.pos_pow_of_pos _ (by norm_num))]
  congr 1
  rw [hsplit1, show (1 + 2 * x) * 2 ^ op = 2 ^ op * (1 + 2 * x) by ring,
    Nat.mul_div_mul_left _ _ (Nat.pos_pow_of_pos _ (by norm_num)),
    hsplit2, ← Nat.div_div_eq_div_mul, Nat.shiftRight_eq_div_pow]
  congr 1
  omega

/-- Head byte of the C1 window, start offset at most 6: cleared bits, the
codeword start, then its low digits. -/
theorem c1_byte0 (x L op u : Nat) (hop : op ≤ 6) (hL : 8 ≤ op + L) :
    c1Stream x L op u % 2 ^ 8 = (1 + 2 * (x % 2 ^ (7 - op))) * 2 ^ op := by
  have hrw : c1Stream x L op u =
      (1 + 2 * x) * 2 ^ op + u * 2 ^ (op + L - 8) * 2 ^ 8 := by
    show (1 + 2 * x) * 2 ^ op + u * 2 ^ (op + L) = _
    rw [pow_split (op + L) (op + L - 8) 8 (by omega)]
    ring
  rw [hrw, Nat.add_mul_mod_self_right,
    show (2 : Nat) ^ 8 = 2 ^ (8 - op) * 2 ^ op from pow_split _ _ _ (by omega),
    Nat.mul_mod_mul_right,
    show (2 : Nat) ^ (8 - op) = 2 * 2 ^ (7 - op) from by
      rw [pow_split (8 - op) 1 (7 - op) (by omega), pow_one],
    odd_mod_double x _ (Nat.pos_pow_of_pos _ (by norm_num))]

/-- Head byte of the C1 window at start offset 7: only the terminator bit. -/
theorem c1_byte0_op7 (x L u : Nat) (hL : 8 ≤ 7 + L) :
    c1Stream x L 7 u % 2 ^ 8 = 128 := by
  have hrw : c1Stream x L 7 u =
      (1 + 2 * x) * 2 ^ 7 + u * 2 ^ (7 + L - 8) * 2 ^ 8 := by
    show (1 + 2 * x) * 2 ^ 7 + u * 2 ^ (7 + L) = _
    rw [pow_split (7 + L) (7 + L - 8) 8 (by omega)]
    ring
  rw [hrw, Nat.add_mul_mod_self_right,
    show (2 : Nat) ^ 8 = 2 * 2 ^ 7 from by norm_num,
    Nat.mul_mod_mul_right,
    show (1 + 2 * x) % 2 = 1 from by omega]
  norm_num

/-- A byte strictly inside the digit region of the C1 window. -/
theorem c1_byte_digit (x L op u j : Nat) (hop : op ≤ 7) (hj : 1 ≤ j)
    (hjL : 8 * j + 8 ≤ op + L) :
    (c1Stream x L op u >>> (8 * j)) % 2 ^ 8 = (x >>> (8 * j - op - 1)) % 2 ^ 8 := by
  rw [c1_shift x L op u j hop hj (by omega)]
  have hrw : u * 2 ^ (op + L - 8 * j) = u * 2 ^ (op + L - 8 * j - 8) * 2 ^ 8 := by
    rw [pow_split (op + L - 8 * j) (op + L - 8 * j - 8) 8 (by omega)]
    ring
  rw [hrw, Nat.add_mul_mod_self_right]

/-- The flush byte of the C1 window: the top digits below the closing pair,
then the head of the continuation `u`. -/
theorem c1_byte_flush (x L op u q : Nat) (hop : op ≤ 7) (hq : 1 ≤ q)
    (hqL : 8 * q ≤ op + L) (ho7 : op + L ≤ 8 * q + 7) (hx : x < 2 ^ (L - 1)) :
    (c1Stream x L op u >>> (8 * q)) % 2 ^ 8 =
      x >>> (8 * q - op - 1) + (u % 2 ^ (8 - (op + L - 8 * q))) * 2 ^ (op + L - 8 * q) := by
  rw [c1_shift x L op u q hop hq hqL]
  have hylt : x >>> (8 * q - op - 1) < 2 ^ (op + L - 8 * q) := by
    apply shiftRight_lt_pow
    rw [show 8 * q - op - 1 + (op + L - 8 * q) = L - 1 by omega]
    exact hx
  have hurw : u * 2 ^ (op + L - 8 * q) =
      (u % 2 ^ (8 - (op + L - 8 * q))) * 2 ^ (op + L - 8 * q) +
        (u / 2 ^ (8 - (op + L - 8 * q))) * 2 ^ 8 := by
    have hmd := Nat.mod_add_div u (2 ^ (8 - (op + L - 8 * q)))
    have hp : (2 : Nat) ^ 8 = 2 ^ (8 - (op + L - 8 * q)) * 2 ^ (op + L - 8 * q) :=
      pow_split _ _ _ (by omega)
    calc u * 2 ^ (op + L - 8 * q)
        = (u % 2 ^ (8 - (op + L - 8 * q)) +
            2 ^ (8 - (op + L - 8 * q)) * (u / 2 ^ (8 - (op + L - 8 * q)))) *
            2 ^ (op + L - 8 * q) := by rw [hmd]
      _ = _ := by rw [hp]; ring
  rw [hurw, ← Nat.add_assoc, Nat.add_mul_mod_self_right]
  apply Nat.mod_eq_of_lt
  exact add_mul_pow_lt _ _ (op + L - 8 * q) 8 hylt
    (Nat.mod_lt _ (Nat.pos_pow_of_pos _ (by norm_num))) (by omega)

/-- The byte after the flush byte: the continuation `u` past its first bits. -/
theorem c1_byte_next (x L op u q : Nat) (hop : op ≤ 7) (hq : 1 ≤ q)
    (hqL : 8 * q ≤ op + L) (ho7 : op + L ≤ 8 * q + 7) (hx : x < 2 ^ (L - 1)) :
    (c1Stream x L op u >>> (8 * (q + 1))) % 2 ^ 8 =
      (u >>> (8 - (op + L - 8 * q))) % 2 ^ 8 := by
  have hxw : (1 + 2 * x) < 2 ^ L := by
    have h2 : (2 : Nat) ^ L = 2 ^ (L - 1) * 2 := by
      rw [pow_split L (L - 1) 1 (by omega), pow_one]
    omega
  have h1 : (1 + 2 * x) * 2 ^ op < 2 ^ (op + L) := by
    calc (1 + 2 * x) * 2 ^ op < 2 ^ L * 2 ^ op :=
          (Nat.mul_lt_mul_right (Nat.pos_pow_of_pos _ (by norm_num))).mpr hxw
      _ = 2 ^ (op + L) := by rw [← pow_add]; congr 1; omega
  have hrw : c1Stream x L op u =
      ((1 + 2 * x) * 2 ^ op + (u % 2 ^ (8 - (op + L - 8 * q))) * 2 ^ (op + L)) +
        (u >>> (8 - (op + L - 8 * q))) * 2 ^ (8 * (q + 1)) := by
    show (1 + 2 * x) * 2 ^ op + u * 2 ^ (op + L) = _
    have hmd := Nat.mod_add_div u (2 ^ (8 - (op + L - 8 * q)))
    have hp : (2 : Nat) ^ (8 * (q + 1)) =
        2 ^ (8 - (op + L - 8 * q)) * 2 ^ (op + L) := by
      rw [← pow_add]
      congr 1
      omega
    rw [Nat.shiftRight_eq_div_pow]
    calc (1 + 2 * x) * 2 ^ op + u * 2 ^ (op + L)
        = (1 + 2 * x) * 2 ^ op +
          (u % 2 ^ (8 - (op + L - 8 * q)) +
            2 ^ (8 - (op + L - 8 * q)) * (u / 2 ^ (8 - (op + L - 8 * q)))) *
            2 ^ (op + L) := by rw [hmd]
      _ = _ := by rw [hp]; ring
  have hlow : (1 + 2 * x) * 2 ^ op +
      (u % 2 ^ (8 - (op + L - 8 * q))) * 2 ^ (op + L) < 2 ^ (8 * (q + 1)) := by
    apply add_mul_pow_lt _ _ (op + L) (8 * (q + 1)) h1 _ (by omega)
    rw [show 8 * (q + 1) - (op + L) = 8 - (op + L - 8 * q) by omega]
    exact Nat.mod_lt _ (Nat.pos_pow_of_pos _ (by norm_num))
  have hdiv : c1Stream x L op u >>> (8 * (q + 1)) = u >>> (8 - (op + L - 8 * q)) := by
    rw [hrw, Nat.shiftRight_eq_div_pow,
      Nat.add_mul_div_right _ _ (Nat.pos_pow_of_pos _ (by norm_num)),
      Nat.div_eq_of_lt hlow, Nat.shiftRight_eq_div_pow]
    omega
  rw [hdiv]


/-! ## Bit-pattern to residue conversions -/

theorem mod4_bits (a : Nat) (h : a % 4 = 3) :
    a.testBit 0 = true ∧ a.testBit 1 = true := by
  rw [Nat.testBit_to_div_mod, Nat.testBit_to_div_mod, decide_eq_true_eq,
    decide_eq_true_eq]
  norm_num
  omega

theorem mod4_of_bits1 (a : Nat) (h0 : a.testBit 0 = true) (h1 : a.testBit 1 = false) :
    a % 4 = 1 := by
  rw [Nat.testBit_to_div_mod, decide_eq_true_eq] at h0
  rw [Nat.testBit_to_div_mod, decide_eq_false_iff_not] at h1
  norm_num at h0 h1
  omega

theorem mod8_of_bits3 (a : Nat) (h0 : a.testBit 0 = true) (h1 : a.testBit 1 = true)
    (h2 : a.testBit 2 = false) : a % 8 = 3 := by
  rw [Nat.testBit_to_div_mod, decide_eq_true_eq] at h0 h1
  rw [Nat.testBit_to_div_mod, decide_eq_false_iff_not] at h2
  norm_num at h0 h1 h2
  omega

theorem mod16_of_bits7 (a : Nat) (h0 : a.testBit 0 = true) (h1 : a.testBit 1 = true)
    (h2 : a.testBit 2 = true) (h3 : a.testBit 3 = false) : a % 16 = 7 := by
  rw [Nat.testBit_to_div_mod, decide_eq_true_eq] at h0 h1 h2
  rw [Nat.testBit_to_div_mod, decide_eq_false_iff_not] at h3
  norm_num at h0 h1 h2 h3
  omega

theorem mod32_of_bits15 (a : Nat) (h0 : a.testBit 0 = true) (h1 : a.testBit 1 = true)
    (h2 : a.testBit 2 = true) (h3 : a.testBit 3 = true) (h4 : a.testBit 4 = false) :
    a % 32 = 15 := by
  rw [Nat.testBit_to_div_mod, decide_eq_true_eq] at h0 h1 h2 h3
  rw [Nat.testBit_to_div_mod, decide_eq_false_iff_not] at h4
  norm_num at h0 h1 h2 h3 h4
  omega

theorem shift_of_decomp (lo k W : Nat) (hlo : lo < 2 ^ k) :
    (lo + W * 2 ^ k) >>> k = W := by
  rw [Nat.shiftRight_eq_div_pow,
    Nat.add_mul_div_right _ _ (Nat.pos_pow_of_pos _ (by norm_num)),
    Nat.div_eq_of_lt hlo]
  omega

/-! ## Well-formed item streams: `Add` never emits two adjacent pads -/

def PadOK (items : List StreamItem) : Prop :=
  List.Chain' (fun a b => ¬(a = StreamItem.pad ∧ b = StreamItem.pad)) items

theorem padOK_stepItems {items : List StreamItem} (h : PadOK items) (n : Nat) :
    PadOK (stepItems items n) := by
  unfold stepItems PadOK
  rw [List.chain'_append]
  refine ⟨h, ?_, ?_⟩
  · by_cases hc : ((streamBits items).2 + (fibencode n).2) % 64 = 63
    · rw [if_pos hc]
      refine List.chain'_cons.mpr ⟨?_, List.chain'_singleton _⟩
      rintro ⟨h1, _⟩
      exact StreamItem.noConfusion h1
    · rw [if_neg hc]
      exact List.chain'_singleton _
  · intro x hx y hy
    have hy' : y = StreamItem.cw n := by
      simp only [List.head?_cons, Option.mem_def, Option.some.injEq] at hy
      exact hy.symm
    rintro ⟨_, h2⟩
    rw [hy'] at h2
    exact StreamItem.noConfusion h2

/-- Every vector built by `Add`s is the image of a well-formed item stream
storing exactly the added values, with no two adjacent pads. -/
theorem buildVec_wf (vals : List Nat) (h : Storable vals) :
    ∃ items, Inv (buildVec vals) items ∧ storedVals items = vals ∧ PadOK items := by
  suffices H : ∀ (l : List Nat), (∀ x ∈ l, x ≤ MaxValue) →
      ∀ (v : Vector) (items : List StreamItem), Inv v items → PadOK items →
      ∃ items', Inv (l.foldl vecAdd v) items' ∧
        storedVals items' = storedVals items ++ l ∧ PadOK items' by
    obtain ⟨items', h1, h2, h3⟩ := H vals h newVector [] inv_newVector List.chain'_nil
    exact ⟨items', h1, by simpa using h2, h3⟩
  intro l
  induction l with
  | nil =>
    intro _ v items hI hP
    exact ⟨items, hI, by simp, hP⟩
  | cons a tl ih =>
    intro hst v items hI hP
    obtain ⟨items', h1, h2, h3⟩ := ih (fun x hx => hst x (List.mem_cons_of_mem a hx))
      (vecAdd v a) (stepItems items a)
      (vecAdd_inv hI (hst a (List.mem_cons_self a _)))
      (padOK_stepItems hP a)
    refine ⟨items', h1, ?_, h3⟩
    rw [h2, storedVals_stepItems]
    simp

/-! ## Locating a stored value inside the item stream -/

theorem items_decomp : ∀ (items : List StreamItem) (i o : Nat),
    i < (storedVals items).length →
    ∃ pre n post, items = pre ++ StreamItem.cw n :: post ∧
      (storedVals items).get? i = some n ∧
      (itemStarts items o).get? i = some (o + (streamBits pre).2) := by
  intro items
  induction items with
  | nil =>
    intro i o hi
    exact absurd hi (by simp [storedVals])
  | cons it rest ih =>
    intro i o hi
    cases it with
    | pad =>
      obtain ⟨pre, n, post, he, hv, hs⟩ := ih i (o + 2) hi
      refine ⟨StreamItem.pad :: pre, n, post, by rw [List.cons_append, ← he], hv, ?_⟩
      show (itemStarts rest (o + 2)).get? i = _
      rw [hs]
      refine congrArg some ?_
      show o + 2 + (streamBits pre).2 = o + (2 + (streamBits pre).2)
      omega
    | cw m =>
      cases i with
      | zero =>
        refine ⟨[], m, rest, rfl, rfl, ?_⟩
        show some o = some (o + (streamBits ([] : List StreamItem)).2)
        refine congrArg some ?_
        show o = o + 0
        omega
      | succ i2 =>
        have hi' : i2 < (storedVals rest).length := by
          have hlen : (storedVals (StreamItem.cw m :: rest)).length =
            (storedVals rest).length + 1 := rfl
          omega
        obtain ⟨pre, n, post, he, hv, hs⟩ := ih i2 (o + (fibencode m).2) hi'
        refine ⟨StreamItem.cw m :: pre, n, post, by rw [List.cons_append, ← he], hv, ?_⟩
        show (itemStarts rest (o + (fibencode m).2)).get? i2 = _
        rw [hs]
        refine congrArg some ?_
        show o + (fibencode m).2 + (streamBits pre).2 =
          o + ((fibencode m).2 + (streamBits pre).2)
        omega

theorem bufferBits_cons (it : StreamItem) (rest : List StreamItem) :
    bufferBits (it :: rest) = catBits (itemBits it) (bufferBits rest) := by
  show catBits (catBits (itemBits it) (streamBits rest)) (3, 3) = _
  rw [catBits_assoc]
  rfl

theorem bufferBits_append (xs ys : List StreamItem) :
    bufferBits (xs ++ ys) = catBits (streamBits xs) (bufferBits ys) := by
  unfold bufferBits
  rw [streamBits_append, catBits_assoc]

theorem itemsOK_append_left {xs ys : List StreamItem} (h : ItemsOK (xs ++ ys)) :
    ItemsOK xs := by
  intro n hn
  refine h n ?_
  rw [storedVals_append]
  exact List.mem_append_left _ hn

theorem itemsOK_append_right {xs ys : List StreamItem} (h : ItemsOK (xs ++ ys)) :
    ItemsOK ys := by
  intro n hn
  refine h n ?_
  rw [storedVals_append]
  exact List.mem_append_right _ hn

theorem padOK_append_right {xs ys : List StreamItem} (h : PadOK (xs ++ ys)) :
    PadOK ys :=
  (List.chain'_append.mp h).2.1

/-! ## The continuation bits after a codeword

For `items = pre ++ cw n :: post`, the buffer bits above the codeword are
`u = (bufferBits post).1`: the next item (a codeword start `110…`, or a pad
`11` merged with what follows), or the bare terminator `110`.  In every case
`u` starts with a `11` pair, and when `u` continues `1,1,1,1` (a pad before
the next start) its fifth bit is `0`. -/

theorem bufferBits_mod4 (post : List StreamItem) (hok : ItemsOK post) :
    (bufferBits post).1 % 4 = 3 := by
  cases post with
  | nil => decide
  | cons it rest =>
    rw [bufferBits_cons]
    cases it with
    | pad =>
      show (3 + (bufferBits rest).1 * 2 ^ 2) % 4 = 3
      have h4 : (bufferBits rest).1 * 2 ^ 2 = (bufferBits rest).1 * 4 := by norm_num
      omega
    | cw n =>
      have hsh := cwShape_of_le (hok n (List.mem_cons_self n _))
      have hw4 : (fibencode n).1 % 4 = 3 := by
        have h0 := hsh.bit0
        have h1 := hsh.bit1
        rw [Nat.testBit_to_div_mod, decide_eq_true_eq] at h0 h1
        norm_num at h0 h1
        omega
      show ((fibencode n).1 + (bufferBits rest).1 * 2 ^ (fibencode n).2) % 4 = 3
      have hL := hsh.len3
      have h2L : (bufferBits rest).1 * 2 ^ (fibencode n).2 =
          (bufferBits rest).1 * 2 ^ ((fibencode n).2 - 2) * 4 := by
        rw [pow_split (fibencode n).2 ((fibencode n).2 - 2) 2 (by omega),
          show (2 : Nat) ^ 2 = 4 from rfl]
        ring
      omega

theorem bufferBits_bit2 (post : List StreamItem) (hok : ItemsOK post)
    (hpp : PadOK post) :
    (bufferBits post).1.testBit 2 = true →
      (bufferBits post).1.testBit 3 = true ∧ (bufferBits post).1.testBit 4 = false := by
  cases post with
  | nil =>
    intro h2
    exact absurd h2 (by decide)
  | cons it rest =>
    rw [bufferBits_cons]
    cases it with
    | cw n =>
      have hsh := cwShape_of_le (hok n (List.mem_cons_self n _))
      have hcat : ∀ i, i < (fibencode n).2 →
          (catBits (itemBits (StreamItem.cw n)) (bufferBits rest)).1.testBit i =
            (fibencode n).1.testBit i := by
        intro i hi
        show (catBits ((fibencode n).1, (fibencode n).2) (bufferBits rest)).1.testBit i = _
        rw [testBit_catBits hsh.lt _ i, if_pos hi]
      intro h2
      rw [hcat 2 (by have := hsh.len3; omega)] at h2
      exact absurd h2 (by rw [hsh.bit2]; intro hcc; exact Bool.noConfusion hcc)
    | pad =>
      have hcat : ∀ i, 2 ≤ i →
          (catBits (itemBits StreamItem.pad) (bufferBits rest)).1.testBit i =
            (bufferBits rest).1.testBit (i - 2) := by
        intro i hi
        show (catBits ((3 : Nat), (2 : Nat)) (bufferBits rest)).1.testBit i = _
        rw [testBit_catBits (by norm_num) _ i, if_neg (by omega)]
      intro _
      have hok2 : ItemsOK rest := itemsOK_cons hok
      have hm4 := bufferBits_mod4 rest hok2
      have hb01 := mod4_bits _ hm4
      refine ⟨?_, ?_⟩
      · rw [hcat 3 (by norm_num)]
        exact hb01.2
      · rw [hcat 4 (by norm_num)]
        show (bufferBits rest).1.testBit 2 = false
        cases rest with
        | nil => decide
        | cons it2 rest2 =>
          cases it2 with
          | pad =>
            obtain ⟨hR, _⟩ := List.chain'_cons.mp hpp
            exact absurd ⟨rfl, rfl⟩ hR
          | cw m =>
            have hsh2 := cwShape_of_le (hok2 m (List.mem_cons_self m _))
            rw [bufferBits_cons]
            show (catBits ((fibencode m).1, (fibencode m).2) (bufferBits rest2)).1.testBit 2 = false
            rw [testBit_catBits hsh2.lt _ 2, if_pos (by have := hsh2.len3; omega)]
            exact hsh2.bit2


/-! ## The C1 byte list and the decoder chain over it -/

/-- The suffix of the C1 window's byte list from byte `t`, followed by
whatever else the decoder was fed. -/
def c1Tail (x L op u t : Nat) (rest : List Nat) : List Nat :=
  ((List.range ((op + L) / 8 + 2 - t)).map fun j =>
    (c1Stream x L op u >>> (8 * (t + j))) % 2 ^ 8) ++ rest

theorem c1Tail_cons (x L op u t : Nat) (rest : List Nat)
    (h : t < (op + L) / 8 + 2) :
    c1Tail x L op u t rest =
      ((c1Stream x L op u >>> (8 * t)) % 2 ^ 8) :: c1Tail x L op u (t + 1) rest := by
  unfold c1Tail
  rw [show (op + L) / 8 + 2 - t = ((op + L) / 8 + 2 - (t + 1)) + 1 by omega,
    List.range_succ_eq_map, List.map_cons, List.map_map, List.cons_append]
  congr 1
  congr 1
  apply List.map_congr_left
  intro j _
  show (c1Stream x L op u >>> (8 * (t + (j + 1)))) % 2 ^ 8 = _
  rw [show t + (j + 1) = t + 1 + j by omega]

/-- Processing the carried record of byte `t - 1` inside the codeword: no
value is flushed and the fragment buffer advances.  `w0` is the number of
digit bits in the first fragment-bearing byte, `t0` the index of the first
byte after the head entry. -/
theorem c1_prevPhase (x L op u w0 t0 t : Nat) (hop : op ≤ 7)
    (hw : w0 = if op = 7 then 8 else 7 - op)
    (ht0 : t0 = if op = 7 then 2 else 1)
    (hbit0 : x.testBit 0 = true) (hbit1 : x.testBit 1 = false) (hna : nonAdjAll x)
    (h1 : t0 ≤ t) (ht : 8 * t ≤ op + L) :
    fibdecNums 1 (fibTable1 ((c1Stream x L op u >>> (8 * (t - 1))) % 2 ^ 8)).numbers
      (fibTable1 ((c1Stream x L op u >>> (8 * (t - 1))) % 2 ^ 8)).shift
      (if 0 < (fibTable1 ((c1Stream x L op u >>> (8 * (t - 1))) % 2 ^ 8)).shift
        then fbufG w0 x (t - t0) ++
          [(fibTable1 ((c1Stream x L op u >>> (8 * (t - 1))) % 2 ^ 8)).incomplete]
        else fbufG w0 x (t - t0)) [] = Sum.inr (fbufG w0 x (t - t0 + 1), []) := by
  by_cases hop7 : op = 7
  · -- start offset 7: every chain byte is a full digit byte
    subst hop7
    rw [if_pos rfl] at hw
    rw [if_pos rfl] at ht0
    subst hw
    subst ht0
    have hd := c1_byte_digit x L 7 u (t - 1) (le_refl 7) (by omega) (by omega)
    rw [show 8 * (t - 1) - 7 - 1 = 8 * (t - 1) - 8 by omega] at hd
    rw [hd]
    have hlt : (x >>> (8 * (t - 1) - 8)) % 2 ^ 8 < 2 ^ 8 := Nat.mod_lt _ (by norm_num)
    have hrec := table1_digits _ hlt (nonAdjW_window x (8 * (t - 1) - 8) 8 hna)
    rw [hrec]
    show fibdecNums 1 [] 8
      (if 0 < 8 then fbufG 8 x (t - 2) ++ [wval ((x >>> (8 * (t - 1) - 8)) % 2 ^ 8) 8 1]
       else fbufG 8 x (t - 2)) [] = Sum.inr (fbufG 8 x (t - 2 + 1), [])
    rw [if_pos (by norm_num)]
    have hch : chunkG 8 x (t - 2) = wval ((x >>> (8 * (t - 1) - 8)) % 2 ^ 8) 8 1 := by
      rcases Nat.lt_or_ge t 3 with h3 | h3
      · have ht2 : t = 2 := by omega
        subst ht2
        show wval (x % 2 ^ 8) 8 1 = wval ((x >>> (8 * (2 - 1) - 8)) % 2 ^ 8) 8 1
        rw [show 8 * (2 - 1) - 8 = 0 by norm_num, Nat.shiftRight_zero]
      · rw [show t - 2 = (t - 3) + 1 by omega]
        show wval ((x >>> (8 * (t - 3) + 8)) % 2 ^ 8) 8 1 = _
        rw [show 8 * (t - 3) + 8 = 8 * (t - 1) - 8 by omega]
    rw [← hch, ← fbufG_succ]
    rfl
  · -- start offset at most 6
    have hop6 : op ≤ 6 := by omega
    rw [if_neg hop7] at hw
    rw [if_neg hop7] at ht0
    subst hw
    subst ht0
    rcases Nat.lt_or_ge t 2 with h2 | h2
    · -- head byte
      have ht1 : t = 1 := by omega
      subst ht1
      have hb0 : (c1Stream x L op u >>> (8 * (1 - 1))) % 2 ^ 8 =
          (1 + 2 * (x % 2 ^ (7 - op))) * 2 ^ op := by
        rw [show 8 * (1 - 1) = 0 by norm_num, Nat.shiftRight_zero]
        exact c1_byte0 x L op u hop6 (by omega)
      rw [hb0]
      have hxm : x % 2 ^ (7 - op) < 2 ^ (7 - op) :=
        Nat.mod_lt _ (Nat.pos_pow_of_pos _ (by norm_num))
      have hx4 : x % 4 = 1 := mod4_of_bits1 x hbit0 hbit1
      have hxt4 : x % 2 ^ (7 - op) % 4 = 1 := by
        rcases Nat.lt_or_ge op 6 with h6 | h6
        · rw [Nat.mod_mod_of_dvd]
          · exact hx4
          · rw [show (4 : Nat) = 2 ^ 2 from rfl]
            exact pow_dvd_pow 2 (by omega)
        · have hop6' : op = 6 := by omega
          subst hop6'
          rw [show (7 : Nat) - 6 = 1 from rfl, pow_one]
          omega
      have hb0lt : (1 + 2 * (x % 2 ^ (7 - op))) * 2 ^ op < 2 ^ 8 := by
        have hp : (2 : Nat) ^ (8 - op) = 2 * 2 ^ (7 - op) := by
          rw [pow_split (8 - op) 1 (7 - op) (by omega), pow_one]
        have h1b : 1 + 2 * (x % 2 ^ (7 - op)) < 2 ^ (8 - op) := by omega
        calc (1 + 2 * (x % 2 ^ (7 - op))) * 2 ^ op
            < 2 ^ (8 - op) * 2 ^ op :=
              (Nat.mul_lt_mul_right (Nat.pos_pow_of_pos _ (by norm_num))).mpr h1b
          _ = 2 ^ 8 := (pow_split 8 (8 - op) op (by omega)).symm
      have hmod : (1 + 2 * (x % 2 ^ (7 - op))) * 2 ^ op % 2 ^ (op + 3) = 3 * 2 ^ op := by
        rw [pow_split (op + 3) 3 op (by omega), Nat.mul_mod_mul_right,
          show (2 : Nat) ^ 3 = 2 * 4 from rfl,
          odd_mod_double _ 4 (by norm_num), hxt4]
      have hshr : ((1 + 2 * (x % 2 ^ (7 - op))) * 2 ^ op) >>> (op + 1) = x % 2 ^ (7 - op) := by
        rw [Nat.shiftRight_eq_div_pow, pow_split (op + 1) op 1 (by omega),
          show (1 + 2 * (x % 2 ^ (7 - op))) * 2 ^ op =
            2 ^ op * (1 + 2 * (x % 2 ^ (7 - op))) by ring,
          Nat.mul_div_mul_left _ _ (Nat.pos_pow_of_pos _ (by norm_num)), pow_one]
        omega
      have hnaw : nonAdjW (((1 + 2 * (x % 2 ^ (7 - op))) * 2 ^ op) >>> (op + 1)) (7 - op) := by
        rw [hshr]
        exact nonAdjW_mod x (7 - op) hna
      have hrec := table1_head _ hb0lt op (by omega) hmod hnaw
      rw [hshr] at hrec
      rw [hrec]
      show fibdecNums 1 [wval (x % 2 ^ (7 - op)) (7 - op) 1] op
        (if 0 < op then fbufG (7 - op) x (1 - 1) ++ [0] else fbufG (7 - op) x (1 - 1)) [] =
        Sum.inr (fbufG (7 - op) x (1 - 1 + 1), [])
      have hfb0 : fbufG (7 - op) x (1 - 1) = ([] : List Nat) := rfl
      have hfb1 : fbufG (7 - op) x (1 - 1 + 1) = [wval (x % 2 ^ (7 - op)) (7 - op) 1] := rfl
      rw [hfb0, hfb1]
      by_cases hop0 : op = 0
      · subst hop0
        rw [if_neg (lt_irrefl 0)]
        have hdisc := fibdecNums_discard 0 0 (wval (x % 2 ^ (7 - 0)) (7 - 0) 1) [] []
          (by rw [if_pos rfl]; rfl) (by norm_num)
        rw [hdisc]
        rfl
      · rw [if_pos (by omega : 0 < op), List.nil_append]
        have hdisc := fibdecNums_discard op 0 (wval (x % 2 ^ (7 - op)) (7 - op) 1) [] [0]
          (by rw [if_neg hop0]; rfl) (by norm_num)
        rw [hdisc]
        rfl
    · -- digit byte
      have hd := c1_byte_digit x L op u (t - 1) hop (by omega) (by omega)
      rw [show 8 * (t - 1) - op - 1 = 8 * (t - 2) + (7 - op) by omega] at hd
      rw [hd]
      have hlt : (x >>> (8 * (t - 2) + (7 - op))) % 2 ^ 8 < 2 ^ 8 := Nat.mod_lt _ (by norm_num)
      have hrec := table1_digits _ hlt (nonAdjW_window x (8 * (t - 2) + (7 - op)) 8 hna)
      rw [hrec]
      show fibdecNums 1 [] 8
        (if 0 < 8 then fbufG (7 - op) x (t - 1) ++
          [wval ((x >>> (8 * (t - 2) + (7 - op))) % 2 ^ 8) 8 1]
         else fbufG (7 - op) x (t - 1)) [] = Sum.inr (fbufG (7 - op) x (t - 1 + 1), [])
      rw [if_pos (by norm_num)]
      have hch : chunkG (7 - op) x (t - 1) =
          wval ((x >>> (8 * (t - 2) + (7 - op))) % 2 ^ 8) 8 1 := by
        rw [show t - 1 = (t - 2) + 1 by omega]
        rfl
      rw [← hch, ← fbufG_succ]
      rfl


theorem c1_head_lt (x op : Nat) (hop : op ≤ 6) :
    (1 + 2 * (x % 2 ^ (7 - op))) * 2 ^ op < 2 ^ 8 := by
  have hxm : x % 2 ^ (7 - op) < 2 ^ (7 - op) :=
    Nat.mod_lt _ (Nat.pos_pow_of_pos _ (by norm_num))
  have hp : (2 : Nat) ^ (8 - op) = 2 * 2 ^ (7 - op) := by
    rw [pow_split (8 - op) 1 (7 - op) (by omega), pow_one]
  have h1b : 1 + 2 * (x % 2 ^ (7 - op)) < 2 ^ (8 - op) := by omega
  calc (1 + 2 * (x % 2 ^ (7 - op))) * 2 ^ op
      < 2 ^ (8 - op) * 2 ^ op :=
        (Nat.mul_lt_mul_right (Nat.pos_pow_of_pos _ (by norm_num))).mpr h1b
    _ = 2 ^ 8 := (pow_split 8 (8 - op) op (by omega)).symm

/-- Bit 0 of byte `t` of the C1 window is digit bit `8t - op - 1`. -/
theorem c1_byteLow (x L op u t : Nat) (hop : op ≤ 7) (h1 : 1 ≤ t)
    (ht : 8 * t + 1 ≤ op + L) :
    ((c1Stream x L op u >>> (8 * t)) % 2 ^ 8) &&& 1 = 1 ↔
      x.testBit (8 * t - op - 1) = true := by
  rw [c1_shift x L op u t hop h1 (by omega)]
  have hand : ∀ a : Nat, a &&& 1 = a % 2 := fun a => Nat.and_one_is_mod a
  rw [hand]
  have he : (2 : Nat) ^ (op + L - 8 * t) = 2 * 2 ^ (op + L - 8 * t - 1) := by
    rw [pow_split (op + L - 8 * t) 1 (op + L - 8 * t - 1) (by omega), pow_one]
  have he2 : u * 2 ^ (op + L - 8 * t) = 2 * (u * 2 ^ (op + L - 8 * t - 1)) := by
    rw [he]
    ring
  have hmod : (x >>> (8 * t - op - 1) + u * 2 ^ (op + L - 8 * t)) % 2 ^ 8 % 2 =
      x >>> (8 * t - op - 1) % 2 := by
    rw [Nat.mod_mod_of_dvd _ (by norm_num)]
    omega
  rw [hmod, Nat.testBit_to_div_mod, ← Nat.shiftRight_eq_div_pow]
  constructor
  · intro h
    rw [h]
    norm_num
  · intro h
    exact of_decide_eq_true h

/-- Bit 7 of byte `t - 1` of the C1 window is digit bit `8t - op - 2`. -/
theorem c1_byteTop (x L op u t : Nat) (hop : op ≤ 7) (h1 : 1 ≤ t)
    (ht : 8 * t ≤ op + L) (hcase : op ≤ 6 ∨ 2 ≤ t) :
    ((c1Stream x L op u >>> (8 * (t - 1))) % 2 ^ 8) &&& 128 = 0 ↔
      x.testBit (8 * t - op - 2) = false := by
  rcases Nat.lt_or_ge t 2 with h2 | h2
  · have ht1 : t = 1 := by omega
    subst ht1
    have hop6 : op ≤ 6 := by
      rcases hcase with h | h
      · exact h
      · omega
    rw [show 8 * (1 - 1) = 0 by norm_num, Nat.shiftRight_zero,
      c1_byte0 x L op u hop6 (by omega), and128_iff _ (c1_head_lt x op hop6)]
    have hb7 : ((1 + 2 * (x % 2 ^ (7 - op))) * 2 ^ op).testBit 7 = x.testBit (6 - op) := by
      have hb := testBit_add_mul_pow 0 (1 + 2 * (x % 2 ^ (7 - op))) op (7 - op)
        (Nat.pos_pow_of_pos _ (by norm_num))
      rw [Nat.zero_add, show op + (7 - op) = 7 by omega] at hb
      rw [hb]
      have hc : (1 + 2 * (x % 2 ^ (7 - op))) = 1 + (x % 2 ^ (7 - op)) * 2 ^ 1 := by
        ring
      rw [hc]
      have hb2 := testBit_add_mul_pow 1 (x % 2 ^ (7 - op)) 1 (6 - op) (by norm_num)
      rw [show (1 : Nat) + (6 - op) = 7 - op by omega] at hb2
      rw [hb2, Nat.testBit_mod_two_pow, decide_eq_true (by omega : 6 - op < 7 - op),
        Bool.true_and]
    rw [hb7, show 8 * 1 - op - 2 = 6 - op by omega]
  · have hd := c1_byte_digit x L op u (t - 1) hop (by omega) (by omega)
    rw [hd, and128_iff _ (Nat.mod_lt _ (by norm_num)), window_testBit,
      show 8 * (t - 1) - op - 1 + 7 = 8 * t - op - 2 by omega]
    norm_num

/-- One byte inside the codeword advances the decoder loop without emitting
anything. -/
theorem c1_step (x L op u w0 t0 t : Nat) (rest : List Nat) (hop : op ≤ 7)
    (hw : w0 = if op = 7 then 8 else 7 - op)
    (ht0 : t0 = if op = 7 then 2 else 1)
    (hbit0 : x.testBit 0 = true) (hbit1 : x.testBit 1 = false) (hna : nonAdjAll x)
    (h1 : t0 ≤ t) (ht : 8 * t + 1 ≤ op + L) :
    fibdecodeLoop 1 (c1Tail x L op u t rest)
      ((c1Stream x L op u >>> (8 * (t - 1))) % 2 ^ 8)
      (fibTable1 ((c1Stream x L op u >>> (8 * (t - 1))) % 2 ^ 8))
      (fbufG w0 x (t - t0)) [] =
    fibdecodeLoop 1 (c1Tail x L op u (t + 1) rest)
      ((c1Stream x L op u >>> (8 * t)) % 2 ^ 8)
      (fibTable1 ((c1Stream x L op u >>> (8 * t)) % 2 ^ 8))
      (fbufG w0 x (t + 1 - t0)) [] := by
  have ht02 : 1 ≤ t0 ∧ (op = 7 → t0 = 2) := by
    rw [ht0]
    by_cases h : op = 7
    · rw [if_pos h]
      exact ⟨by norm_num, fun _ => rfl⟩
    · rw [if_neg h]
      exact ⟨le_refl 1, fun hc => absurd hc h⟩
  have ht1 : 1 ≤ t := le_trans ht02.1 h1
  have hcase : op ≤ 6 ∨ 2 ≤ t := by
    by_cases h : op = 7
    · right
      have := ht02.2 h
      omega
    · left
      omega
  have hop2 : op + 2 ≤ 8 * t := by
    rcases hcase with h | h <;> omega
  have hnb : t < (op + L) / 8 + 2 := by omega
  rw [c1Tail_cons x L op u t rest hnb]
  simp only [fibdecodeLoop]
  have hlow := c1_byteLow x L op u t hop ht1 ht
  have htopiff := c1_byteTop x L op u t hop ht1 (by omega) hcase
  have hbit78 : x.testBit (8 * t - op - 1) = true → x.testBit (8 * t - op - 2) = false := by
    intro hb1
    rcases Bool.eq_false_or_eq_true (x.testBit (8 * t - op - 2)) with hb | hb
    · exfalso
      refine hna (8 * t - op - 2) ⟨hb, ?_⟩
      rw [show 8 * t - op - 2 + 1 = 8 * t - op - 1 by omega]
      exact hb1
    · exact hb
  have hpr : (if ((c1Stream x L op u >>> (8 * t)) % 2 ^ 8) &&& 1 = 1 ∧
      (fibTable1 ((c1Stream x L op u >>> (8 * t)) % 2 ^ 8)).shift > 0
      then fibTable2 ((c1Stream x L op u >>> (8 * (t - 1))) % 2 ^ 8)
      else fibTable1 ((c1Stream x L op u >>> (8 * (t - 1))) % 2 ^ 8)) =
      fibTable1 ((c1Stream x L op u >>> (8 * (t - 1))) % 2 ^ 8) := by
    by_cases hc1 : ((c1Stream x L op u >>> (8 * t)) % 2 ^ 8) &&& 1 = 1
    · have htop : ((c1Stream x L op u >>> (8 * (t - 1))) % 2 ^ 8) &&& 128 = 0 :=
        htopiff.2 (hbit78 (hlow.1 hc1))
      have hft2 : fibTable2 ((c1Stream x L op u >>> (8 * (t - 1))) % 2 ^ 8) =
          fibTable1 ((c1Stream x L op u >>> (8 * (t - 1))) % 2 ^ 8) := by
        unfold fibTable2
        rw [if_neg (fun hcon => hcon htop)]
      rw [hft2, ite_self]
    · rw [if_neg (fun hcon => hc1 hcon.1)]
  rw [hpr]
  have hnums := c1_prevPhase x L op u w0 t0 t hop hw ht0 hbit0 hbit1 hna h1 (by omega)
  simp only [hnums]
  have hnot : ¬((((c1Stream x L op u >>> (8 * t)) % 2 ^ 8) &&& 1 = 1 ∧
      (fibTable1 ((c1Stream x L op u >>> (8 * t)) % 2 ^ 8)).shift > 0) ∧
      ((c1Stream x L op u >>> (8 * (t - 1))) % 2 ^ 8) &&& 0x80 ≠ 0) := by
    rintro ⟨⟨hc1, _⟩, hend⟩
    exact hend (htopiff.2 (hbit78 (hlow.1 hc1)))
  rw [if_neg hnot, show t - t0 + 1 = t + 1 - t0 by omega]


/-- Chaining byte steps from the first chain byte up to any byte still
touching the codeword. -/
theorem c1_chain (x L op u w0 t0 : Nat) (rest : List Nat) (hop : op ≤ 7)
    (hw : w0 = if op = 7 then 8 else 7 - op)
    (ht0 : t0 = if op = 7 then 2 else 1)
    (hbit0 : x.testBit 0 = true) (hbit1 : x.testBit 1 = false) (hna : nonAdjAll x) :
    ∀ d, 8 * (t0 + d) ≤ op + L + 7 →
    fibdecodeLoop 1 (c1Tail x L op u t0 rest)
      ((c1Stream x L op u >>> (8 * (t0 - 1))) % 2 ^ 8)
      (fibTable1 ((c1Stream x L op u >>> (8 * (t0 - 1))) % 2 ^ 8))
      (fbufG w0 x (t0 - t0)) [] =
    fibdecodeLoop 1 (c1Tail x L op u (t0 + d) rest)
      ((c1Stream x L op u >>> (8 * (t0 + d - 1))) % 2 ^ 8)
      (fibTable1 ((c1Stream x L op u >>> (8 * (t0 + d - 1))) % 2 ^ 8))
      (fbufG w0 x (t0 + d - t0)) [] := by
  intro d
  induction d with
  | zero => intro _; rfl
  | succ d ih =>
    intro hd
    rw [ih (by omega)]
    have hstep := c1_step x L op u w0 t0 (t0 + d) rest hop hw ht0 hbit0 hbit1 hna
      (by omega) (by omega)
    rw [hstep, show t0 + d + 1 = t0 + (d + 1) by omega,
      show t0 + (d + 1) - 1 = t0 + d by omega]

/-- Entering the chain: the head byte (and, at start offset 7, the straddling
first pair) is consumed without flushing anything. -/
theorem c1_entry (x L op u w0 t0 : Nat) (rest : List Nat) (hop : op ≤ 7)
    (hw : w0 = if op = 7 then 8 else 7 - op)
    (ht0 : t0 = if op = 7 then 2 else 1)
    (hbit0 : x.testBit 0 = true) (hbit1 : x.testBit 1 = false) (hna : nonAdjAll x)
    (hx : x < 2 ^ (L - 1)) (hL3 : 3 ≤ L) (h8 : 8 ≤ op + L) :
    fibdecode (c1Tail x L op u 0 rest) 1 =
      fibdecodeLoop 1 (c1Tail x L op u t0 rest)
        ((c1Stream x L op u >>> (8 * (t0 - 1))) % 2 ^ 8)
        (fibTable1 ((c1Stream x L op u >>> (8 * (t0 - 1))) % 2 ^ 8))
        (fbufG w0 x (t0 - t0)) [] := by
  by_cases hop7 : op = 7
  · subst hop7
    rw [if_pos rfl] at ht0
    subst ht0
    rw [c1Tail_cons x L 7 u 0 rest (by omega), c1Tail_cons x L 7 u 1 rest (by omega)]
    have hb0 : (c1Stream x L 7 u >>> (8 * 0)) % 2 ^ 8 = 128 := by
      rw [show 8 * 0 = 0 by norm_num, Nat.shiftRight_zero]
      exact c1_byte0_op7 x L u (by omega)
    rw [hb0]
    show fibdecodeLoop 1
      (((c1Stream x L 7 u >>> (8 * 1)) % 2 ^ 8) :: c1Tail x L 7 u (1 + 1) rest)
      128 (fibTable1 128) [] [] = _
    have hb1lt : (c1Stream x L 7 u >>> (8 * 1)) % 2 ^ 8 < 2 ^ 8 :=
      Nat.mod_lt _ (by norm_num)
    have hb1bits : ((c1Stream x L 7 u >>> (8 * 1)) % 2 ^ 8).testBit 0 = x.testBit 0 ∧
        ((c1Stream x L 7 u >>> (8 * 1)) % 2 ^ 8).testBit 1 = x.testBit 1 := by
      rcases Nat.lt_or_ge (7 + L) 16 with hq1 | hq2
      · have hfl := c1_byte_flush x L 7 u 1 (le_refl 7) (le_refl 1) (by omega)
          (by omega) hx
        rw [show (8 : Nat) * 1 = 8 by norm_num] at hfl
        rw [show (8 : Nat) * 1 = 8 by norm_num, hfl,
          show 8 - 7 - 1 = 0 by norm_num, Nat.shiftRight_zero]
        have hylt : x < 2 ^ (7 + L - 8 * 1) := by
          have : L - 1 ≤ 7 + L - 8 * 1 := by omega
          exact lt_of_lt_of_le hx (Nat.pow_le_pow_right (by norm_num) this)
        rw [show (8 : Nat) * 1 = 8 by norm_num] at hylt
        constructor
        · exact testBit_add_mul_pow_low x _ _ 0 hylt (by omega)
        · exact testBit_add_mul_pow_low x _ _ 1 hylt (by omega)
      · have hd := c1_byte_digit x L 7 u 1 (le_refl 7) (le_refl 1) (by omega)
        rw [show 8 * 1 - 7 - 1 = 0 by norm_num, Nat.shiftRight_zero] at hd
        rw [hd]
        constructor
        · rw [Nat.testBit_mod_two_pow]
          norm_num
        · rw [Nat.testBit_mod_two_pow]
          norm_num
    have hb1m4 : ((c1Stream x L 7 u >>> (8 * 1)) % 2 ^ 8) % 4 = 1 := by
      apply mod4_of_bits1
      · rw [hb1bits.1]
        exact hbit0
      · rw [hb1bits.2]
        exact hbit1
    have hcond1 : ((c1Stream x L 7 u >>> (8 * 1)) % 2 ^ 8) &&& 1 = 1 ∧
        (fibTable1 ((c1Stream x L 7 u >>> (8 * 1)) % 2 ^ 8)).shift > 0 := by
      constructor
      · rw [and1_iff _ hb1lt, hb1bits.1]
        exact hbit0
      · exact table1_shiftpos1 _ hb1lt hb1m4
    have hrec : (if ((c1Stream x L 7 u >>> (8 * 1)) % 2 ^ 8) &&& 1 = 1 ∧
        (fibTable1 ((c1Stream x L 7 u >>> (8 * 1)) % 2 ^ 8)).shift > 0
        then fibTable2 128 else fibTable1 128) = ⟨7, [], 0⟩ := by
      rw [if_pos hcond1]
      have hstr := table2_straddle 0 (by norm_num) (by decide)
      rw [show (0 : Nat) + 128 = 128 by norm_num] at hstr
      rw [hstr]
      rfl
    have hdisc := loop_straddle_discard 128 ((c1Stream x L 7 u >>> (8 * 1)) % 2 ^ 8)
      7 0 [] (c1Tail x L 7 u (1 + 1) rest) hrec (by norm_num)
      ⟨hcond1, by decide⟩ (by decide)
    rw [hdisc]
    rfl
  · rw [if_neg hop7] at ht0
    subst ht0
    rw [c1Tail_cons x L op u 0 rest (by omega)]
    rfl


theorem bit7_decomp (b : Nat) (hb : b < 2 ^ 8) (h7 : b.testBit 7 = true) :
    b = b % 2 ^ 7 + 128 := by
  rw [Nat.testBit_to_div_mod, decide_eq_true_eq] at h7
  norm_num at h7 hb ⊢
  omega

/-- A byte starting `1 1 1 1 0` (a codeword end, a pad, and a codeword start
all merged): the codeword boundary scan completes at the byte start. -/
theorem table1_shift0_15 : ∀ b < 256, b % 32 = 15 → (fibTable1 b).shift = 0 := by
  decide

theorem flush_finish (bq bq1 o M : Nat) (FB rest : List Nat) (R : fibRecord)
    (hrecsel : (if bq1 &&& 1 = 1 ∧ (fibTable1 bq1).shift > 0 then fibTable2 bq
      else fibTable1 bq) = R)
    (hsh : R.shift = o) (hinc : R.incomplete = wval (bq % 2 ^ o) o 1)
    (hnn : R.numbers ≠ [])
    (hdec1 : 1 ≤ o → decodeBuffer (FB ++ [wval (bq % 2 ^ o) o 1]) o = M)
    (hdec0 : o = 0 → decodeBuffer FB 8 = M)
    (hM : 2 ≤ M) :
    fibdecodeLoop 1 (bq1 :: rest) bq (fibTable1 bq) FB [] = [M - 2] := by
  obtain ⟨n0, ns, hns⟩ := List.exists_cons_of_ne_nil hnn
  have heta : R = ⟨R.shift, R.numbers, R.incomplete⟩ := rfl
  by_cases ho0 : o = 0
  · subst ho0
    have hR : R = ⟨0, n0 :: ns, wval (bq % 2 ^ 0) 0 1⟩ := by
      rw [heta, hsh, hns, hinc]
    exact loop_flush_zero bq bq1 (wval (bq % 2 ^ 0) 0 1) M n0 ns FB rest
      (by rw [hrecsel, hR]) (hdec0 rfl) hM
  · have hR : R = ⟨o, n0 :: ns, wval (bq % 2 ^ o) o 1⟩ := by
      rw [heta, hsh, hns, hinc]
    exact loop_flush_pos bq bq1 o (wval (bq % 2 ^ o) o 1) M n0 ns FB rest
      (by rw [hrecsel, hR]) (by omega) (hdec1 (by omega)) hM

/-- The flush iteration: the byte holding the closing `11` pair was carried
as the previous record; the next byte's shape steers the decoder through the
normal, reread, or boundary path, and in every case the codeword value `M`
is flushed. -/
theorem c1_flush (o u bq bq1 M : Nat) (FB rest : List Nat)
    (ho : o ≤ 7)
    (hblt : bq < 2 ^ 8) (hb1lt : bq1 < 2 ^ 8)
    (hnaq : nonAdjW bq o)
    (hbit : ∀ r, o + r ≤ 7 → bq.testBit (o + r) = u.testBit r)
    (hbq1 : ∀ r, r ≤ 7 → bq1.testBit r = u.testBit (8 - o + r))
    (hu4 : u % 4 = 3)
    (huP : u.testBit 2 = true → u.testBit 3 = true ∧ u.testBit 4 = false)
    (hna7 : o = 7 → nonAdjW (bq % 2 ^ 7) 7)
    (hdec1 : 1 ≤ o → decodeBuffer (FB ++ [wval (bq % 2 ^ o) o 1]) o = M)
    (hdec0 : o = 0 → decodeBuffer FB 8 = M)
    (hM : 2 ≤ M) :
    fibdecodeLoop 1 (bq1 :: rest) bq (fibTable1 bq) FB [] = [M - 2] := by
  have hu0 : u.testBit 0 = true := (mod4_bits u hu4).1
  have hu1 : u.testBit 1 = true := (mod4_bits u hu4).2
  have hbo : bq.testBit o = u.testBit 0 := by
    have h := hbit 0 (by omega)
    rw [Nat.add_zero] at h
    exact h
  by_cases ho7 : o = 7
  · subst ho7
    have hb7 : bq.testBit 7 = true := by
      rw [hbo]
      exact hu0
    have hbdec : bq = bq % 2 ^ 7 + 128 := bit7_decomp bq hblt hb7
    have hmlt : bq % 2 ^ 7 < 128 := by
      have h := Nat.mod_lt bq (y := 2 ^ 7) (by norm_num)
      omega
    have hstr := table2_straddle (bq % 2 ^ 7) hmlt (hna7 rfl)
    have h2T : fibTable2 bq = ⟨7, [], wval (bq % 2 ^ 7) 7 1⟩ := by
      have he : fibTable2 bq = fibTable2 (bq % 2 ^ 7 + 128) := by rw [← hbdec]
      rw [he, hstr]
    have hb1bit0 : bq1.testBit 0 = true := by
      rw [hbq1 0 (by norm_num)]
      exact hu1
    have hc1 : bq1 &&& 1 = 1 := by
      rw [and1_iff _ hb1lt]
      exact hb1bit0
    have hshp : 0 < (fibTable1 bq1).shift := by
      by_cases hu2 : u.testBit 2 = true
      · obtain ⟨hu3, hu4b⟩ := huP hu2
        refine table1_shiftpos7 _ hb1lt (mod16_of_bits7 _ ?_ ?_ ?_ ?_)
        · rw [hbq1 0 (by norm_num)]
          exact hu1
        · rw [hbq1 1 (by norm_num)]
          exact hu2
        · rw [hbq1 2 (by norm_num)]
          exact hu3
        · rw [hbq1 3 (by norm_num)]
          exact hu4b
      · have hu2f : u.testBit 2 = false := by
          rcases Bool.eq_false_or_eq_true (u.testBit 2) with h | h
          · exact absurd h hu2
          · exact h
        refine table1_shiftpos1 _ hb1lt (mod4_of_bits1 _ ?_ ?_)
        · rw [hbq1 0 (by norm_num)]
          exact hu1
        · rw [hbq1 1 (by norm_num)]
          exact hu2f
    have htop : bq &&& 128 = 128 := by
      have h := top_set (bq % 2 ^ 7) hmlt
      calc bq &&& 128 = (bq % 2 ^ 7 + 128) &&& 128 := by rw [← hbdec]
        _ = 128 := h
    have hcond : (bq1 &&& 1 = 1 ∧ (fibTable1 bq1).shift > 0) ∧ bq &&& 0x80 ≠ 0 := by
      refine ⟨⟨hc1, hshp⟩, ?_⟩
      rw [htop]
      norm_num
    exact loop_flush_straddle bq bq1 7 (wval (bq % 2 ^ 7) 7 1) M FB rest
      (by rw [if_pos hcond.1, h2T]) (by norm_num) hcond (hdec1 (by norm_num)) hM
  · have ho6 : o ≤ 6 := by omega
    have hbo1 : bq.testBit (o + 1) = u.testBit 1 := hbit 1 (by omega)
    have hp0 : bq.testBit o = true := by
      rw [hbo]
      exact hu0
    have hp1 : bq.testBit (o + 1) = true := by
      rw [hbo1]
      exact hu1
    have hu2e : u.testBit 2 = true ∨ u.testBit 2 = false :=
      Bool.eq_false_or_eq_true (u.testBit 2)
    have hFHX : flushHyp bq o ∨ (o = 5 ∧ u.testBit 2 = true) := by
      rcases hu2e with hu2 | hu2f
      · by_cases ho5 : o = 5
        · right
          exact ⟨ho5, hu2⟩
        · left
          refine ⟨hnaq, hp0, hp1, ?_⟩
          by_cases ho56 : o = 6
          · left
            intro hcon
            omega
          · right
            obtain ⟨hu3, hu4b⟩ := huP hu2
            refine ⟨by omega, ?_, fun _ => ?_, fun _ => ?_⟩
            · rw [hbit 2 (by omega)]
              exact hu2
            · rw [hbit 3 (by omega)]
              exact hu3
            · rw [hbit 4 (by omega)]
              exact hu4b
      · left
        refine ⟨hnaq, hp0, hp1, Or.inl fun h2 => ?_⟩
        rw [hbit 2 (by omega)]
        exact hu2f
    by_cases hc' : bq1 &&& 1 = 1 ∧ (fibTable1 bq1).shift > 0
    · by_cases hb7 : bq.testBit 7 = true
      · have hFH2X : (flushHyp2 bq o ∧ o < 6) ∨ o = 6 ∨
            (o = 4 ∧ u.testBit 2 = true) := by
          by_cases ho56 : o = 6
          · right
            left
            exact ho56
          · rcases hu2e with hu2 | hu2f
            · by_cases ho5 : o = 5
              · left
                exact ⟨⟨hb7, hnaq, hp0, hp1, Or.inr (Or.inl ho5)⟩, by omega⟩
              · by_cases ho4 : o = 4
                · right
                  right
                  exact ⟨ho4, hu2⟩
                · left
                  obtain ⟨hu3, hu4b⟩ := huP hu2
                  refine ⟨⟨hb7, hnaq, hp0, hp1, Or.inr (Or.inr
                    ⟨by omega, ?_, ?_, fun _ => ?_⟩)⟩, by omega⟩
                  · rw [hbit 2 (by omega)]
                    exact hu2
                  · rw [hbit 3 (by omega)]
                    exact hu3
                  · rw [hbit 4 (by omega)]
                    exact hu4b
            · left
              refine ⟨⟨hb7, hnaq, hp0, hp1, Or.inl fun h2 => ?_⟩, by omega⟩
              rw [hbit 2 (by omega)]
              exact hu2f
        rcases hFH2X with ⟨hFH2, ho5'⟩ | ho6' | ⟨ho4, hu2⟩
        · obtain ⟨hT2s, hT2i, hT2n⟩ := table2_flush bq hblt o ho5' hFH2
          exact flush_finish bq bq1 o M FB rest (fibTable2 bq) (if_pos hc')
            hT2s hT2i hT2n hdec1 hdec0 hM
        · exfalso
          subst ho6'
          rcases hu2e with hu2 | hu2f
          · obtain ⟨hu3, hu4b⟩ := huP hu2
            have hsh0 : (fibTable1 bq1).shift = 0 := by
              refine table1_shift0 _ hb1lt (mod8_of_bits3 _ ?_ ?_ ?_)
              · rw [hbq1 0 (by norm_num)]
                exact hu2
              · rw [hbq1 1 (by norm_num)]
                exact hu3
              · rw [hbq1 2 (by norm_num)]
                exact hu4b
            have := hc'.2
            omega
          · have h0 : bq1.testBit 0 = false := by
              rw [hbq1 0 (by norm_num)]
              exact hu2f
            have h1 := (and1_iff bq1 hb1lt).mp hc'.1
            rw [h0] at h1
            exact Bool.noConfusion h1
        · exfalso
          subst ho4
          obtain ⟨hu3, hu4b⟩ := huP hu2
          have h0 : bq1.testBit 0 = false := by
            rw [hbq1 0 (by norm_num)]
            exact hu4b
          have h1 := (and1_iff bq1 hb1lt).mp hc'.1
          rw [h0] at h1
          exact Bool.noConfusion h1
      · have hb7f : bq.testBit 7 = false := by
          rcases Bool.eq_false_or_eq_true (bq.testBit 7) with h | h
          · exact absurd h hb7
          · exact h
        have hft2 : fibTable2 bq = fibTable1 bq := by
          unfold fibTable2
          rw [if_neg]
          intro hcon
          exact hcon ((and128_iff bq hblt).mpr hb7f)
        rcases hFHX with hFH | ⟨ho5, hu2⟩
        · obtain ⟨hT1s, hT1i, hT1n⟩ := table1_flush bq hblt o (by omega) hFH
          refine flush_finish bq bq1 o M FB rest (fibTable1 bq) ?_
            hT1s hT1i hT1n hdec1 hdec0 hM
          rw [if_pos hc', hft2]
        · exfalso
          subst ho5
          have h72 : bq.testBit 7 = true := by
            have h := hbit 2 (by norm_num)
            rw [show (5 : Nat) + 2 = 7 from rfl] at h
            rw [h]
            exact hu2
          rw [h72] at hb7f
          exact Bool.noConfusion hb7f
    · rcases hFHX with hFH | ⟨ho5, hu2⟩
      · obtain ⟨hT1s, hT1i, hT1n⟩ := table1_flush bq hblt o (by omega) hFH
        exact flush_finish bq bq1 o M FB rest (fibTable1 bq) (if_neg hc')
          hT1s hT1i hT1n hdec1 hdec0 hM
      · exfalso
        subst ho5
        obtain ⟨hu3, hu4b⟩ := huP hu2
        refine hc' ⟨?_, ?_⟩
        · rw [and1_iff _ hb1lt, hbq1 0 (by norm_num)]
          exact hu3
        · refine table1_shiftpos1 _ hb1lt (mod4_of_bits1 _ ?_ ?_)
          · rw [hbq1 0 (by norm_num)]
            exact hu3
          · rw [hbq1 1 (by norm_num)]
            exact hu4b


/-- Processing the flush byte when the closing pair is a whole byte ahead
(terminator offset 0): the byte after the codeword does not start a
detection, so the carried record passes through unchanged. -/
theorem c1_step0 (x L op u w0 t0 q : Nat) (rest : List Nat) (hop : op ≤ 7)
    (hw : w0 = if op = 7 then 8 else 7 - op)
    (ht0 : t0 = if op = 7 then 2 else 1)
    (hbit0 : x.testBit 0 = true) (hbit1 : x.testBit 1 = false) (hna : nonAdjAll x)
    (hx : x < 2 ^ (L - 1))
    (hu4 : u % 4 = 3)
    (huP : u.testBit 2 = true → u.testBit 3 = true ∧ u.testBit 4 = false)
    (h1 : t0 ≤ q) (hq8 : 8 * q = op + L) :
    fibdecodeLoop 1 (c1Tail x L op u q rest)
      ((c1Stream x L op u >>> (8 * (q - 1))) % 2 ^ 8)
      (fibTable1 ((c1Stream x L op u >>> (8 * (q - 1))) % 2 ^ 8))
      (fbufG w0 x (q - t0)) [] =
    fibdecodeLoop 1 (c1Tail x L op u (q + 1) rest)
      ((c1Stream x L op u >>> (8 * q)) % 2 ^ 8)
      (fibTable1 ((c1Stream x L op u >>> (8 * q)) % 2 ^ 8))
      (fbufG w0 x (q + 1 - t0)) [] := by
  have ht02 : 1 ≤ t0 := by
    rw [ht0]
    by_cases h : op = 7
    · rw [if_pos h]
      norm_num
    · rw [if_neg h]
  have hq1 : 1 ≤ q := le_trans ht02 h1
  have hbq : (c1Stream x L op u >>> (8 * q)) % 2 ^ 8 = u % 2 ^ 8 := by
    have hbf := c1_byte_flush x L op u q hop hq1 (by omega) (by omega) hx
    have hy0 : x >>> (8 * q - op - 1) = 0 := by
      have h : x >>> (8 * q - op - 1) < 2 ^ 0 := by
        apply shiftRight_lt_pow
        rw [show 8 * q - op - 1 + 0 = L - 1 by omega]
        exact hx
      rw [pow_zero] at h
      exact Nat.lt_one_iff.mp h
    rw [hbf, hy0, show op + L - 8 * q = 0 by omega, Nat.zero_add, pow_zero,
      mul_one, Nat.sub_zero]
  have hblt : u % 2 ^ 8 < 2 ^ 8 := Nat.mod_lt _ (by norm_num)
  have hub : ∀ r, r < 8 → (u % 2 ^ 8).testBit r = u.testBit r := by
    intro r hr
    rw [Nat.testBit_mod_two_pow, decide_eq_true hr, Bool.true_and]
  have hu0 : u.testBit 0 = true := (mod4_bits u hu4).1
  have hu1 : u.testBit 1 = true := (mod4_bits u hu4).2
  have hsh0 : (fibTable1 (u % 2 ^ 8)).shift = 0 := by
    rcases Bool.eq_false_or_eq_true (u.testBit 2) with hu2 | hu2f
    · obtain ⟨hu3, hu4b⟩ := huP hu2
      refine table1_shift0_15 _ hblt (mod32_of_bits15 _ ?_ ?_ ?_ ?_ ?_)
      · rw [hub 0 (by norm_num)]
        exact hu0
      · rw [hub 1 (by norm_num)]
        exact hu1
      · rw [hub 2 (by norm_num)]
        exact hu2
      · rw [hub 3 (by norm_num)]
        exact hu3
      · rw [hub 4 (by norm_num)]
        exact hu4b
    · refine table1_shift0 _ hblt (mod8_of_bits3 _ ?_ ?_ ?_)
      · rw [hub 0 (by norm_num)]
        exact hu0
      · rw [hub 1 (by norm_num)]
        exact hu1
      · rw [hub 2 (by norm_num)]
        exact hu2f
  have hc' : ¬(((c1Stream x L op u >>> (8 * q)) % 2 ^ 8) &&& 1 = 1 ∧
      (fibTable1 ((c1Stream x L op u >>> (8 * q)) % 2 ^ 8)).shift > 0) := by
    rw [hbq]
    rintro ⟨_, hs⟩
    omega
  have hnb : q < (op + L) / 8 + 2 := by omega
  rw [c1Tail_cons x L op u q rest hnb]
  simp only [fibdecodeLoop]
  rw [if_neg hc']
  have hnums := c1_prevPhase x L op u w0 t0 q hop hw ht0 hbit0 hbit1 hna h1 (by omega)
  simp only [hnums]
  rw [if_neg (fun hcon => hc' hcon.1), show q - t0 + 1 = q + 1 - t0 by omega]

/-- Decoding one codeword at offset `op` followed by the continuation `u`,
when the codeword reaches past the first byte. -/
theorem c1_decode_main (x L op u : Nat) (rest : List Nat)
    (hop : op ≤ 7) (hL3 : 3 ≤ L)
    (hx : x < 2 ^ (L - 1))
    (hbit0 : x.testBit 0 = true) (hbit1 : x.testBit 1 = false) (hna : nonAdjAll x)
    (hu4 : u % 4 = 3)
    (huP : u.testBit 2 = true → u.testBit 3 = true ∧ u.testBit 4 = false)
    (h8 : 8 ≤ op + L)
    (hM : 2 ≤ wval x (L - 1) 1) :
    fibdecode (c1Tail x L op u 0 rest) 1 = [wval x (L - 1) 1 - 2] := by
  obtain ⟨w0, t0, hw, ht0⟩ :
      ∃ w0 t0, w0 = (if op = 7 then 8 else 7 - op) ∧ t0 = (if op = 7 then 2 else 1) :=
    ⟨_, _, rfl, rfl⟩
  have hwt : (op = 7 ∧ w0 = 8 ∧ t0 = 2) ∨ (op ≤ 6 ∧ w0 = 7 - op ∧ t0 = 1) := by
    by_cases h : op = 7
    · left
      rw [hw, ht0, if_pos h, if_pos h]
      exact ⟨h, rfl, rfl⟩
    · right
      rw [hw, ht0, if_neg h, if_neg h]
      exact ⟨by omega, rfl, rfl⟩
  have hw1 : 1 ≤ w0 := by rcases hwt with ⟨_, h, _⟩ | ⟨h6, h, _⟩ <;> omega
  have hw8 : w0 ≤ 8 := by rcases hwt with ⟨_, h, _⟩ | ⟨h6, h, _⟩ <;> omega
  have hq1 : 1 ≤ (op + L) / 8 := by omega
  have htq1 : t0 ≤ (op + L) / 8 + 1 := by
    rcases hwt with ⟨h7, _, h2⟩ | ⟨h6, _, h2⟩ <;> omega
  have hqt7 : op = 7 → (op + L) % 8 = 0 → 2 ≤ (op + L) / 8 := by
    intro h7 h0
    omega
  -- reach the state entering the flush byte's processing
  have hentry := c1_entry x L op u w0 t0 rest hop hw ht0 hbit0 hbit1 hna hx hL3 h8
  have hstate : fibdecode (c1Tail x L op u 0 rest) 1 =
      fibdecodeLoop 1 (c1Tail x L op u ((op + L) / 8 + 1) rest)
        ((c1Stream x L op u >>> (8 * ((op + L) / 8))) % 2 ^ 8)
        (fibTable1 ((c1Stream x L op u >>> (8 * ((op + L) / 8))) % 2 ^ 8))
        (fbufG w0 x ((op + L) / 8 + 1 - t0)) [] := by
    by_cases ho0 : (op + L) % 8 = 0
    · have htq : t0 ≤ (op + L) / 8 := by
        rcases hwt with ⟨h7, _, h2⟩ | ⟨h6, _, h2⟩
        · have := hqt7 h7 ho0
          omega
        · omega
      have hchain := c1_chain x L op u w0 t0 rest hop hw ht0 hbit0 hbit1 hna
        ((op + L) / 8 - t0) (by omega)
      rw [show t0 + ((op + L) / 8 - t0) = (op + L) / 8 by omega] at hchain
      have hstep0 := c1_step0 x L op u w0 t0 ((op + L) / 8) rest hop hw ht0
        hbit0 hbit1 hna hx hu4 huP htq (by omega)
      rw [hentry, hchain, hstep0]
    · have hchain := c1_chain x L op u w0 t0 rest hop hw ht0 hbit0 hbit1 hna
        ((op + L) / 8 + 1 - t0) (by omega)
      rw [show t0 + ((op + L) / 8 + 1 - t0) = (op + L) / 8 + 1 by omega] at hchain
      rw [hentry, hchain, show (op + L) / 8 + 1 - 1 = (op + L) / 8 from rfl]
  rw [hstate, c1Tail_cons x L op u ((op + L) / 8 + 1) rest (by omega)]
  -- byte values at the flush
  have hoeq : op + L - 8 * ((op + L) / 8) = (op + L) % 8 := by omega
  have hylt : x >>> (8 * ((op + L) / 8) - op - 1) < 2 ^ ((op + L) % 8) := by
    apply shiftRight_lt_pow
    rw [show 8 * ((op + L) / 8) - op - 1 + (op + L) % 8 = L - 1 by omega]
    exact hx
  have hbf : (c1Stream x L op u >>> (8 * ((op + L) / 8))) % 2 ^ 8 =
      x >>> (8 * ((op + L) / 8) - op - 1) +
        (u % 2 ^ (8 - (op + L) % 8)) * 2 ^ ((op + L) % 8) := by
    have h := c1_byte_flush x L op u ((op + L) / 8) hop hq1 (by omega) (by omega) hx
    rw [hoeq] at h
    exact h
  have hbn : (c1Stream x L op u >>> (8 * ((op + L) / 8 + 1))) % 2 ^ 8 =
      (u >>> (8 - (op + L) % 8)) % 2 ^ 8 := by
    have h := c1_byte_next x L op u ((op + L) / 8) hop hq1 (by omega) (by omega) hx
    rw [hoeq] at h
    exact h
  have hblt : (c1Stream x L op u >>> (8 * ((op + L) / 8))) % 2 ^ 8 < 2 ^ 8 :=
    Nat.mod_lt _ (by norm_num)
  have hb1lt : (c1Stream x L op u >>> (8 * ((op + L) / 8 + 1))) % 2 ^ 8 < 2 ^ 8 :=
    Nat.mod_lt _ (by norm_num)
  have hnaq : nonAdjW ((c1Stream x L op u >>> (8 * ((op + L) / 8))) % 2 ^ 8)
      ((op + L) % 8) := by
    apply nonAdjW_congr _ (x >>> (8 * ((op + L) / 8) - op - 1))
    · intro t htlt
      rw [hbf]
      exact testBit_add_mul_pow_low _ _ _ t hylt htlt
    · exact nonAdjW_shift x _ _ hna
  have hbit : ∀ r, (op + L) % 8 + r ≤ 7 →
      ((c1Stream x L op u >>> (8 * ((op + L) / 8))) % 2 ^ 8).testBit ((op + L) % 8 + r) =
        u.testBit r := by
    intro r hr
    rw [hbf, testBit_add_mul_pow _ _ _ r hylt, Nat.testBit_mod_two_pow,
      decide_eq_true (by omega : r < 8 - (op + L) % 8), Bool.true_and]
  have hbq1 : ∀ r, r ≤ 7 →
      ((c1Stream x L op u >>> (8 * ((op + L) / 8 + 1))) % 2 ^ 8).testBit r =
        u.testBit (8 - (op + L) % 8 + r) := by
    intro r hr
    rw [hbn, window_testBit, decide_eq_true (by omega : r < 8), Bool.true_and]
  have hmody : (c1Stream x L op u >>> (8 * ((op + L) / 8))) % 2 ^ 8 %
      2 ^ ((op + L) % 8) = x >>> (8 * ((op + L) / 8) - op - 1) := by
    rw [hbf, Nat.add_mul_mod_self_right, Nat.mod_eq_of_lt hylt]
  have hna7 : (op + L) % 8 = 7 →
      nonAdjW ((c1Stream x L op u >>> (8 * ((op + L) / 8))) % 2 ^ 8 % 2 ^ 7) 7 := by
    intro h7
    rw [show (2 : Nat) ^ 7 = 2 ^ ((op + L) % 8) by rw [h7], hmody]
    exact nonAdjW_shift x _ _ hna
  have hE : (op + L) % 8 = 0 ∨ 8 * ((op + L) / 8 + 1 - t0 - 1) + w0 =
      8 * ((op + L) / 8) - op - 1 ∨ (op + L) / 8 + 1 - t0 = 0 := by
    rcases hwt with ⟨h7, hw', h2⟩ | ⟨h6, hw', h2⟩
    · rcases Nat.lt_or_ge ((op + L) / 8) 2 with hq2 | hq2
      · right
        right
        omega
      · right
        left
        omega
    · right
      left
      omega
  have hNf : (op + L) / 8 + 1 - t0 = 0 →
      8 * ((op + L) / 8) - op - 1 = 0 ∧ op = 7 ∧ (op + L) / 8 = 1 := by
    intro h0
    rcases hwt with ⟨h7, hw', h2⟩ | ⟨h6, hw', h2⟩ <;> omega
  have hdec1 : 1 ≤ (op + L) % 8 →
      decodeBuffer (fbufG w0 x ((op + L) / 8 + 1 - t0) ++
        [wval ((c1Stream x L op u >>> (8 * ((op + L) / 8))) % 2 ^ 8 %
          2 ^ ((op + L) % 8)) ((op + L) % 8) 1]) ((op + L) % 8) =
      wval x (L - 1) 1 := by
    intro ho1
    rw [hmody]
    rcases Nat.eq_zero_or_pos ((op + L) / 8 + 1 - t0) with h0 | hpos
    · obtain ⟨hz, h7, hq⟩ := hNf h0
      rw [h0, hz]
      show decodeBuffer ([] ++ [wval (x >>> 0) ((op + L) % 8) 1]) ((op + L) % 8) = _
      rw [List.nil_append, Nat.shiftRight_zero]
      show wval x ((op + L) % 8) 1 = wval x (L - 1) 1
      rw [show (op + L) % 8 = L - 1 by omega]
    · have hk : (op + L) / 8 + 1 - t0 = ((op + L) / 8 + 1 - t0 - 1) + 1 := by omega
      have hEk : 8 * ((op + L) / 8 + 1 - t0 - 1) + w0 = 8 * ((op + L) / 8) - op - 1 := by
        rcases hE with h | h | h
        · omega
        · exact h
        · omega
      rw [hk, decodeBuffer_fbufG_append w0 x hw1 hw8 hna _ _ _ (by omega), wval_mod, hEk]
      have hsplit := wval_split x (8 * ((op + L) / 8) - op - 1) ((op + L) % 8) 1
      rw [show (1 : Nat) + (op + L) % 8 = (op + L) % 8 + 1 by omega] at hsplit
      rw [show L - 1 = 8 * ((op + L) / 8) - op - 1 + (op + L) % 8 by omega, hsplit]
  have hdec0 : (op + L) % 8 = 0 →
      decodeBuffer (fbufG w0 x ((op + L) / 8 + 1 - t0)) 8 = wval x (L - 1) 1 := by
    intro ho0
    have hpos : 1 ≤ (op + L) / 8 + 1 - t0 := by
      rcases hwt with ⟨h7, hw', h2⟩ | ⟨h6, hw', h2⟩
      · have := hqt7 h7 ho0
        omega
      · omega
    rw [decodeBuffer_fbufG_full w0 x hw1 hw8 hna _ hpos]
    have hEk : 8 * ((op + L) / 8 + 1 - t0 - 1) + w0 = L - 1 := by
      rcases hwt with ⟨h7, hw', h2⟩ | ⟨h6, hw', h2⟩ <;> omega
    rw [hEk]
  exact c1_flush ((op + L) % 8) u _ _ (wval x (L - 1) 1)
    (fbufG w0 x ((op + L) / 8 + 1 - t0)) (c1Tail x L op u ((op + L) / 8 + 1 + 1) rest)
    (by omega) hblt hb1lt hnaq hbit hbq1 hu4 huP hna7 hdec1 hdec0 hM


/-- Hypotheses for a merged byte rereads (top bit set, closing pair fully in
the byte): cleared bits, codeword start, digits, closing pair, continuation
shaped like a zero bit or a pad head below the dropped top bit. -/
def mergedMidHyp (b op om : Nat) : Prop :=
  op + 3 ≤ om ∧ om ≤ 5 ∧ b % 2 ^ op = 0 ∧ b.testBit op = true ∧
    b.testBit (op + 1) = true ∧ b.testBit (op + 2) = false ∧
    nonAdjW (b >>> (op + 1)) (om - op - 1) ∧
    b.testBit om = true ∧ b.testBit (om + 1) = true ∧ b.testBit 7 = true ∧
    (om + 2 ≤ 6 → b.testBit (om + 2) = false)

instance (b op om : Nat) : Decidable (mergedMidHyp b op om) := by
  unfold mergedMidHyp
  infer_instance

/-- Conclusion of the merged-byte reread analysis. -/
def mergedConc2 (b op om : Nat) : Prop :=
  (fibTable2 b).shift = op ∧ (fibTable2 b).incomplete = 0 ∧
    2 ≤ (fibTable2 b).numbers.length ∧
    (fibTable2 b).numbers.headD 0 =
      wval ((b >>> (op + 1)) % 2 ^ (om - op - 1)) (om - op - 1) 1

instance (b op om : Nat) : Decidable (mergedConc2 b op om) := by
  unfold mergedConc2
  infer_instance

/-- Merged byte on the reread path: the codeword value is still the first
complete number. -/
theorem table2_merged_mid : ∀ b < 256, ∀ op < 5, ∀ om < 6, mergedMidHyp b op om →
    mergedConc2 b op om := by decide


/-- Decoding one codeword at offset `op` when the whole codeword and its
closing pair's bottom bit fit in the first byte. -/
theorem c1_decode_merged (x L op u : Nat) (rest : List Nat)
    (h7 : op + L ≤ 7) (hL3 : 3 ≤ L)
    (hx : x < 2 ^ (L - 1))
    (hbit0 : x.testBit 0 = true) (hbit1 : x.testBit 1 = false) (hna : nonAdjAll x)
    (hu4 : u % 4 = 3)
    (huP : u.testBit 2 = true → u.testBit 3 = true ∧ u.testBit 4 = false)
    (hM : 2 ≤ wval x (L - 1) 1) :
    fibdecode (c1Tail x L op u 0 rest) 1 = [wval x (L - 1) 1 - 2] := by
  have hq0 : (op + L) / 8 = 0 := by omega
  have hu0 : u.testBit 0 = true := (mod4_bits u hu4).1
  have hu1 : u.testBit 1 = true := (mod4_bits u hu4).2
  have hxw : 1 + 2 * x < 2 ^ L := by
    have h2 : (2 : Nat) ^ L = 2 ^ (L - 1) * 2 := by
      rw [pow_split L (L - 1) 1 (by omega), pow_one]
    omega
  have hclt : u % 2 ^ (8 - (op + L)) < 2 ^ (8 - (op + L)) :=
    Nat.mod_lt _ (Nat.pos_pow_of_pos _ (by norm_num))
  have hS : c1Stream x L op u =
      ((1 + 2 * x) + (u % 2 ^ (8 - (op + L))) * 2 ^ L) * 2 ^ op +
        (u >>> (8 - (op + L))) * 2 ^ 8 := by
    show (1 + 2 * x) * 2 ^ op + u * 2 ^ (op + L) = _
    have hmd := Nat.mod_add_div u (2 ^ (8 - (op + L)))
    have hp8 : (2 : Nat) ^ 8 = 2 ^ (8 - (op + L)) * 2 ^ (op + L) :=
      pow_split _ _ _ (by omega)
    have hsplitP : (2 : Nat) ^ (op + L) = 2 ^ L * 2 ^ op := by
      rw [← pow_add]
      congr 1
      omega
    rw [Nat.shiftRight_eq_div_pow]
    calc (1 + 2 * x) * 2 ^ op + u * 2 ^ (op + L)
        = (1 + 2 * x) * 2 ^ op +
          (u % 2 ^ (8 - (op + L)) + 2 ^ (8 - (op + L)) * (u / 2 ^ (8 - (op + L)))) *
            2 ^ (op + L) := by rw [hmd]
      _ = _ := by rw [hp8, hsplitP]; ring
  have hzlt : (1 + 2 * x) + (u % 2 ^ (8 - (op + L))) * 2 ^ L < 2 ^ (8 - op) := by
    apply add_mul_pow_lt _ _ L (8 - op) hxw _ (by omega)
    rw [show 8 - op - L = 8 - (op + L) by omega]
    exact hclt
  have hlowlt : ((1 + 2 * x) + (u % 2 ^ (8 - (op + L))) * 2 ^ L) * 2 ^ op < 2 ^ 8 := by
    calc ((1 + 2 * x) + (u % 2 ^ (8 - (op + L))) * 2 ^ L) * 2 ^ op
        < 2 ^ (8 - op) * 2 ^ op :=
          (Nat.mul_lt_mul_right (Nat.pos_pow_of_pos _ (by norm_num))).mpr hzlt
      _ = 2 ^ 8 := (pow_split 8 (8 - op) op (by omega)).symm
  have hb0 : c1Stream x L op u % 2 ^ 8 =
      ((1 + 2 * x) + (u % 2 ^ (8 - (op + L))) * 2 ^ L) * 2 ^ op := by
    rw [hS, Nat.add_mul_mod_self_right, Nat.mod_eq_of_lt hlowlt]
  have hb1 : (c1Stream x L op u >>> 8) % 2 ^ 8 = (u >>> (8 - (op + L))) % 2 ^ 8 := by
    rw [hS, Nat.shiftRight_eq_div_pow,
      Nat.add_mul_div_right _ _ (Nat.pos_pow_of_pos _ (by norm_num)),
      Nat.div_eq_of_lt hlowlt, Nat.shiftRight_eq_div_pow]
    omega
  have hb0lt : c1Stream x L op u % 2 ^ 8 < 2 ^ 8 := Nat.mod_lt _ (by norm_num)
  have hb1lt : (c1Stream x L op u >>> 8) % 2 ^ 8 < 2 ^ 8 := Nat.mod_lt _ (by norm_num)
  have hb0bit : ∀ t, (c1Stream x L op u % 2 ^ 8).testBit (op + t) =
      ((1 + 2 * x) + (u % 2 ^ (8 - (op + L))) * 2 ^ L).testBit t := by
    intro t
    rw [hb0]
    have h := testBit_add_mul_pow 0 ((1 + 2 * x) + (u % 2 ^ (8 - (op + L))) * 2 ^ L)
      op t (Nat.pos_pow_of_pos _ (by norm_num))
    rw [Nat.zero_add] at h
    exact h
  have hzlow : ∀ t, t < L →
      ((1 + 2 * x) + (u % 2 ^ (8 - (op + L))) * 2 ^ L).testBit t = (1 + 2 * x).testBit t :=
    fun t ht => testBit_add_mul_pow_low _ _ _ t hxw ht
  have hzhigh : ∀ r,
      ((1 + 2 * x) + (u % 2 ^ (8 - (op + L))) * 2 ^ L).testBit (L + r) =
        (u % 2 ^ (8 - (op + L))).testBit r :=
    fun r => testBit_add_mul_pow _ _ _ r hxw
  have hcbit : ∀ r, r < 8 - (op + L) →
      (u % 2 ^ (8 - (op + L))).testBit r = u.testBit r := by
    intro r hr
    rw [Nat.testBit_mod_two_pow, decide_eq_true hr, Bool.true_and]
  have hw0 : (1 + 2 * x).testBit 0 = true := by
    rw [Nat.testBit_to_div_mod, decide_eq_true_eq]
    norm_num
  have hwx : ∀ r, (1 + 2 * x).testBit (r + 1) = x.testBit r := by
    intro r
    have hc : (1 + 2 * x) = 1 + x * 2 ^ 1 := by ring
    rw [hc]
    have h := testBit_add_mul_pow 1 x 1 r (by norm_num)
    rw [show (1 : Nat) + r = r + 1 by omega] at h
    exact h
  have hb0high : ∀ r, r < 8 - (op + L) →
      (c1Stream x L op u % 2 ^ 8).testBit (op + L + r) = u.testBit r := by
    intro r hr
    have h := hb0bit (L + r)
    rw [show op + (L + r) = op + L + r by omega] at h
    rw [h, hzhigh r, hcbit r hr]
  have hb0bit7 : (c1Stream x L op u % 2 ^ 8).testBit 7 = u.testBit (7 - (op + L)) := by
    have h := hb0high (7 - (op + L)) (by omega)
    rw [show op + L + (7 - (op + L)) = 7 by omega] at h
    exact h
  have hb1bit : ∀ r, r ≤ 7 →
      ((c1Stream x L op u >>> 8) % 2 ^ 8).testBit r = u.testBit (8 - (op + L) + r) := by
    intro r hr
    rw [hb1, window_testBit, decide_eq_true (by omega : r < 8), Bool.true_and]
  have hYshr : (c1Stream x L op u % 2 ^ 8) >>> (op + 1) =
      x + (u % 2 ^ (8 - (op + L))) * 2 ^ (L - 1) := by
    have hzY : (1 + 2 * x) + (u % 2 ^ (8 - (op + L))) * 2 ^ L =
        1 + 2 * (x + (u % 2 ^ (8 - (op + L))) * 2 ^ (L - 1)) := by
      rw [pow_split L 1 (L - 1) (by omega), pow_one]
      ring
    rw [hb0, Nat.shiftRight_eq_div_pow, pow_split (op + 1) op 1 (by omega),
      show ((1 + 2 * x) + (u % 2 ^ (8 - (op + L))) * 2 ^ L) * 2 ^ op =
        2 ^ op * ((1 + 2 * x) + (u % 2 ^ (8 - (op + L))) * 2 ^ L) by ring,
      Nat.mul_div_mul_left _ _ (Nat.pos_pow_of_pos _ (by norm_num)), pow_one, hzY]
    omega
  have hnadig : nonAdjW ((c1Stream x L op u % 2 ^ 8) >>> (op + 1)) (L - 1) := by
    apply nonAdjW_congr _ x
    · intro t ht
      rw [hYshr]
      exact testBit_add_mul_pow_low _ _ _ t hx ht
    · intro t _ _ hcon
      exact hna t hcon
  have hhead : wval (((c1Stream x L op u % 2 ^ 8) >>> (op + 1)) % 2 ^ (L - 1)) (L - 1) 1 =
      wval x (L - 1) 1 := by
    rw [hYshr, Nat.add_mul_mod_self_right, Nat.mod_eq_of_lt hx]
  have hmod0 : (c1Stream x L op u % 2 ^ 8) % 2 ^ op = 0 := by
    rw [hb0]
    exact Nat.mul_mod_left _ _
  have hpop : (c1Stream x L op u % 2 ^ 8).testBit op = true := by
    have h := hb0bit 0
    rw [Nat.add_zero] at h
    rw [h, hzlow 0 (by omega), hw0]
  have hpop1 : (c1Stream x L op u % 2 ^ 8).testBit (op + 1) = true := by
    rw [hb0bit 1, hzlow 1 (by omega), hwx 0, hbit0]
  have hpop2 : (c1Stream x L op u % 2 ^ 8).testBit (op + 2) = false := by
    rw [hb0bit 2, hzlow 2 (by omega), hwx 1, hbit1]
  have hpom : (c1Stream x L op u % 2 ^ 8).testBit (op + L) = true := by
    have h := hb0high 0 (by omega)
    rw [Nat.add_zero] at h
    rw [h, hu0]
  have hdisc : decodeBuffer (if 0 < op then ([] : List Nat) ++ [0] else [])
      (if op = 0 then 8 else op) ≤ 1 := by
    by_cases hop0 : op = 0
    · subst hop0
      rw [if_neg (lt_irrefl 0), if_pos rfl]
      have h : decodeBuffer ([] : List Nat) 8 = 0 := rfl
      omega
    · rw [if_pos (by omega), if_neg hop0, List.nil_append]
      have h : decodeBuffer [0] op = 0 := rfl
      omega
  -- set up the loop
  rw [c1Tail_cons x L op u 0 rest (by omega), c1Tail_cons x L op u 1 rest (by omega)]
  rw [show 8 * 0 = 0 by norm_num, Nat.shiftRight_zero, show 8 * 1 = 8 by norm_num]
  show fibdecodeLoop 1 (((c1Stream x L op u >>> 8) % 2 ^ 8) :: c1Tail x L op u (1 + 1) rest)
    (c1Stream x L op u % 2 ^ 8) (fibTable1 (c1Stream x L op u % 2 ^ 8)) [] [] =
    [wval x (L - 1) 1 - 2]
  by_cases hP7 : op + L = 7
  · -- straddling closing pair: always the reread path
    have hm7 : merged7Hyp (c1Stream x L op u % 2 ^ 8) op := by
      refine ⟨hmod0, hpop, hpop1, hpop2, ?_, ?_⟩
      · have h : nonAdjW ((c1Stream x L op u % 2 ^ 8) >>> (op + 1)) (L - 1) := hnadig
        rw [show 6 - op = L - 1 by omega]
        exact h
      · rw [hb0bit7, show 7 - (op + L) = 0 by omega, hu0]
    have hm7T := table2_merged7 _ hb0lt op (by omega) hm7
    have hcond1 : ((c1Stream x L op u >>> 8) % 2 ^ 8) &&& 1 = 1 ∧
        (fibTable1 ((c1Stream x L op u >>> 8) % 2 ^ 8)).shift > 0 := by
      constructor
      · rw [and1_iff _ hb1lt, hb1bit 0 (by norm_num),
          show 8 - (op + L) + 0 = 1 by omega, hu1]
      · rcases Bool.eq_false_or_eq_true (u.testBit 2) with hu2 | hu2f
        · obtain ⟨hu3, hu4b⟩ := huP hu2
          refine table1_shiftpos7 _ hb1lt (mod16_of_bits7 _ ?_ ?_ ?_ ?_)
          · rw [hb1bit 0 (by norm_num), show 8 - (op + L) + 0 = 1 by omega, hu1]
          · rw [hb1bit 1 (by norm_num), show 8 - (op + L) + 1 = 2 by omega, hu2]
          · rw [hb1bit 2 (by norm_num), show 8 - (op + L) + 2 = 3 by omega, hu3]
          · rw [hb1bit 3 (by norm_num), show 8 - (op + L) + 3 = 4 by omega, hu4b]
        · refine table1_shiftpos1 _ hb1lt (mod4_of_bits1 _ ?_ ?_)
          · rw [hb1bit 0 (by norm_num), show 8 - (op + L) + 0 = 1 by omega, hu1]
          · rw [hb1bit 1 (by norm_num), show 8 - (op + L) + 1 = 2 by omega, hu2f]
    have hb7t : (c1Stream x L op u % 2 ^ 8).testBit 7 = true := by
      rw [hb0bit7, show 7 - (op + L) = 0 by omega, hu0]
    have hand7 : (c1Stream x L op u % 2 ^ 8) &&& 0x80 ≠ 0 := by
      intro hcon
      have h := (and128_iff _ hb0lt).mp hcon
      rw [hb7t] at h
      exact Bool.noConfusion h
    refine loop_flush_merged7 (c1Stream x L op u % 2 ^ 8)
      ((c1Stream x L op u >>> 8) % 2 ^ 8) op
      (wval (((c1Stream x L op u % 2 ^ 8) >>> (op + 1)) % 2 ^ (6 - op)) (6 - op) 1)
      (wval x (L - 1) 1) [] (c1Tail x L op u (1 + 1) rest)
      (by rw [if_pos hcond1, hm7T]) ⟨hcond1, hand7⟩ hdisc ?_ hM
    rw [show 6 - op = L - 1 by omega]
    exact hhead
  · -- closing pair inside the byte
    have hP6 : op + L ≤ 6 := by omega
    have hpom1 : (c1Stream x L op u % 2 ^ 8).testBit (op + L + 1) = true := by
      rw [hb0high 1 (by omega), hu1]
    have hMH : mergedHyp (c1Stream x L op u % 2 ^ 8) op (op + L) ∨
        (op + L = 5 ∧ u.testBit 2 = true) := by
      rcases Bool.eq_false_or_eq_true (u.testBit 2) with hu2 | hu2f
      · by_cases hP5 : op + L = 5
        · right
          exact ⟨hP5, hu2⟩
        · left
          refine ⟨by omega, hmod0, hpop, hpop1, hpop2, ?_, hpom, hpom1, ?_⟩
          · rw [show op + L - op - 1 = L - 1 by omega]
            exact hnadig
          · by_cases hP6' : op + L = 6
            · left
              intro hcon
              omega
            · right
              obtain ⟨hu3, hu4b⟩ := huP hu2
              refine ⟨by omega, ?_, fun _ => ?_, fun _ => ?_⟩
              · rw [hb0high 2 (by omega), hu2]
              · rw [hb0high 3 (by omega), hu3]
              · rw [hb0high 4 (by omega), hu4b]
      · left
        refine ⟨by omega, hmod0, hpop, hpop1, hpop2, ?_, hpom, hpom1, Or.inl fun h2 => ?_⟩
        · rw [show op + L - op - 1 = L - 1 by omega]
          exact hnadig
        · rw [hb0high 2 (by omega), hu2f]
    have hMHmid : (c1Stream x L op u % 2 ^ 8).testBit 7 = true →
        (mergedMidHyp (c1Stream x L op u % 2 ^ 8) op (op + L) ∧ op + L ≤ 5) ∨
        (op + L = 4 ∧ u.testBit 2 = true) ∨ (op + L = 3 ∧ u.testBit 2 = true) ∨
        (op + L = 6) := by
      intro hb7t
      by_cases hP6' : op + L = 6
      · right
        right
        right
        exact hP6'
      · rcases Bool.eq_false_or_eq_true (u.testBit 2) with hu2 | hu2f
        · by_cases hP5 : op + L = 5
          · left
            refine ⟨⟨by omega, by omega, hmod0, hpop, hpop1, hpop2, ?_, hpom, hpom1,
              hb7t, fun hcon => by omega⟩, by omega⟩
            rw [show op + L - op - 1 = L - 1 by omega]
            exact hnadig
          · by_cases hP4 : op + L = 4
            · right
              left
              exact ⟨hP4, hu2⟩
            · right
              right
              left
              exact ⟨by omega, hu2⟩
        · left
          refine ⟨⟨by omega, by omega, hmod0, hpop, hpop1, hpop2, ?_, hpom, hpom1,
            hb7t, fun h2 => ?_⟩, by omega⟩
          · rw [show op + L - op - 1 = L - 1 by omega]
            exact hnadig
          · rw [hb0high 2 (by omega), hu2f]
    -- numbers of the table-1 record
    have hfin1 : ∀ R : fibRecord,
        (if ((c1Stream x L op u >>> 8) % 2 ^ 8) &&& 1 = 1 ∧
          (fibTable1 ((c1Stream x L op u >>> 8) % 2 ^ 8)).shift > 0
          then fibTable2 (c1Stream x L op u % 2 ^ 8)
          else fibTable1 (c1Stream x L op u % 2 ^ 8)) = R →
        R.shift = op → R.incomplete = 0 → 2 ≤ R.numbers.length →
        R.numbers.headD 0 =
          wval (((c1Stream x L op u % 2 ^ 8) >>> (op + 1)) % 2 ^ (op + L - op - 1))
            (op + L - op - 1) 1 →
        fibdecodeLoop 1
          (((c1Stream x L op u >>> 8) % 2 ^ 8) :: c1Tail x L op u (1 + 1) rest)
          (c1Stream x L op u % 2 ^ 8) (fibTable1 (c1Stream x L op u % 2 ^ 8)) [] [] =
          [wval x (L - 1) 1 - 2] := by
      intro R hsel hsh hinc hlen hhd
      rcases hnums : R.numbers with _ | ⟨g, rest2⟩
      · rw [hnums] at hlen
        simp at hlen
      · rcases hnums2 : rest2 with _ | ⟨g2, gs⟩
        · rw [hnums, hnums2] at hlen
          simp at hlen
        · have hReq : R = ⟨op, g :: g2 :: gs, 0⟩ := by
            have heta : R = ⟨R.shift, R.numbers, R.incomplete⟩ := rfl
            rw [heta, hsh, hinc, hnums, hnums2]
          have hgM : g = wval x (L - 1) 1 := by
            rw [hnums, hnums2] at hhd
            have : g = wval (((c1Stream x L op u % 2 ^ 8) >>> (op + 1)) %
                2 ^ (op + L - op - 1)) (op + L - op - 1) 1 := hhd
            rw [this, show op + L - op - 1 = L - 1 by omega]
            exact hhead
          exact loop_flush_merged (c1Stream x L op u % 2 ^ 8)
            ((c1Stream x L op u >>> 8) % 2 ^ 8) op g g2 (wval x (L - 1) 1) gs []
            (c1Tail x L op u (1 + 1) rest) (by rw [hsel, hReq]) hdisc hgM hM
    by_cases hc'' : ((c1Stream x L op u >>> 8) % 2 ^ 8) &&& 1 = 1 ∧
        (fibTable1 ((c1Stream x L op u >>> 8) % 2 ^ 8)).shift > 0
    · by_cases hb7 : (c1Stream x L op u % 2 ^ 8).testBit 7 = true
      · rcases hMHmid hb7 with ⟨hmid, hmP5⟩ | ⟨hP4, hu2⟩ | ⟨hP3, hu2⟩ | hP6'
        · obtain ⟨hT2s, hT2i, hT2l, hT2h⟩ :=
            table2_merged_mid _ hb0lt op (by omega) (op + L) (by omega) hmid
          exact hfin1 _ (if_pos hc'') hT2s hT2i hT2l hT2h
        · exfalso
          obtain ⟨hu3, hu4b⟩ := huP hu2
          have h0 : ((c1Stream x L op u >>> 8) % 2 ^ 8).testBit 0 = false := by
            rw [hb1bit 0 (by norm_num), show 8 - (op + L) + 0 = 4 by omega, hu4b]
          have h1 := (and1_iff _ hb1lt).mp hc''.1
          rw [h0] at h1
          exact Bool.noConfusion h1
        · exfalso
          obtain ⟨hu3, hu4b⟩ := huP hu2
          have h7f : (c1Stream x L op u % 2 ^ 8).testBit 7 = u.testBit 4 := by
            rw [hb0bit7, show 7 - (op + L) = 4 by omega]
          rw [hb7, hu4b] at h7f
          exact Bool.noConfusion h7f
        · exfalso
          rcases Bool.eq_false_or_eq_true (u.testBit 2) with hu2 | hu2f
          · obtain ⟨hu3, hu4b⟩ := huP hu2
            have hsh0 : (fibTable1 ((c1Stream x L op u >>> 8) % 2 ^ 8)).shift = 0 := by
              refine table1_shift0 _ hb1lt (mod8_of_bits3 _ ?_ ?_ ?_)
              · rw [hb1bit 0 (by norm_num), show 8 - (op + L) + 0 = 2 by omega, hu2]
              · rw [hb1bit 1 (by norm_num), show 8 - (op + L) + 1 = 3 by omega, hu3]
              · rw [hb1bit 2 (by norm_num), show 8 - (op + L) + 2 = 4 by omega, hu4b]
            have := hc''.2
            omega
          · have h0 : ((c1Stream x L op u >>> 8) % 2 ^ 8).testBit 0 = false := by
              rw [hb1bit 0 (by norm_num), show 8 - (op + L) + 0 = 2 by omega, hu2f]
            have h1 := (and1_iff _ hb1lt).mp hc''.1
            rw [h0] at h1
            exact Bool.noConfusion h1
      · have hb7f : (c1Stream x L op u % 2 ^ 8).testBit 7 = false := by
          rcases Bool.eq_false_or_eq_true ((c1Stream x L op u % 2 ^ 8).testBit 7) with h | h
          · exact absurd h hb7
          · exact h
        have hft2 : fibTable2 (c1Stream x L op u % 2 ^ 8) =
            fibTable1 (c1Stream x L op u % 2 ^ 8) := by
          unfold fibTable2
          rw [if_neg]
          intro hcon
          exact hcon ((and128_iff _ hb0lt).mpr hb7f)
        rcases hMH with hMH' | ⟨hP5, hu2⟩
        · obtain ⟨hT1s, hT1i, hT1l, hT1h⟩ := table1_merged _ hb0lt op (by omega)
            (op + L) (by omega) hMH'
          exact hfin1 _ (by rw [if_pos hc'', hft2]) hT1s hT1i hT1l hT1h
        · exfalso
          have h7t : (c1Stream x L op u % 2 ^ 8).testBit 7 = true := by
            rw [hb0bit7, show 7 - (op + L) = 2 by omega, hu2]
          rw [h7t] at hb7f
          exact Bool.noConfusion hb7f
    · rcases hMH with hMH' | ⟨hP5, hu2⟩
      · obtain ⟨hT1s, hT1i, hT1l, hT1h⟩ := table1_merged _ hb0lt op (by omega)
          (op + L) (by omega) hMH'
        exact hfin1 _ (if_neg hc'') hT1s hT1i hT1l hT1h
      · exfalso
        obtain ⟨hu3, hu4b⟩ := huP hu2
        refine hc'' ⟨?_, ?_⟩
        · rw [and1_iff _ hb1lt, hb1bit 0 (by norm_num),
            show 8 - (op + L) + 0 = 3 by omega, hu3]
        · refine table1_shiftpos1 _ hb1lt (mod4_of_bits1 _ ?_ ?_)
          · rw [hb1bit 0 (by norm_num), show 8 - (op + L) + 0 = 3 by omega, hu3]
          · rw [hb1bit 1 (by norm_num), show 8 - (op + L) + 1 = 4 by omega, hu4b]

end Fibvec
